import Mathlib

/-!
# Huffman file compression (`compression.cpp`)

A shallow embedding of the compression pipeline of `compression.cpp`:
the frequency counting loop, `buildHuffmanTree`, `generateHuffmanCodes`,
the encoding loop and the bit packing loop of `compressFile`.

Two pieces of the C++ standard library are left open by the language
standard and are therefore parameters of the embedding:

* `std::priority_queue` fixes which node `top()` returns only up to the
  comparator: among several nodes of least frequency any one may be on top
  (`PriorityQueue`);
* `std::unordered_map` fixes no iteration order (`MapOrder`).

Values of type `int` are integers kept in the range from -2147483648 to
2147483647 of a 32-bit `int`: every `int` addition of the program is
followed by `wrapInt`.  (The C++ standard leaves signed overflow undefined;
the compiled program wraps around.)
-/

namespace Huffman

/-! ## The program -/

/-- One byte value, the type of `char data`. -/
abbrev Symbol := Fin 256

/-- The largest value of type `int`. -/
def INT_MAX : Int := 2147483647

/-- The value of an `int` result in the compiled program: the integer brought
into the range from `-2147483648` to `2147483647` by wrap-around. -/
def wrapInt (x : Int) : Int :=
  (x + 2147483648) % 4294967296 - 2147483648

/-- A value of type `HuffmanNode*`: either `nullptr` or a node holding
`data`, `frequency` and the two child pointers `left`, `right`. -/
inductive HuffmanNode where
  | null : HuffmanNode
  | node (data : Symbol) (frequency : Int) (left right : HuffmanNode) : HuffmanNode
  deriving DecidableEq

namespace HuffmanNode

/-- The constructor `HuffmanNode(data, frequency)`: both children are `nullptr`. -/
def mk (data : Symbol) (frequency : Int) : HuffmanNode :=
  node data frequency null null

/-- Field access `p->frequency` (never evaluated on `nullptr` by the program). -/
def frequency : HuffmanNode → Int
  | null => 0
  | node _ f _ _ => f

/-- Test `p == nullptr`. -/
def isNull : HuffmanNode → Bool
  | null => true
  | node _ _ _ _ => false

end HuffmanNode

/-- The comparator `CompareNodes::operator()`. -/
def CompareNodes (lhs rhs : HuffmanNode) : Bool :=
  decide (lhs.frequency > rhs.frequency)

/-- The interface of `std::priority_queue<HuffmanNode*, vector<HuffmanNode*>, CompareNodes>`
together with what the C++ standard guarantees about it.  `contents` is the
multiset of stored pointers; `top` yields `none` exactly on an empty queue
(where calling `top()` is undefined behaviour), and otherwise a stored node
that `CompareNodes` ranks below no other stored node, that is, one of least
frequency.  Which of several such nodes is on top is up to the instance. -/
structure PriorityQueue where
  /-- States of the queue. -/
  Queue : Type
  /-- The default constructed queue. -/
  empty : Queue
  /-- The member `push`. -/
  push : Queue → HuffmanNode → Queue
  /-- The member `top`. -/
  top : Queue → Option HuffmanNode
  /-- The member `pop`. -/
  pop : Queue → Queue
  /-- The member `size`. -/
  size : Queue → Nat
  /-- The stored nodes. -/
  contents : Queue → Multiset HuffmanNode
  contents_empty : contents empty = 0
  contents_push : ∀ q x, contents (push q x) = x ::ₘ contents q
  size_eq : ∀ q, size q = Multiset.card (contents q)
  top_none : ∀ q, contents q = 0 → top q = none
  top_mem : ∀ q x, top q = some x → x ∈ contents q
  top_least : ∀ q x, top q = some x → ∀ y ∈ contents q, CompareNodes x y = false
  top_some : ∀ q, contents q ≠ 0 → ∃ x, top q = some x
  contents_pop : ∀ q x, top q = some x → contents (pop q) = (contents q).erase x

/-- The ways in which the embedded program can fail to produce a value. -/
inductive Fault where
  /-- The call `pq.top()` on an empty queue: undefined behaviour in C++. -/
  | topOfEmptyQueue : Fault
  /-- The iteration budget of the embedding of a `while` loop ran out
  (shown below never to happen). -/
  | outOfFuel : Fault
  deriving DecidableEq

/-- The seeding loop of `buildHuffmanTree`: one leaf per map entry, pushed in
the iteration order of the map. -/
def seedQueue (Q : PriorityQueue) : List (Symbol × Int) → Q.Queue → Q.Queue
  | [], pq => pq
  | pair :: rest, pq => seedQueue Q rest (Q.push pq (HuffmanNode.mk pair.1 pair.2))

/-- The loop `while (pq.size() > 1) { ... }` of `buildHuffmanTree`, run for at
most the given number of iterations. -/
def combineLoop (Q : PriorityQueue) : Nat → Q.Queue → Except Fault Q.Queue
  | 0, pq => if Q.size pq > 1 then Except.error Fault.outOfFuel else Except.ok pq
  | fuel + 1, pq =>
    if Q.size pq > 1 then
      match Q.top pq with
      | none => Except.error Fault.topOfEmptyQueue
      | some left =>
        let pq1 := Q.pop pq
        match Q.top pq1 with
        | none => Except.error Fault.topOfEmptyQueue
        | some right =>
          let pq2 := Q.pop pq1
          let combinedFrequency := wrapInt (left.frequency + right.frequency)
          let newNode := HuffmanNode.node 0 combinedFrequency left right
          combineLoop Q fuel (Q.push pq2 newNode)
    else Except.ok pq

/-- The function `buildHuffmanTree`, given the entries of `freqMap` in the
order in which the range-for loop meets them. -/
def buildHuffmanTree (Q : PriorityQueue) (freqMap : List (Symbol × Int)) :
    Except Fault HuffmanNode :=
  let pq := seedQueue Q freqMap Q.empty
  match combineLoop Q (Q.size pq) pq with
  | Except.error e => Except.error e
  | Except.ok pq1 =>
    match Q.top pq1 with
    | none => Except.error Fault.topOfEmptyQueue
    | some root => Except.ok root

/-- The contents of a `std::unordered_map<char, V>`: at most one value per key. -/
abbrev UnorderedMap (V : Type) := Symbol → Option V

/-- The empty map. -/
def UnorderedMap.empty (V : Type) : UnorderedMap V := fun _ => none

/-- A `std::string`, as its sequence of characters. -/
abbrev CString := List Char

/-- The function `generateHuffmanCodes`; the map passed by reference is
threaded through. -/
def generateHuffmanCodes : HuffmanNode → CString → UnorderedMap CString → UnorderedMap CString
  | HuffmanNode.null, _, huffmanCodes => huffmanCodes
  | HuffmanNode.node data _ left right, code, huffmanCodes =>
    let codes1 :=
      if left.isNull && right.isNull then Function.update huffmanCodes data (some code)
      else huffmanCodes
    let codes2 := generateHuffmanCodes left (code ++ ['0']) codes1
    generateHuffmanCodes right (code ++ ['1']) codes2

/-- The counting loop of `compressFile`: `freqMap[ch]++` for each input byte
(`operator[]` inserts a zero count for a new key). -/
def countFrequencies : List Symbol → UnorderedMap Int → UnorderedMap Int
  | [], freqMap => freqMap
  | ch :: rest, freqMap =>
    countFrequencies rest
      (Function.update freqMap ch (some (wrapInt ((freqMap ch).getD 0 + 1))))

/-- The iteration order of `std::unordered_map<char, int>`: every entry once,
in an order the standard leaves open. -/
structure MapOrder where
  /-- The entries in the order a range-for loop meets them. -/
  entries : UnorderedMap Int → List (Symbol × Int)
  nodup_keys : ∀ m, ((entries m).map Prod.fst).Nodup
  mem_entries : ∀ m k v, (k, v) ∈ entries m ↔ m k = some v

/-- The expression `huffmanCodes[ch]`: the stored string, and the map
afterwards; `operator[]` inserts an empty string for a missing key. -/
def subscript (huffmanCodes : UnorderedMap CString) (ch : Symbol) :
    CString × UnorderedMap CString :=
  match huffmanCodes ch with
  | some code => (code, huffmanCodes)
  | none => ([], Function.update huffmanCodes ch (some []))

/-- The encoding loop of `compressFile`: `encodedBits += huffmanCodes[ch]` for
each input byte. -/
def encodeInput : List Symbol → CString → UnorderedMap CString → CString × UnorderedMap CString
  | [], encodedBits, huffmanCodes => (encodedBits, huffmanCodes)
  | ch :: rest, encodedBits, huffmanCodes =>
    let r := subscript huffmanCodes ch
    encodeInput rest (encodedBits ++ r.1) r.2

/-- A `std::bitset<8>`: the bit at each position (positions 0 to 7 are used). -/
abbrev Bitset8 := Nat → Bool

/-- The member `to_ulong` of `bitset<8>`. -/
def to_ulong (bits : Bitset8) : Nat :=
  ((List.range 8).map (fun k => if bits k then 2 ^ k else 0)).sum

/-- The packing loop of `compressFile`, from index `i` on: `size` is
`encodedBits.size()`, the list holds the characters from index `i`, and
`output` the bytes written so far. -/
def packLoop (size : Nat) : Nat → CString → Bitset8 → List Nat → List Nat
  | _, [], _, output => output
  | i, c :: rest, bits, output =>
    let bits1 := Function.update bits (7 - i % 8) (c == '1')
    let output1 :=
      if (i + 1) % 8 == 0 || i == size - 1 then output ++ [to_ulong bits1] else output
    packLoop size (i + 1) rest bits1 output1

/-- The bytes written for a given `encodedBits`. -/
def packBits (encodedBits : CString) : List Nat :=
  packLoop encodedBits.length 0 encodedBits (fun _ => false) []

/-- The function `compressFile` on the content of the input file; the result
is the content written to the output file. -/
def compressFile (Q : PriorityQueue) (M : MapOrder) (input : List Symbol) :
    Except Fault (List Nat) :=
  let freqMap := countFrequencies input (UnorderedMap.empty Int)
  match buildHuffmanTree Q (M.entries freqMap) with
  | Except.error e => Except.error e
  | Except.ok root =>
    let huffmanCodes := generateHuffmanCodes root [] (UnorderedMap.empty CString)
    let encodedBits := (encodeInput input [] huffmanCodes).1
    Except.ok (packBits encodedBits)

/-! ## A concrete priority queue and two concrete iteration orders -/

/-- The first node of least frequency in a vector of nodes. -/
def firstMin : List HuffmanNode → Option HuffmanNode
  | [] => none
  | x :: xs =>
    match firstMin xs with
    | none => some x
    | some y => if CompareNodes x y then some y else some x

/-- The vector without its first node of least frequency. -/
def dropFirstMin : List HuffmanNode → List HuffmanNode
  | [] => []
  | x :: xs =>
    match firstMin xs with
    | none => []
    | some y => if CompareNodes x y then x :: dropFirstMin xs else xs

/-- A priority queue that keeps the nodes in a vector in the order of their
insertion and has the earliest inserted node of least frequency on top.  On
two or three nodes of equal frequency this is also what a binary heap kept
by `std::push_heap` and `std::pop_heap` does: a node pushed later is not
moved above an earlier one, and after the first node is popped the second
is on top. -/
def firstMinQueue : PriorityQueue where
  Queue := List HuffmanNode
  empty := []
  push q x := q ++ [x]
  top q := firstMin q
  pop q := dropFirstMin q
  size q := q.length
  contents q := (q : Multiset HuffmanNode)
  contents_empty := rfl
  contents_push q x := by
    show ((q ++ [x] : List HuffmanNode) : Multiset HuffmanNode) = x ::ₘ (q : Multiset HuffmanNode)
    rw [← Multiset.coe_add, ← Multiset.singleton_add, add_comm]
    rfl
  size_eq q := by simp
  top_none q h := by
    have : q = [] := by simpa using h
    simp [this, firstMin]
  top_mem q := by
    show ∀ x, firstMin q = some x → x ∈ (q : Multiset HuffmanNode)
    induction q with
    | nil => intro x h; simp [firstMin] at h
    | cons a xs ih =>
      intro x h
      rw [firstMin] at h
      cases h1 : firstMin xs with
      | none =>
        simp only [h1, Option.some.injEq] at h
        simp [h]
      | some y =>
        have hy := ih y h1
        cases c : CompareNodes a y with
        | true =>
          simp only [h1, c, if_true, Option.some.injEq] at h
          subst h
          simpa using Or.inr hy
        | false =>
          simp only [h1, c, Bool.false_eq_true, if_false, Option.some.injEq] at h
          simp [h]
  top_least q := by
    show ∀ x, firstMin q = some x → ∀ y ∈ (q : Multiset HuffmanNode), CompareNodes x y = false
    induction q with
    | nil => intro x h; simp [firstMin] at h
    | cons a xs ih =>
      intro x h y hy
      rw [firstMin] at h
      have hy1 : y = a ∨ y ∈ xs := by simpa using hy
      simp only [CompareNodes, decide_eq_false_iff_not, not_lt]
      cases h1 : firstMin xs with
      | none =>
        have hxs : xs = [] := by
          cases xs with
          | nil => rfl
          | cons b ys =>
            rw [firstMin] at h1
            split at h1
            · simp at h1
            · split at h1 <;> simp at h1
        subst hxs
        simp only [h1, Option.some.injEq] at h
        subst h
        rcases hy1 with rfl | hy1
        · exact le_refl _
        · simp at hy1
      | some z =>
        have hz : ∀ w ∈ xs, z.frequency ≤ w.frequency := by
          intro w hw
          have := ih z h1 w (by simpa using hw)
          simpa [CompareNodes] using this
        cases c : CompareNodes a z with
        | true =>
          simp only [h1, c, if_true, Option.some.injEq] at h
          subst h
          simp only [CompareNodes, decide_eq_true_eq] at c
          rcases hy1 with rfl | hy1
          · exact le_of_lt c
          · exact hz y hy1
        | false =>
          simp only [h1, c, Bool.false_eq_true, if_false, Option.some.injEq] at h
          subst h
          simp only [CompareNodes, decide_eq_false_iff_not, not_lt] at c
          rcases hy1 with rfl | hy1
          · exact le_refl _
          · exact le_trans c (hz y hy1)
  top_some q h := by
    cases q with
    | nil => exact absurd rfl h
    | cons a xs =>
      show ∃ x, firstMin (a :: xs) = some x
      rw [firstMin]
      split
      · exact ⟨_, rfl⟩
      · split <;> exact ⟨_, rfl⟩
  contents_pop q := by
    show ∀ x, firstMin q = some x →
      ((dropFirstMin q : List HuffmanNode) : Multiset HuffmanNode) =
        (q : Multiset HuffmanNode).erase x
    induction q with
    | nil => intro x h; simp [firstMin] at h
    | cons a xs ih =>
      intro x h
      rw [firstMin] at h
      rw [dropFirstMin]
      cases h1 : firstMin xs with
      | none =>
        have hxs : xs = [] := by
          cases xs with
          | nil => rfl
          | cons b ys =>
            rw [firstMin] at h1
            split at h1
            · simp at h1
            · split at h1 <;> simp at h1
        subst hxs
        simp only [h1, Option.some.injEq] at h
        subst h
        simp
      | some z =>
        cases c : CompareNodes a z with
        | true =>
          simp only [h1, c, if_true, Option.some.injEq] at h
          subst h
          have hne : a ≠ z := by
            intro e
            subst e
            simp [CompareNodes] at c
          simp only [c, if_true]
          rw [← Multiset.cons_coe, ← Multiset.cons_coe, ih z h1, Multiset.erase_cons_tail _ hne]
        | false =>
          simp only [h1, c, Bool.false_eq_true, if_false, Option.some.injEq] at h
          subst h
          simp [c]

/-- The entries of a map by ascending key. -/
def ascendingEntries (m : UnorderedMap Int) : List (Symbol × Int) :=
  ((List.finRange 256).filter (fun k => (m k).isSome)).map (fun k => (k, (m k).getD 0))

/-- Iteration by ascending key. -/
def ascendingOrder : MapOrder where
  entries := ascendingEntries
  nodup_keys m := by
    have h : (ascendingEntries m).map Prod.fst =
        (List.finRange 256).filter (fun k => (m k).isSome) := by
      simp [ascendingEntries, Function.comp_def]
    rw [h]
    exact (List.nodup_finRange 256).filter _
  mem_entries m k v := by
    simp only [ascendingEntries, List.mem_map, List.mem_filter, List.mem_finRange, true_and,
      Prod.mk.injEq]
    constructor
    · rintro ⟨a, ha, rfl, rfl⟩
      cases h : m a with
      | none => simp [h] at ha
      | some w => simp
    · intro h
      exact ⟨k, by simp [h], rfl, by simp [h]⟩

/-- Iteration by descending key. -/
def descendingOrder : MapOrder where
  entries m := (ascendingEntries m).reverse
  nodup_keys m := by
    have h : (ascendingEntries m).map Prod.fst =
        (List.finRange 256).filter (fun k => (m k).isSome) := by
      simp [ascendingEntries, Function.comp_def]
    rw [List.map_reverse, List.nodup_reverse, h]
    exact (List.nodup_finRange 256).filter _
  mem_entries m k v := by
    rw [List.mem_reverse]
    simp only [ascendingEntries, List.mem_map, List.mem_filter, List.mem_finRange, true_and,
      Prod.mk.injEq]
    constructor
    · rintro ⟨a, ha, rfl, rfl⟩
      cases h : m a with
      | none => simp [h] at ha
      | some w => simp
    · intro h
      exact ⟨k, by simp [h], rfl, by simp [h]⟩

/-! ## Notions used to state and prove the properties -/

namespace HuffmanNode

/-- The leaves of a tree, left to right, as pairs of `data` and `frequency`;
a leaf is a node whose two child pointers are both `nullptr`, the test made
by `generateHuffmanCodes`. -/
def leaves : HuffmanNode → List (Symbol × Int)
  | null => []
  | node d f l r => if l.isNull && r.isNull then [(d, f)] else leaves l ++ leaves r

/-- The multiset of the frequencies carried by the leaves. -/
def leafWeights (t : HuffmanNode) : Multiset Int :=
  (((leaves t).map Prod.snd : List Int) : Multiset Int)

/-- The sum of the frequencies carried by the leaves. -/
def leafSum (t : HuffmanNode) : Int :=
  ((leaves t).map Prod.snd).sum

/-- The sum over the leaves of (depth of the leaf) * (frequency of the leaf),
where the root of the tree lies at depth `d`. -/
def weightedPathLengthAt : Nat → HuffmanNode → Int
  | _, null => 0
  | d, node _ f l r =>
    if l.isNull && r.isNull then (d : Int) * f
    else weightedPathLengthAt (d + 1) l + weightedPathLengthAt (d + 1) r

/-- The weighted path length of a tree: the sum over its leaves of depth
times frequency. -/
def weightedPathLength (t : HuffmanNode) : Int :=
  weightedPathLengthAt 0 t

end HuffmanNode

/-- A binary tree in which every inner node has two children and every leaf
carries a weight: the shapes to which every tree of `HuffmanNode`s with a
leaf can be pruned without raising its weighted path length. -/
inductive WTree where
  | leaf (w : Nat) : WTree
  | node (l r : WTree) : WTree

namespace WTree

/-- The multiset of leaf weights. -/
def weights : WTree → Multiset Nat
  | leaf w => {w}
  | node l r => weights l + weights r

/-- The weighted path length with the root at depth `d`. -/
def costAt : Nat → WTree → Nat
  | d, leaf w => d * w
  | d, node l r => costAt (d + 1) l + costAt (d + 1) r

/-- The height of the tree. -/
def height : WTree → Nat
  | leaf _ => 0
  | node l r => max (height l) (height r) + 1

/-- The same tree built from `HuffmanNode`s. -/
def toNode : WTree → HuffmanNode
  | leaf w => HuffmanNode.node 0 (w : Int) HuffmanNode.null HuffmanNode.null
  | node l r => HuffmanNode.node 0 0 (toNode l) (toNode r)

end WTree

/-- The leaves with which the queue is seeded. -/
def seedNodes (freqMap : List (Symbol × Int)) : Multiset HuffmanNode :=
  ((freqMap.map (fun p => HuffmanNode.mk p.1 p.2) : List HuffmanNode) : Multiset HuffmanNode)

/-- The node made by one iteration of the combining loop. -/
def combine (left right : HuffmanNode) : HuffmanNode :=
  HuffmanNode.node 0 (wrapInt (left.frequency + right.frequency)) left right

/-- A queued node is a real node whose `frequency` is the sum of the
frequencies of the leaves below it. -/
def Consistent (t : HuffmanNode) : Prop :=
  t.isNull = false ∧ t.frequency = t.leafSum

/-- All leaves of the queued trees, as a multiset of (`data`, `frequency`). -/
def forestLeaves (s : Multiset HuffmanNode) : Multiset (Symbol × Int) :=
  (s.map (fun t => ((t.leaves : List (Symbol × Int)) : Multiset (Symbol × Int)))).sum

/-- The sum of the weighted path lengths of the queued trees. -/
def forestCost (s : Multiset HuffmanNode) : Int :=
  (s.map HuffmanNode.weightedPathLength).sum

/-- The frequency map has non-negative counts whose sum fits into an `int`. -/
def FitsInt (freqMap : List (Symbol × Int)) : Prop :=
  (∀ p ∈ freqMap, 0 ≤ p.2) ∧ (freqMap.map Prod.snd).sum ≤ INT_MAX

/-- The invariant of the combining loop behind optimality, for a map `E`
that fits into an `int`: the queued trees carry the entries of `E` on their
leaves and the sums of their leaves in their roots, and every tree `t` over
the weights of `E` can be turned into a tree over the frequencies of the
queued nodes whose weighted path length, together with the path lengths
inside the queued trees, does not exceed that of `t`. -/
def OptInv (E : List (Symbol × Int)) (s : Multiset HuffmanNode) : Prop :=
  (∀ t ∈ s, Consistent t) ∧
    forestLeaves s = (E : Multiset (Symbol × Int)) ∧
    ∀ t : HuffmanNode, t.leafWeights = ((E.map Prod.snd : List Int) : Multiset Int) →
      ∃ c : HuffmanNode, c.leafWeights = s.map HuffmanNode.frequency ∧
        forestCost s + c.weightedPathLength ≤ t.weightedPathLength

/-- The assignments `huffmanCodes[data] = code` made by `generateHuffmanCodes`
on a tree, in the order in which they are made. -/
def leafCodes : HuffmanNode → CString → List (Symbol × CString)
  | HuffmanNode.null, _ => []
  | HuffmanNode.node data _ left right, code =>
    if left.isNull && right.isNull then [(data, code)]
    else leafCodes left (code ++ ['0']) ++ leafCodes right (code ++ ['1'])

/-- A run of assignments `m[k] = v`. -/
def assignAll {V : Type} (m : UnorderedMap V) (l : List (Symbol × V)) : UnorderedMap V :=
  l.foldl (fun acc p => Function.update acc p.1 (some p.2)) m

/-- Neither of two strings is an initial segment of the other. -/
def Unrelated (c1 c2 : CString) : Prop :=
  ¬ c1 <+: c2 ∧ ¬ c2 <+: c1

/-- The state of `bits` after the packing loop has handled the first `n`
characters of `encodedBits`. -/
def bitsAfter (encodedBits : CString) : Nat → Bitset8
  | 0 => fun _ => false
  | n + 1 => Function.update (bitsAfter encodedBits n) (7 - n % 8) (encodedBits.getD n '0' == '1')

/-- The test under which the packing loop writes a byte at index `i`. -/
def emits (size i : Nat) : Bool :=
  (i + 1) % 8 == 0 || i == size - 1

/-- The concatenation of the codewords of the input bytes, a missing
codeword counting as the empty string. -/
def concatCodes (huffmanCodes : UnorderedMap CString) : List Symbol → CString
  | [] => []
  | ch :: rest => (huffmanCodes ch).getD [] ++ concatCodes huffmanCodes rest

namespace HuffmanNode

/-- The root-to-leaf paths of a tree in the words of the specification: for
every leaf its symbol and the string that has the character 0 for each
descent to a left child and the character 1 for each descent to a right
child, from the root down. -/
def rootPaths : HuffmanNode → List (Symbol × CString)
  | null => []
  | node d _ l r =>
    if l.isNull && r.isNull then [(d, [])]
    else (rootPaths l).map (fun p => (p.1, '0' :: p.2)) ++
      (rootPaths r).map (fun p => (p.1, '1' :: p.2))

/-- Every node of the tree has either no child or two children. -/
def zeroOrTwoChildren : HuffmanNode → Bool
  | null => true
  | node _ _ l r => (l.isNull == r.isNull) && zeroOrTwoChildren l && zeroOrTwoChildren r

/-- Field access `p->left`. -/
def left : HuffmanNode → HuffmanNode
  | null => null
  | node _ _ l _ => l

/-- Field access `p->right`. -/
def right : HuffmanNode → HuffmanNode
  | null => null
  | node _ _ _ r => r

/-- All nodes of a tree: the root and the nodes below it. -/
def nodes : HuffmanNode → List HuffmanNode
  | null => []
  | node d f l r => node d f l r :: (nodes l ++ nodes r)

end HuffmanNode

/-- A node is a leaf or has two children. -/
def ChildrenOk (n : HuffmanNode) : Prop :=
  (n.left.isNull = true ∧ n.right.isNull = true) ∨
    (n.left.isNull = false ∧ n.right.isNull = false)

namespace HuffmanNode

/-- The tree with the same shape and symbols in which every node carries the
frequency that `g` gives to its symbol. -/
def relabel (g : Symbol → Int) : HuffmanNode → HuffmanNode
  | null => null
  | node d _ l r => node d (g d) (relabel g l) (relabel g r)

end HuffmanNode

/-- The queued node whose frequency is strictly below that of every other
queued node, when there is one: the node that every priority queue has on
top. -/
def strictMin (L : List HuffmanNode) : Option HuffmanNode :=
  L.find? (fun x => L.all (fun y => decide (y = x) || decide (x.frequency < y.frequency)))

/-- The combining loop on the list of queued nodes for as long as no two
candidates tie: each iteration takes the two strict minima, as every
priority queue does.  The result is `none` when a tie is met or the
iteration budget runs out. -/
def strictRun : Nat → List HuffmanNode → Option (List HuffmanNode)
  | 0, L => if L.length > 1 then none else some L
  | fuel + 1, L =>
    if L.length > 1 then
      match strictMin L with
      | none => none
      | some l =>
        match strictMin (L.erase l) with
        | none => none
        | some r => strictRun fuel (combine l r :: (L.erase l).erase r)
    else some L

/-! ## Empty input -/

theorem size_empty (Q : PriorityQueue) : Q.size Q.empty = 0 := by
  rw [Q.size_eq, Q.contents_empty, Multiset.card_zero]

/-- On the empty map nothing is pushed, the loop is skipped, and `pq.top()`
is evaluated on the empty queue. -/
theorem buildHuffmanTree_nil (Q : PriorityQueue) :
    buildHuffmanTree Q [] = Except.error Fault.topOfEmptyQueue := by
  simp [buildHuffmanTree, seedQueue, size_empty, combineLoop,
    Q.top_none Q.empty Q.contents_empty]

/-- The frequency map of the empty input has no entries. -/
theorem entries_nil (M : MapOrder) :
    M.entries (countFrequencies [] (UnorderedMap.empty Int)) = [] := by
  apply List.eq_nil_iff_forall_not_mem.2
  rintro ⟨k, v⟩ hkv
  have := (M.mem_entries _ k v).1 hkv
  simp [countFrequencies, UnorderedMap.empty] at this

/-- C8: on the empty frequency map `buildHuffmanTree` raises no `EmptyInput`
condition; with every priority queue it reaches `return pq.top()` with an
empty queue, and so does `compressFile` on the empty input. -/
theorem buildHuffmanTree_empty_reads_top (Q : PriorityQueue) (M : MapOrder) :
    buildHuffmanTree Q [] = Except.error Fault.topOfEmptyQueue ∧
      compressFile Q M [] = Except.error Fault.topOfEmptyQueue := by
  refine ⟨buildHuffmanTree_nil Q, ?_⟩
  simp [compressFile, entries_nil M, buildHuffmanTree_nil Q]

/-! ## The exchange argument -/

namespace WTree

theorem costAt_succ (t : WTree) : ∀ d, costAt (d + 1) t = costAt d t + (weights t).sum := by
  induction t with
  | leaf w => intro d; simp [costAt, weights]; ring
  | node l r ihl ihr =>
    intro d
    simp only [costAt, weights, Multiset.sum_add, ihl (d + 1), ihr (d + 1)]
    ring

theorem costAt_mono (t : WTree) (d : Nat) : costAt d t ≤ costAt (d + 1) t := by
  rw [costAt_succ]; exact Nat.le_add_right _ _

theorem weights_toNode (t : WTree) :
    (toNode t).leafWeights = (weights t).map (fun w : Nat => (w : Int)) := by
  induction t with
  | leaf w => simp [toNode, HuffmanNode.leafWeights, HuffmanNode.leaves, HuffmanNode.isNull, weights]
  | node l r ihl ihr =>
    have hl : (toNode l).isNull = false := by cases l <;> rfl
    simp only [HuffmanNode.leafWeights] at ihl ihr
    simp [toNode, HuffmanNode.leafWeights, HuffmanNode.leaves, hl, weights, ← ihl, ← ihr]

theorem cost_toNode (t : WTree) :
    ∀ d, (toNode t).weightedPathLengthAt d = ((costAt d t : Nat) : Int) := by
  induction t with
  | leaf w => intro d; simp [toNode, HuffmanNode.weightedPathLengthAt, HuffmanNode.isNull, costAt]
  | node l r ihl ihr =>
    intro d
    have hl : (toNode l).isNull = false := by cases l <;> rfl
    simp [toNode, HuffmanNode.weightedPathLengthAt, hl, costAt, ihl, ihr]

/-- Merging a deepest pair of sibling leaves into one leaf. -/
theorem exists_merge_deepest (t : WTree) : ∀ h, height t = h + 1 →
    ∃ x y R, weights t = x ::ₘ y ::ₘ R ∧
      ∀ w, ∃ c : WTree, weights c = w ::ₘ R ∧ height c ≤ h + 1 ∧
        ∀ d, costAt d c + (d + h + 1) * (x + y) = costAt d t + (d + h) * w := by
  induction t with
  | leaf w => intro h hh; simp [height] at hh
  | node l r ihl ihr =>
    intro h hh
    simp only [height, Nat.add_right_cancel_iff] at hh
    by_cases hlr : height r ≤ height l
    · have hl : height l = h := by omega
      cases h with
      | zero =>
        have hr : height r = 0 := by omega
        cases l with
        | node a b => simp [height] at hl
        | leaf x =>
          cases r with
          | node a b => simp [height] at hr
          | leaf y =>
            refine ⟨x, y, 0, by simp [weights], fun w => ⟨leaf w, by simp [weights], by simp [height], ?_⟩⟩
            intro d
            simp [costAt]
            ring
      | succ k =>
        obtain ⟨x, y, R, hw, hc⟩ := ihl k hl
        refine ⟨x, y, R + weights r, by simp [weights, hw], fun w => ?_⟩
        obtain ⟨c, hcw, hch, hcc⟩ := hc w
        refine ⟨node c r, by simp [weights, hcw], by simp [height]; omega, fun d => ?_⟩
        have := hcc (d + 1)
        simp only [costAt]
        have e1 : d + 1 + k + 1 = d + (k + 1) + 1 := by omega
        have e2 : d + 1 + k = d + (k + 1) := by omega
        rw [e1, e2] at this
        omega
    · have hr : height r = h := by omega
      cases h with
      | zero => omega
      | succ k =>
        obtain ⟨x, y, R, hw, hc⟩ := ihr k hr
        refine ⟨x, y, weights l + R, by simp [weights, hw], fun w => ?_⟩
        obtain ⟨c, hcw, hch, hcc⟩ := hc w
        refine ⟨node l c, by simp [weights, hcw], by simp [height]; omega, fun d => ?_⟩
        have := hcc (d + 1)
        simp only [costAt]
        have e1 : d + 1 + k + 1 = d + (k + 1) + 1 := by omega
        have e2 : d + 1 + k = d + (k + 1) := by omega
        rw [e1, e2] at this
        omega

/-- Raising the weight of one leaf. -/
theorem exists_replace (t : WTree) : ∀ (a x : Nat), a ∈ weights t → a ≤ x →
    ∃ c : WTree, weights c = x ::ₘ (weights t).erase a ∧ height c = height t ∧
      ∀ d, costAt d c ≤ costAt d t + (d + height t) * (x - a) := by
  induction t with
  | leaf w =>
    intro a x ha hax
    simp only [weights, Multiset.mem_singleton] at ha
    subst ha
    refine ⟨leaf x, by simp [weights], rfl, fun d => ?_⟩
    simp only [costAt, height, Nat.add_zero]
    rw [← Nat.mul_add]
    exact Nat.mul_le_mul_left _ (by omega)
  | node l r ihl ihr =>
    intro a x ha hax
    simp only [weights, Multiset.mem_add] at ha
    by_cases hal : a ∈ weights l
    · obtain ⟨c, hcw, hch, hcc⟩ := ihl a x hal hax
      refine ⟨node c r, ?_, by simp [height, hch], fun d => ?_⟩
      · simp [weights, hcw, Multiset.erase_add_left_pos _ hal]
      · have := hcc (d + 1)
        simp only [costAt, height]
        have hm : (d + 1 + height l) * (x - a) ≤ (d + (max (height l) (height r) + 1)) * (x - a) :=
          Nat.mul_le_mul_right _ (by omega)
        omega
    · have har : a ∈ weights r := by tauto
      obtain ⟨c, hcw, hch, hcc⟩ := ihr a x har hax
      refine ⟨node l c, ?_, by simp [height, hch], fun d => ?_⟩
      · simp [weights, hcw, Multiset.erase_add_right_neg _ hal]
      · have := hcc (d + 1)
        simp only [costAt, height]
        have hm : (d + 1 + height r) * (x - a) ≤ (d + (max (height l) (height r) + 1)) * (x - a) :=
          Nat.mul_le_mul_right _ (by omega)
        omega

theorem erase_cons_of_mem {a c : Nat} {R : Multiset Nat} (h : a ∈ R) :
    (c ::ₘ R).erase a = c ::ₘ R.erase a := by
  by_cases hc : c = a
  · subst hc
    rw [Multiset.erase_cons_head, Multiset.cons_erase h]
  · rw [Multiset.erase_cons_tail _ hc]

/-- The exchange step for an ordered deepest pair. -/
theorem exists_merge_least_aux (t : WTree) (h : Nat) (a b x y : Nat) (R : Multiset Nat)
    (hw : weights t = x ::ₘ y ::ₘ R) (hxy : x ≤ y)
    (hc : ∀ w, ∃ c : WTree, weights c = w ::ₘ R ∧ height c ≤ h + 1 ∧
        ∀ d, costAt d c + (d + h + 1) * (x + y) = costAt d t + (d + h) * w)
    (ha : a ∈ weights t) (hb : b ∈ (weights t).erase a)
    (hamin : ∀ z ∈ weights t, a ≤ z) (hbmin : ∀ z ∈ (weights t).erase a, b ≤ z) :
    ∃ c : WTree, weights c = (a + b) ::ₘ ((weights t).erase a).erase b ∧
      costAt 0 c + (a + b) ≤ costAt 0 t := by
  obtain ⟨c0, hc0w, hc0h, hc0c⟩ := hc (a + b)
  have hax : a ≤ x := hamin x (by simp [hw])
  have hyU : y ∈ (weights t).erase a := by
    by_cases e : a = x
    · subst e; simp [hw]
    · have : y ≠ a := by omega
      exact (Multiset.mem_erase_of_ne this).2 (by simp [hw])
  have hby : b ≤ y := hbmin y hyU
  -- first exchange: the leaf of weight `a` takes the weight `x`
  have step1 : ∃ c1 : WTree, weights c1 = (a + b) ::ₘ ((weights t).erase a).erase y ∧
      height c1 ≤ h + 1 ∧ costAt 0 c1 ≤ costAt 0 c0 + (h + 1) * (x - a) := by
    by_cases e : a = x
    · subst e
      refine ⟨c0, ?_, hc0h, Nat.le_add_right _ _⟩
      rw [hc0w, hw, Multiset.erase_cons_head, Multiset.erase_cons_head]
    · have hay : a ≠ y := by omega
      have haR : a ∈ R := by
        have := ha
        rw [hw] at this
        simpa [e, hay] using this
      obtain ⟨c1, hc1w, hc1h, hc1c⟩ := exists_replace c0 a x (by rw [hc0w]; simp [haR]) hax
      refine ⟨c1, ?_, by omega, ?_⟩
      · rw [hc1w, hc0w, hw, erase_cons_of_mem haR, Multiset.erase_cons_tail _ (Ne.symm e),
          Multiset.erase_cons_tail _ (Ne.symm hay), Multiset.cons_swap x y,
          Multiset.erase_cons_head, Multiset.cons_swap]
      · have := hc1c 0
        have hm : (0 + height c0) * (x - a) ≤ (h + 1) * (x - a) :=
          Nat.mul_le_mul_right _ (by omega)
        omega
  obtain ⟨c1, hc1w, hc1h, hc1c⟩ := step1
  -- second exchange: the leaf of weight `b` takes the weight `y`
  have step2 : ∃ c2 : WTree, weights c2 = (a + b) ::ₘ ((weights t).erase a).erase b ∧
      costAt 0 c2 ≤ costAt 0 c1 + (h + 1) * (y - b) := by
    by_cases e : b = y
    · subst e
      exact ⟨c1, hc1w, Nat.le_add_right _ _⟩
    · have hbU : b ∈ ((weights t).erase a).erase y := (Multiset.mem_erase_of_ne e).2 hb
      obtain ⟨c2, hc2w, hc2h, hc2c⟩ := exists_replace c1 b y (by rw [hc1w]; simp [hbU]) hby
      refine ⟨c2, ?_, ?_⟩
      · have hyb : y ∈ ((weights t).erase a).erase b :=
          (Multiset.mem_erase_of_ne (Ne.symm e)).2 hyU
        rw [hc2w, hc1w, erase_cons_of_mem hbU, Multiset.erase_comm _ y b, Multiset.cons_swap,
          Multiset.cons_erase hyb]
      · have := hc2c 0
        have hm : (0 + height c1) * (y - b) ≤ (h + 1) * (y - b) :=
          Nat.mul_le_mul_right _ (by omega)
        omega
  obtain ⟨c2, hc2w, hc2c⟩ := step2
  refine ⟨c2, hc2w, ?_⟩
  have h0 := hc0c 0
  obtain ⟨p, rfl⟩ := Nat.exists_eq_add_of_le hax
  obtain ⟨q, rfl⟩ := Nat.exists_eq_add_of_le hby
  simp only [Nat.add_sub_cancel_left, Nat.zero_add] at *
  have e1 : (h + 1) * (a + p + (b + q)) = h * (a + b) + (a + b) + (h + 1) * p + (h + 1) * q := by
    ring
  omega

/-- Exchange lemma: in a tree with at least two leaves, the two least leaf
weights `a` and `b` can be made siblings and merged into one leaf of weight
`a + b`; the weighted path length drops by at least `a + b`. -/
theorem exists_merge_least (t : WTree) (a b : Nat)
    (ha : a ∈ weights t) (hb : b ∈ (weights t).erase a)
    (hamin : ∀ z ∈ weights t, a ≤ z) (hbmin : ∀ z ∈ (weights t).erase a, b ≤ z) :
    ∃ c : WTree, weights c = (a + b) ::ₘ ((weights t).erase a).erase b ∧
      costAt 0 c + (a + b) ≤ costAt 0 t := by
  have hh : ∃ h, height t = h + 1 := by
    cases t with
    | leaf w =>
      simp only [weights, Multiset.mem_singleton] at ha
      subst ha
      simp [weights] at hb
    | node l r => exact ⟨_, rfl⟩
  obtain ⟨h, hh⟩ := hh
  obtain ⟨x, y, R, hw, hc⟩ := exists_merge_deepest t h hh
  rcases Nat.le_total x y with hxy | hxy
  · exact exists_merge_least_aux t h a b x y R hw hxy hc ha hb hamin hbmin
  · refine exists_merge_least_aux t h a b y x R (by rw [hw, Multiset.cons_swap]) hxy ?_ ha hb hamin hbmin
    intro w
    obtain ⟨c, h1, h2, h3⟩ := hc w
    refine ⟨c, h1, h2, fun d => ?_⟩
    rw [Nat.add_comm y x]
    exact h3 d

end WTree

namespace HuffmanNode

theorem isNull_iff (t : HuffmanNode) : t.isNull = true ↔ t = null := by
  cases t <;> simp [isNull]

theorem leaves_of_isNull {t : HuffmanNode} (h : t.isNull = true) : t.leaves = [] := by
  rw [(isNull_iff t).1 h]; rfl

theorem leafWeights_null : leafWeights null = 0 := rfl

theorem leafWeights_node (d : Symbol) (f : Int) (l r : HuffmanNode) :
    leafWeights (node d f l r) =
      if l.isNull && r.isNull then {f} else leafWeights l + leafWeights r := by
  unfold leafWeights
  simp only [leaves]
  split <;> simp

theorem leafSum_eq (t : HuffmanNode) : t.leafSum = t.leafWeights.sum := by
  simp [leafSum, leafWeights]

theorem weightedPathLengthAt_succ (t : HuffmanNode) :
    ∀ d, weightedPathLengthAt (d + 1) t = weightedPathLengthAt d t + t.leafSum := by
  induction t with
  | null => intro d; simp [weightedPathLengthAt, leafSum, leaves]
  | node s f l r ihl ihr =>
    intro d
    by_cases h : (l.isNull && r.isNull) = true
    · simp [weightedPathLengthAt, leafSum, leaves, h]; ring
    · simp only [weightedPathLengthAt, leafSum, leaves, h, ihl (d + 1), ihr (d + 1)]
      simp [leafSum]
      ring

theorem weightedPathLengthAt_of_isNull {t : HuffmanNode} (h : t.isNull = true) (d : Nat) :
    weightedPathLengthAt d t = 0 := by
  rw [(isNull_iff t).1 h]; rfl

/-- Every tree with a root and non-negative leaf weights can be pruned to a
`WTree` with the same leaf weights and no greater weighted path length. -/
theorem exists_pruned (t : HuffmanNode) : t.isNull = false → (∀ z ∈ t.leafWeights, 0 ≤ z) →
    ∃ s : WTree, s.weights.map (fun w : Nat => (w : Int)) = t.leafWeights ∧
      ∀ d, ((s.costAt d : Nat) : Int) ≤ t.weightedPathLengthAt d := by
  induction t with
  | null => intro h; simp [isNull] at h
  | node s f l r ihl ihr =>
    intro _ hnn
    cases hl : l.isNull with
    | true =>
      cases hr : r.isNull with
      | true =>
        have hf : 0 ≤ f := hnn f (by simp [leafWeights_node, hl, hr])
        exact ⟨WTree.leaf f.toNat,
          by simp [leafWeights_node, hl, hr, WTree.weights, Int.toNat_of_nonneg hf],
          fun d => by
            simp [weightedPathLengthAt, hl, hr, WTree.costAt, Int.toNat_of_nonneg hf]⟩
      | false =>
        have hw : leafWeights (node s f l r) = leafWeights r := by
          rw [leafWeights_node, hl, hr]
          simp [leafWeights, leaves_of_isNull hl]
        obtain ⟨c, hcw, hcc⟩ := ihr hr (fun z hz => hnn z (hw ▸ hz))
        refine ⟨c, hcw.trans hw.symm, fun d => ?_⟩
        simp only [weightedPathLengthAt, hl, hr, Bool.and_false, Bool.false_eq_true, if_false,
          weightedPathLengthAt_of_isNull hl, zero_add]
        exact le_trans (Int.ofNat_le.2 (WTree.costAt_mono c d)) (hcc (d + 1))
    | false =>
      cases hr : r.isNull with
      | true =>
        have hw : leafWeights (node s f l r) = leafWeights l := by
          rw [leafWeights_node, hl, hr]
          simp [leafWeights, leaves_of_isNull hr]
        obtain ⟨c, hcw, hcc⟩ := ihl hl (fun z hz => hnn z (hw ▸ hz))
        refine ⟨c, hcw.trans hw.symm, fun d => ?_⟩
        simp only [weightedPathLengthAt, hl, hr, Bool.false_and, Bool.false_eq_true, if_false,
          weightedPathLengthAt_of_isNull hr, add_zero]
        exact le_trans (Int.ofNat_le.2 (WTree.costAt_mono c d)) (hcc (d + 1))
      | false =>
        have hw : leafWeights (node s f l r) = leafWeights l + leafWeights r := by
          rw [leafWeights_node, hl, hr]
          rfl
        obtain ⟨c1, hc1w, hc1c⟩ := ihl hl
          (fun z hz => hnn z (by rw [hw]; exact Multiset.mem_add.2 (Or.inl hz)))
        obtain ⟨c2, hc2w, hc2c⟩ := ihr hr
          (fun z hz => hnn z (by rw [hw]; exact Multiset.mem_add.2 (Or.inr hz)))
        refine ⟨WTree.node c1 c2, ?_, fun d => ?_⟩
        · rw [hw]
          simp [WTree.weights, hc1w, hc2w]
        · simp only [weightedPathLengthAt, hl, hr, Bool.false_and, Bool.false_eq_true, if_false,
            WTree.costAt, Nat.cast_add]
          exact add_le_add (hc1c _) (hc2c _)

/-- Exchange lemma for arbitrary trees of `HuffmanNode`s with non-negative
leaf weights: the two least leaf weights can be merged at a saving of at
least their sum. -/
theorem exists_merge_least_node (t : HuffmanNode) (a b : Int)
    (hnn : ∀ z ∈ t.leafWeights, 0 ≤ z)
    (ha : a ∈ t.leafWeights) (hb : b ∈ t.leafWeights.erase a)
    (hamin : ∀ z ∈ t.leafWeights, a ≤ z) (hbmin : ∀ z ∈ t.leafWeights.erase a, b ≤ z) :
    ∃ c : HuffmanNode, c.leafWeights = (a + b) ::ₘ (t.leafWeights.erase a).erase b ∧
      c.weightedPathLength + (a + b) ≤ t.weightedPathLength := by
  have hn : t.isNull = false := by
    cases t with
    | null => simp [leafWeights_null] at ha
    | node _ _ _ _ => rfl
  obtain ⟨s, hsw, hsc⟩ := exists_pruned t hn hnn
  have hinj : Function.Injective (fun w : Nat => (w : Int)) := fun x y h => Int.ofNat.inj h
  rw [← hsw] at ha hb hamin hbmin
  obtain ⟨a1, ha1, rfl⟩ := Multiset.mem_map.1 ha
  rw [← Multiset.map_erase _ hinj] at hb hbmin
  obtain ⟨b1, hb1, rfl⟩ := Multiset.mem_map.1 hb
  obtain ⟨c, hcw, hcc⟩ := WTree.exists_merge_least s a1 b1 ha1 hb1
    (fun z hz => Int.ofNat_le.1 (hamin z (Multiset.mem_map_of_mem _ hz)))
    (fun z hz => Int.ofNat_le.1 (hbmin z (Multiset.mem_map_of_mem _ hz)))
  refine ⟨c.toNode, ?_, ?_⟩
  · rw [WTree.weights_toNode, hcw, ← hsw, Multiset.map_cons, Multiset.map_erase _ hinj,
      Multiset.map_erase _ hinj]
    simp
  · unfold weightedPathLength
    rw [WTree.cost_toNode]
    have h0 := hsc 0
    have h1 : ((c.costAt 0 + (a1 + b1) : Nat) : Int) ≤ ((s.costAt 0 : Nat) : Int) :=
      Int.ofNat_le.2 hcc
    push_cast at h1
    exact le_trans h1 h0

end HuffmanNode

/-! ## The combining loop and optimality -/

theorem contents_seedQueue (Q : PriorityQueue) : ∀ (l : List (Symbol × Int)) (pq : Q.Queue),
    Q.contents (seedQueue Q l pq) = seedNodes l + Q.contents pq
  | [], pq => by simp [seedQueue, seedNodes]
  | p :: l, pq => by
    rw [seedQueue, contents_seedQueue Q l, Q.contents_push]
    simp only [seedNodes, List.map_cons, ← Multiset.cons_coe]
    rw [Multiset.add_cons, Multiset.cons_add]

/-- Proof rule for the combining loop: a property of the multiset of queued
nodes that holds at the start and is kept by replacing two least nodes by
their combination holds of the single node left at the end, and the loop
ends within `size - 1` iterations. -/
theorem combineLoop_rule (Q : PriorityQueue) (Inv : Multiset HuffmanNode → Prop)
    (hstep : ∀ (s : Multiset HuffmanNode) (l r : HuffmanNode), Inv s → l ∈ s → r ∈ s.erase l →
      (∀ y ∈ s, l.frequency ≤ y.frequency) → (∀ y ∈ s.erase l, r.frequency ≤ y.frequency) →
      Inv (combine l r ::ₘ (s.erase l).erase r)) :
    ∀ (n : Nat) (pq : Q.Queue), Q.size pq = n + 1 → Inv (Q.contents pq) →
      ∀ fuel, n ≤ fuel →
        ∃ pq1 root, combineLoop Q fuel pq = Except.ok pq1 ∧ Q.contents pq1 = {root} ∧
          Inv {root} := by
  intro n
  induction n with
  | zero =>
    intro pq hsz hinv fuel _
    have hcard : Multiset.card (Q.contents pq) = 1 := by rw [← Q.size_eq, hsz]
    obtain ⟨root, hroot⟩ := Multiset.card_eq_one.1 hcard
    refine ⟨pq, root, ?_, hroot, hroot ▸ hinv⟩
    cases fuel <;> simp [combineLoop, hsz]
  | succ n ih =>
    intro pq hsz hinv fuel hfuel
    obtain ⟨fuel, rfl⟩ : ∃ k, fuel = k + 1 := ⟨fuel - 1, by omega⟩
    have hcard : Multiset.card (Q.contents pq) = n + 2 := by rw [← Q.size_eq, hsz]
    have hne : Q.contents pq ≠ 0 := by
      intro h; rw [h] at hcard; simp at hcard
    obtain ⟨l, hl⟩ := Q.top_some pq hne
    have hlmem := Q.top_mem pq l hl
    have hpop := Q.contents_pop pq l hl
    have hcard1 : Multiset.card (Q.contents (Q.pop pq)) = n + 1 := by
      rw [hpop, Multiset.card_erase_of_mem hlmem, hcard]; rfl
    have hne1 : Q.contents (Q.pop pq) ≠ 0 := by
      intro h; rw [h] at hcard1; simp at hcard1
    obtain ⟨r, hr⟩ := Q.top_some (Q.pop pq) hne1
    have hrmem := Q.top_mem _ r hr
    have hpop1 := Q.contents_pop _ r hr
    have hlmin : ∀ y ∈ Q.contents pq, l.frequency ≤ y.frequency := by
      intro y hy
      have := Q.top_least pq l hl y hy
      simpa [CompareNodes] using this
    have hrmin : ∀ y ∈ (Q.contents pq).erase l, r.frequency ≤ y.frequency := by
      intro y hy
      have := Q.top_least _ r hr y (hpop ▸ hy)
      simpa [CompareNodes] using this
    have hcont : Q.contents (Q.push (Q.pop (Q.pop pq)) (combine l r)) =
        combine l r ::ₘ ((Q.contents pq).erase l).erase r := by
      rw [Q.contents_push, hpop1, hpop]
    have hsz2 : Q.size (Q.push (Q.pop (Q.pop pq)) (combine l r)) = n + 1 := by
      rw [Q.size_eq, hcont, Multiset.card_cons, ← hpop, Multiset.card_erase_of_mem hrmem, hcard1]
      rfl
    have hinv2 : Inv (Q.contents (Q.push (Q.pop (Q.pop pq)) (combine l r))) := by
      rw [hcont]
      exact hstep _ l r hinv hlmem (hpop ▸ hrmem) hlmin hrmin
    obtain ⟨pq1, root, h1, h2, h3⟩ := ih _ hsz2 hinv2 fuel (by omega)
    refine ⟨pq1, root, ?_, h2, h3⟩
    have hgt : Q.size pq > 1 := by omega
    simp only [combineLoop, hgt, if_true, hl, hr]
    exact h1

/-- Proof rule for `buildHuffmanTree` on a non-empty map: it returns a node,
and every property kept by the combining step and true of the seeded leaves
is true of that node alone. -/
theorem buildHuffmanTree_rule (Q : PriorityQueue) (Inv : Multiset HuffmanNode → Prop)
    (hstep : ∀ (s : Multiset HuffmanNode) (l r : HuffmanNode), Inv s → l ∈ s → r ∈ s.erase l →
      (∀ y ∈ s, l.frequency ≤ y.frequency) → (∀ y ∈ s.erase l, r.frequency ≤ y.frequency) →
      Inv (combine l r ::ₘ (s.erase l).erase r))
    (freqMap : List (Symbol × Int)) (hne : freqMap ≠ []) (hinit : Inv (seedNodes freqMap)) :
    ∃ root, buildHuffmanTree Q freqMap = Except.ok root ∧ Inv {root} := by
  have hc : Q.contents (seedQueue Q freqMap Q.empty) = seedNodes freqMap := by
    rw [contents_seedQueue, Q.contents_empty, add_zero]
  have hsz : Q.size (seedQueue Q freqMap Q.empty) = (freqMap.length - 1) + 1 := by
    rw [Q.size_eq, hc, seedNodes, Multiset.coe_card, List.length_map]
    have : 0 < freqMap.length := List.length_pos.2 hne
    omega
  obtain ⟨pq1, root, h1, h2, h3⟩ := combineLoop_rule Q Inv hstep _ _ hsz (hc ▸ hinit)
    (Q.size (seedQueue Q freqMap Q.empty)) (by omega)
  obtain ⟨x, hx⟩ := Q.top_some pq1 (by rw [h2]; simp)
  have hxr : x = root := by
    have := Q.top_mem pq1 x hx
    rw [h2] at this
    simpa using this
  subst hxr
  exact ⟨x, by simp [buildHuffmanTree, h1, hx], h3⟩

/-- The iteration budget given to the loop by `buildHuffmanTree` is never
used up: the embedding returns exactly when the program does. -/
theorem buildHuffmanTree_ne_outOfFuel (Q : PriorityQueue) (freqMap : List (Symbol × Int)) :
    buildHuffmanTree Q freqMap ≠ Except.error Fault.outOfFuel := by
  by_cases h : freqMap = []
  · subst h
    rw [buildHuffmanTree_nil]
    simp
  · obtain ⟨root, hroot, _⟩ := buildHuffmanTree_rule Q (fun _ => True)
      (fun _ _ _ _ _ _ _ _ => trivial) freqMap h trivial
    rw [hroot]
    simp

theorem wrapInt_of_fits {x : Int} (h0 : 0 ≤ x) (h1 : x ≤ INT_MAX) : wrapInt x = x := by
  unfold INT_MAX at h1
  unfold wrapInt
  omega

theorem wrapInt_wrapInt_add (x y : Int) : wrapInt (wrapInt x + y) = wrapInt (x + y) := by
  unfold wrapInt
  omega

theorem leaves_combine {l : HuffmanNode} (r : HuffmanNode) (hl : l.isNull = false) :
    (combine l r).leaves = l.leaves ++ r.leaves := by
  simp [combine, HuffmanNode.leaves, hl]

theorem nodes_combine (l r : HuffmanNode) :
    (combine l r).nodes = combine l r :: (l.nodes ++ r.nodes) := rfl

theorem consistent_mk (d : Symbol) (f : Int) : Consistent (HuffmanNode.mk d f) := by
  simp [Consistent, HuffmanNode.mk, HuffmanNode.isNull, HuffmanNode.frequency,
    HuffmanNode.leafSum, HuffmanNode.leaves]

/-- Two picked nodes split off the queue contents. -/
theorem split_two {s : Multiset HuffmanNode} {l r : HuffmanNode} (hl : l ∈ s)
    (hr : r ∈ s.erase l) : s = l ::ₘ r ::ₘ (s.erase l).erase r := by
  rw [Multiset.cons_erase hr, Multiset.cons_erase hl]

theorem seed_isNull (freqMap : List (Symbol × Int)) :
    ∀ t ∈ seedNodes freqMap, t.isNull = false := by
  intro t ht
  simp only [seedNodes, Multiset.mem_coe, List.mem_map] at ht
  obtain ⟨p, _, rfl⟩ := ht
  rfl

theorem step_isNull (s : Multiset HuffmanNode) (l r : HuffmanNode)
    (h : ∀ t ∈ s, t.isNull = false) :
    ∀ t ∈ combine l r ::ₘ (s.erase l).erase r, t.isNull = false := by
  intro t ht
  rcases Multiset.mem_cons.1 ht with rfl | ht
  · rfl
  · exact h t (Multiset.mem_of_mem_erase (Multiset.mem_of_mem_erase ht))

theorem forestLeaves_seed (freqMap : List (Symbol × Int)) :
    forestLeaves (seedNodes freqMap) = (freqMap : Multiset (Symbol × Int)) := by
  induction freqMap with
  | nil => rfl
  | cons p l ih =>
    have : seedNodes (p :: l) = HuffmanNode.mk p.1 p.2 ::ₘ seedNodes l := rfl
    rw [this, forestLeaves, Multiset.map_cons, Multiset.sum_cons, ← forestLeaves, ih]
    simp [HuffmanNode.mk, HuffmanNode.leaves, HuffmanNode.isNull]

theorem forestLeaves_step (s : Multiset HuffmanNode) (l r : HuffmanNode)
    (h : ∀ t ∈ s, t.isNull = false) (hl : l ∈ s) (hr : r ∈ s.erase l) :
    forestLeaves (combine l r ::ₘ (s.erase l).erase r) = forestLeaves s := by
  conv_rhs => rw [split_two hl hr]
  simp only [forestLeaves, Multiset.map_cons, Multiset.sum_cons, leaves_combine r (h l hl)]
  rw [← Multiset.coe_add, add_assoc]

theorem childrenOk_mk (d : Symbol) (f : Int) : ∀ n ∈ (HuffmanNode.mk d f).nodes, ChildrenOk n := by
  intro n hn
  simp only [HuffmanNode.mk, HuffmanNode.nodes, List.append_nil, List.mem_singleton] at hn
  subst hn
  exact Or.inl ⟨rfl, rfl⟩

theorem childrenOk_combine {l r : HuffmanNode} (hl : l.isNull = false) (hr : r.isNull = false)
    (hnl : ∀ n ∈ l.nodes, ChildrenOk n) (hnr : ∀ n ∈ r.nodes, ChildrenOk n) :
    ∀ n ∈ (combine l r).nodes, ChildrenOk n := by
  intro n hn
  rw [nodes_combine, List.mem_cons, List.mem_append] at hn
  rcases hn with rfl | hn | hn
  · exact Or.inr ⟨hl, hr⟩
  · exact hnl n hn
  · exact hnr n hn

/-- What `buildHuffmanTree` returns on a non-empty map, whatever its counts
are: a tree whose leaves are the entries of the map and whose nodes are
leaves or have two children. -/
theorem buildHuffmanTree_leaves (Q : PriorityQueue) (freqMap : List (Symbol × Int))
    (hne : freqMap ≠ []) :
    ∃ root, buildHuffmanTree Q freqMap = Except.ok root ∧ root.isNull = false ∧
      (∀ n ∈ root.nodes, ChildrenOk n) ∧
      ((root.leaves : List (Symbol × Int)) : Multiset (Symbol × Int)) = freqMap := by
  obtain ⟨root, hroot, hinv, hl⟩ := buildHuffmanTree_rule Q
    (fun s => (∀ t ∈ s, t.isNull = false ∧ ∀ n ∈ t.nodes, ChildrenOk n) ∧
      forestLeaves s = (freqMap : Multiset (Symbol × Int)))
    (by
      intro s l r h hl hr _ _
      have hc : ∀ t ∈ s, t.isNull = false := fun t ht => (h.1 t ht).1
      refine ⟨fun t ht => ?_, (forestLeaves_step s l r hc hl hr).trans h.2⟩
      rcases Multiset.mem_cons.1 ht with rfl | ht
      · have hr1 := Multiset.mem_of_mem_erase hr
        exact ⟨rfl, childrenOk_combine (hc l hl) (hc r hr1) (h.1 l hl).2 (h.1 r hr1).2⟩
      · exact h.1 t (Multiset.mem_of_mem_erase (Multiset.mem_of_mem_erase ht)))
    freqMap hne
    ⟨by
      intro t ht
      simp only [seedNodes, Multiset.mem_coe, List.mem_map] at ht
      obtain ⟨p, _, rfl⟩ := ht
      exact ⟨rfl, childrenOk_mk _ _⟩, forestLeaves_seed freqMap⟩
  have h1 := hinv root (Multiset.mem_singleton_self _)
  exact ⟨root, hroot, h1.1, h1.2, by simpa [forestLeaves] using hl⟩

/-! ### Maps that fit into an `int` -/

theorem weightedPathLength_combine {l : HuffmanNode} (r : HuffmanNode) (hl : l.isNull = false) :
    (combine l r).weightedPathLength =
      l.weightedPathLength + r.weightedPathLength + (l.leafSum + r.leafSum) := by
  simp only [HuffmanNode.weightedPathLength, combine, HuffmanNode.weightedPathLengthAt, hl,
    Bool.false_and, Bool.false_eq_true, if_false, Nat.zero_add,
    HuffmanNode.weightedPathLengthAt_succ]
  ring

theorem mem_forestLeaves {s : Multiset HuffmanNode} {t : HuffmanNode} (ht : t ∈ s)
    {p : Symbol × Int} (hp : p ∈ t.leaves) : p ∈ forestLeaves s := by
  have : p ∈ Multiset.join (s.map (fun t =>
      ((t.leaves : List (Symbol × Int)) : Multiset (Symbol × Int)))) :=
    Multiset.mem_join.2 ⟨_, Multiset.mem_map_of_mem _ ht, Multiset.mem_coe.2 hp⟩
  exact this

theorem sum_forestLeaves (s : Multiset HuffmanNode) :
    ((forestLeaves s).map Prod.snd).sum = (s.map HuffmanNode.leafSum).sum := by
  induction s using Multiset.induction_on with
  | empty => rfl
  | cons t s ih =>
    rw [forestLeaves, Multiset.map_cons, Multiset.sum_cons, ← forestLeaves, Multiset.map_add,
      Multiset.sum_add, ih, Multiset.map_cons, Multiset.sum_cons]
    simp [HuffmanNode.leafSum]

/-- In a forest over a map that fits into an `int`, the frequencies of two
queued nodes are non-negative and their sum does not overflow. -/
theorem sum_fits (E : List (Symbol × Int)) (hE : FitsInt E) (s : Multiset HuffmanNode)
    (hleaves : forestLeaves s = (E : Multiset (Symbol × Int)))
    (l r : HuffmanNode) (hl : l ∈ s) (hr : r ∈ s.erase l) :
    (∀ t ∈ s, 0 ≤ t.leafSum) ∧ l.leafSum + r.leafSum ≤ INT_MAX := by
  have hnn : ∀ t ∈ s, 0 ≤ t.leafSum := by
    intro t ht
    apply List.sum_nonneg
    intro z hz
    obtain ⟨p, hp, rfl⟩ := List.mem_map.1 hz
    have := mem_forestLeaves ht hp
    rw [hleaves] at this
    exact hE.1 p (Multiset.mem_coe.1 this)
  refine ⟨hnn, ?_⟩
  have hsum := sum_forestLeaves s
  rw [hleaves] at hsum
  simp only [Multiset.map_coe, Multiset.sum_coe] at hsum
  have hs := split_two hl hr
  rw [hs, Multiset.map_cons, Multiset.sum_cons, Multiset.map_cons, Multiset.sum_cons] at hsum
  have hrest : 0 ≤ (((s.erase l).erase r).map HuffmanNode.leafSum).sum := by
    apply Multiset.sum_nonneg
    intro z hz
    obtain ⟨t, ht, rfl⟩ := Multiset.mem_map.1 hz
    exact hnn t (Multiset.mem_of_mem_erase (Multiset.mem_of_mem_erase ht))
  have := hE.2
  omega

theorem consistent_combine {l r : HuffmanNode} (hl : Consistent l) (hr : Consistent r)
    (h0 : 0 ≤ l.leafSum + r.leafSum) (h1 : l.leafSum + r.leafSum ≤ INT_MAX) :
    Consistent (combine l r) ∧ (combine l r).frequency = l.frequency + r.frequency := by
  have hf : (combine l r).frequency = l.frequency + r.frequency := by
    show wrapInt (l.frequency + r.frequency) = l.frequency + r.frequency
    rw [hl.2, hr.2]
    exact wrapInt_of_fits h0 h1
  refine ⟨⟨rfl, ?_⟩, hf⟩
  rw [hf, HuffmanNode.leafSum, leaves_combine r hl.1]
  simp only [List.map_append, List.sum_append]
  rw [← HuffmanNode.leafSum, ← HuffmanNode.leafSum, ← hl.2, ← hr.2]

theorem seed_consistent (freqMap : List (Symbol × Int)) :
    ∀ t ∈ seedNodes freqMap, Consistent t := by
  intro t ht
  simp only [seedNodes, Multiset.mem_coe, List.mem_map] at ht
  obtain ⟨p, _, rfl⟩ := ht
  exact consistent_mk _ _

theorem forestCost_seed (freqMap : List (Symbol × Int)) : forestCost (seedNodes freqMap) = 0 := by
  induction freqMap with
  | nil => rfl
  | cons p l ih =>
    have : seedNodes (p :: l) = HuffmanNode.mk p.1 p.2 ::ₘ seedNodes l := rfl
    rw [this, forestCost, Multiset.map_cons, Multiset.sum_cons, ← forestCost, ih]
    simp [HuffmanNode.mk, HuffmanNode.weightedPathLength, HuffmanNode.weightedPathLengthAt,
      HuffmanNode.isNull]

theorem map_frequency_seed (freqMap : List (Symbol × Int)) :
    (seedNodes freqMap).map HuffmanNode.frequency =
      ((freqMap.map Prod.snd : List Int) : Multiset Int) := by
  simp [seedNodes, Function.comp_def, HuffmanNode.mk, HuffmanNode.frequency]

theorem optInv_step (E : List (Symbol × Int)) (hE : FitsInt E) (s : Multiset HuffmanNode)
    (l r : HuffmanNode) (h : OptInv E s) (hl : l ∈ s) (hr : r ∈ s.erase l)
    (hlmin : ∀ y ∈ s, l.frequency ≤ y.frequency)
    (hrmin : ∀ y ∈ s.erase l, r.frequency ≤ y.frequency) :
    OptInv E (combine l r ::ₘ (s.erase l).erase r) := by
  obtain ⟨hcons, hleaves, hopt⟩ := h
  have hnull : ∀ t ∈ s, t.isNull = false := fun t ht => (hcons t ht).1
  have hr1 : r ∈ s := Multiset.mem_of_mem_erase hr
  obtain ⟨hnn, hfit⟩ := sum_fits E hE s hleaves l r hl hr
  have h0 : 0 ≤ l.leafSum + r.leafSum := add_nonneg (hnn l hl) (hnn r hr1)
  obtain ⟨hcc, hfreq⟩ := consistent_combine (hcons l hl) (hcons r hr1) h0 hfit
  refine ⟨?_, (forestLeaves_step s l r hnull hl hr).trans hleaves, fun t ht => ?_⟩
  · intro t ht
    rcases Multiset.mem_cons.1 ht with rfl | ht
    · exact hcc
    · exact hcons t (Multiset.mem_of_mem_erase (Multiset.mem_of_mem_erase ht))
  obtain ⟨c, hcw, hccost⟩ := hopt t ht
  have hs := split_two hl hr
  have hmap : s.map HuffmanNode.frequency =
      l.frequency ::ₘ r.frequency ::ₘ ((s.erase l).erase r).map HuffmanNode.frequency := by
    conv_lhs => rw [hs]
    simp
  have herase : (s.map HuffmanNode.frequency).erase l.frequency =
      (s.erase l).map HuffmanNode.frequency := by
    rw [hmap, Multiset.erase_cons_head, ← Multiset.map_cons, Multiset.cons_erase hr]
  obtain ⟨c1, hc1w, hc1c⟩ := HuffmanNode.exists_merge_least_node c l.frequency r.frequency
    (by
      intro z hz
      rw [hcw] at hz
      obtain ⟨y, hy, rfl⟩ := Multiset.mem_map.1 hz
      rw [(hcons y hy).2]
      exact hnn y hy)
    (by rw [hcw]; exact Multiset.mem_map_of_mem _ hl)
    (by rw [hcw, herase]; exact Multiset.mem_map_of_mem _ hr)
    (by
      intro z hz
      rw [hcw] at hz
      obtain ⟨y, hy, rfl⟩ := Multiset.mem_map.1 hz
      exact hlmin y hy)
    (by
      intro z hz
      rw [hcw, herase] at hz
      obtain ⟨y, hy, rfl⟩ := Multiset.mem_map.1 hz
      exact hrmin y hy)
  refine ⟨c1, ?_, ?_⟩
  · rw [hc1w, hcw, hmap, Multiset.erase_cons_head, Multiset.erase_cons_head, Multiset.map_cons,
      hfreq]
  · have hcost : forestCost (combine l r ::ₘ (s.erase l).erase r) =
        forestCost s + (l.frequency + r.frequency) := by
      conv_rhs => rw [hs]
      simp only [forestCost, Multiset.map_cons, Multiset.sum_cons,
        weightedPathLength_combine r (hnull l hl), (hcons l hl).2, (hcons r hr1).2]
      ring
    rw [hcost]
    omega

theorem weightedPathLength_nonneg (t : HuffmanNode) (h : ∀ z ∈ t.leafWeights, 0 ≤ z) :
    0 ≤ t.weightedPathLength := by
  cases hn : t.isNull
  · obtain ⟨s, _, hs⟩ := HuffmanNode.exists_pruned t hn h
    exact le_trans (Int.natCast_nonneg _) (hs 0)
  · rw [HuffmanNode.weightedPathLength, HuffmanNode.weightedPathLengthAt_of_isNull hn]

/-- What `buildHuffmanTree` returns on a non-empty map with non-negative
counts whose sum fits into an `int`, with every priority queue: a tree whose
leaves are the entries of the map, whose root carries the sum of its
leaves, and whose weighted path length is least among all trees with the
same leaf weights. -/
theorem buildHuffmanTree_spec (Q : PriorityQueue) (freqMap : List (Symbol × Int))
    (hne : freqMap ≠ []) (hfit : FitsInt freqMap) :
    ∃ root, buildHuffmanTree Q freqMap = Except.ok root ∧ Consistent root ∧
      ((root.leaves : List (Symbol × Int)) : Multiset (Symbol × Int)) = freqMap ∧
      ∀ t : HuffmanNode, t.leafWeights = ((freqMap.map Prod.snd : List Int) : Multiset Int) →
        root.weightedPathLength ≤ t.weightedPathLength := by
  obtain ⟨root, hroot, hcons, hleaves, hopt⟩ := buildHuffmanTree_rule Q (OptInv freqMap)
    (fun s l r h hl hr hlmin hrmin => optInv_step freqMap hfit s l r h hl hr hlmin hrmin)
    freqMap hne
    ⟨seed_consistent freqMap, forestLeaves_seed freqMap, fun t ht =>
        ⟨t, by rw [ht, map_frequency_seed], by rw [forestCost_seed, zero_add]⟩⟩
  refine ⟨root, hroot, hcons root (Multiset.mem_singleton_self _), ?_, fun t ht => ?_⟩
  · simpa [forestLeaves] using hleaves
  · obtain ⟨c, hcw, hc⟩ := hopt t ht
    simp only [forestCost, Multiset.map_singleton, Multiset.sum_singleton] at hc
    have hc0 : 0 ≤ c.weightedPathLength := by
      apply weightedPathLength_nonneg
      intro z hz
      rw [hcw] at hz
      simp only [Multiset.map_singleton, Multiset.mem_singleton] at hz
      subst hz
      rw [(hcons root (Multiset.mem_singleton_self _)).2]
      apply List.sum_nonneg
      intro z hz
      obtain ⟨p, hp, rfl⟩ := List.mem_map.1 hz
      have := mem_forestLeaves (Multiset.mem_singleton_self root) hp
      rw [hleaves] at this
      exact hfit.1 p (Multiset.mem_coe.1 this)
    omega

/-! ### Runs without ties -/

theorem strictMin_some {L : List HuffmanNode} {x : HuffmanNode} (h : strictMin L = some x) :
    x ∈ L ∧ ∀ y ∈ L, y = x ∨ x.frequency < y.frequency := by
  refine ⟨List.mem_of_find?_eq_some h, fun y hy => ?_⟩
  have := List.find?_some h
  simp only [List.all_eq_true, Bool.or_eq_true, decide_eq_true_eq] at this
  exact this y hy

theorem eq_of_strictMin {L : List HuffmanNode} {x l : HuffmanNode} (h : strictMin L = some x)
    (hl : l ∈ L) (hmin : ∀ y ∈ L, l.frequency ≤ y.frequency) : l = x := by
  obtain ⟨hx, hs⟩ := strictMin_some h
  rcases hs l hl with h1 | h1
  · exact h1
  · have := hmin x hx
    omega

/-- On a map whose run meets no tie, every priority queue makes
`buildHuffmanTree` return the tree of that run, in whatever order the
entries are seeded. -/
theorem buildHuffmanTree_of_strictRun (Q : PriorityQueue) (E E1 : List (Symbol × Int))
    (fuel : Nat) (root : HuffmanNode)
    (hperm : (E : Multiset (Symbol × Int)) = (E1 : Multiset (Symbol × Int))) (hne : E ≠ [])
    (hrun : strictRun fuel (E1.map (fun p => HuffmanNode.mk p.1 p.2)) = some [root]) :
    buildHuffmanTree Q E = Except.ok root := by
  obtain ⟨x, hx, L, n, hL, hn⟩ := buildHuffmanTree_rule Q
    (fun s => ∃ (L : List HuffmanNode) (n : Nat), s = (L : Multiset HuffmanNode) ∧
      strictRun n L = some [root])
    (by
      rintro s l r ⟨L, n, rfl, hn⟩ hl hr hlmin hrmin
      have hlen : L.length > 1 := by
        have h1 : 0 < Multiset.card ((L : Multiset HuffmanNode).erase l) :=
          Multiset.card_pos_iff_exists_mem.2 ⟨r, hr⟩
        rw [Multiset.card_erase_of_mem hl, Multiset.coe_card] at h1
        simp only [Nat.pred_eq_sub_one] at h1
        omega
      cases n with
      | zero => simp [strictRun, hlen] at hn
      | succ n =>
        rw [strictRun, if_pos hlen] at hn
        cases h1 : strictMin L with
        | none => simp [h1] at hn
        | some l1 =>
          have e1 : l = l1 := eq_of_strictMin h1 (Multiset.mem_coe.1 hl)
            (fun y hy => hlmin y (Multiset.mem_coe.2 hy))
          subst e1
          simp only [h1] at hn
          rw [Multiset.coe_erase] at hr hrmin
          cases h2 : strictMin (L.erase l) with
          | none => simp [h2] at hn
          | some r1 =>
            have e2 : r = r1 := eq_of_strictMin h2 (Multiset.mem_coe.1 hr)
              (fun y hy => hrmin y (Multiset.mem_coe.2 hy))
            subst e2
            simp only [h2] at hn
            exact ⟨_, n, by rw [Multiset.coe_erase, Multiset.coe_erase, Multiset.cons_coe], hn⟩)
    E hne ⟨E1.map (fun p => HuffmanNode.mk p.1 p.2), fuel, by
      rw [seedNodes, ← Multiset.map_coe, hperm, Multiset.map_coe], hrun⟩
  have hL1 : L = [x] := by
    have := hL.symm
    rwa [Multiset.coe_eq_singleton] at this
  subst hL1
  have : x = root := by
    cases n <;> simpa [strictRun] using hn
  rw [← this]
  exact hx

/-- C1 (as the code behaves): on every non-empty frequency map whose counts
are non-negative and sum to at most `INT_MAX`, with every priority queue,
`buildHuffmanTree` returns a tree whose leaves carry the weights of the map
and whose weighted path length (sum over the leaves of depth times
frequency) is at most that of every tree of nodes whose leaves carry the
same multiset of weights. -/
theorem buildHuffmanTree_optimal (Q : PriorityQueue) (freqMap : List (Symbol × Int))
    (hne : freqMap ≠ []) (hcounts : ∀ p ∈ freqMap, 0 ≤ p.2)
    (hsum : (freqMap.map Prod.snd).sum ≤ INT_MAX) :
    ∃ root, buildHuffmanTree Q freqMap = Except.ok root ∧
      root.leafWeights = ((freqMap.map Prod.snd : List Int) : Multiset Int) ∧
      ∀ t : HuffmanNode, t.leafWeights = ((freqMap.map Prod.snd : List Int) : Multiset Int) →
        root.weightedPathLength ≤ t.weightedPathLength := by
  obtain ⟨root, hroot, _, hleaves, hopt⟩ := buildHuffmanTree_spec Q freqMap hne ⟨hcounts, hsum⟩
  refine ⟨root, hroot, ?_, hopt⟩
  have := congrArg (Multiset.map Prod.snd) hleaves
  simpa [HuffmanNode.leafWeights] using this

/-- Witness of C1 on the map of the input "aaab". -/
theorem buildHuffmanTree_optimal_witness :
    ([((97 : Symbol), 3), ((98 : Symbol), 1)] : List (Symbol × Int)) ≠ [] ∧
    (∀ p ∈ ([((97 : Symbol), 3), ((98 : Symbol), 1)] : List (Symbol × Int)), 0 ≤ p.2) ∧
    (([((97 : Symbol), 3), ((98 : Symbol), 1)] : List (Symbol × Int)).map Prod.snd).sum
      ≤ INT_MAX ∧
    ∃ root, buildHuffmanTree firstMinQueue [((97 : Symbol), 3), ((98 : Symbol), 1)]
        = Except.ok root ∧
      root.leafWeights = (([((97 : Symbol), 3), ((98 : Symbol), 1)].map Prod.snd : List Int) :
        Multiset Int) ∧
      ∀ t : HuffmanNode,
        t.leafWeights = (([((97 : Symbol), 3), ((98 : Symbol), 1)].map Prod.snd : List Int) :
          Multiset Int) →
        root.weightedPathLength ≤ t.weightedPathLength :=
  ⟨by simp, by decide, by decide,
    buildHuffmanTree_optimal firstMinQueue _ (by simp) (by decide) (by decide)⟩

/-- C1, counterexample: on the map with the counts 1073741824, 1073741825,
1073741826 and 1073741827 the first sum wraps around to -2147483647, every
priority queue makes `buildHuffmanTree` return the chain `((a b) c) d` of
weighted path length 9663676426, and the balanced tree `(a b) (c d)` over
the same weights has weighted path length 8589934604. -/
theorem buildHuffmanTree_not_optimal_on_overflow :
    (∀ Q : PriorityQueue,
      buildHuffmanTree Q [(97, 1073741824), (98, 1073741825), (99, 1073741826),
          (100, 1073741827)] =
        Except.ok (HuffmanNode.node 0 6
          (HuffmanNode.node 0 (-1073741821)
            (HuffmanNode.node 0 (-2147483647) (HuffmanNode.mk 97 1073741824)
              (HuffmanNode.mk 98 1073741825))
            (HuffmanNode.mk 99 1073741826))
          (HuffmanNode.mk 100 1073741827))) ∧
    (HuffmanNode.node 0 6
          (HuffmanNode.node 0 (-1073741821)
            (HuffmanNode.node 0 (-2147483647) (HuffmanNode.mk 97 1073741824)
              (HuffmanNode.mk 98 1073741825))
            (HuffmanNode.mk 99 1073741826))
          (HuffmanNode.mk 100 1073741827)).weightedPathLength = 9663676426 ∧
    (HuffmanNode.node 0 0
          (HuffmanNode.node 0 0 (HuffmanNode.mk 97 1073741824) (HuffmanNode.mk 98 1073741825))
          (HuffmanNode.node 0 0 (HuffmanNode.mk 99 1073741826)
            (HuffmanNode.mk 100 1073741827))).leafWeights =
      (([((97 : Symbol), (1073741824 : Int)), (98, 1073741825), (99, 1073741826),
        (100, 1073741827)].map Prod.snd : List Int) : Multiset Int) ∧
    (HuffmanNode.node 0 0
          (HuffmanNode.node 0 0 (HuffmanNode.mk 97 1073741824) (HuffmanNode.mk 98 1073741825))
          (HuffmanNode.node 0 0 (HuffmanNode.mk 99 1073741826)
            (HuffmanNode.mk 100 1073741827))).weightedPathLength = 8589934604 := by
  refine ⟨fun Q => buildHuffmanTree_of_strictRun Q _ _ 3 _ rfl (by simp) ?_, ?_, ?_, ?_⟩
  · decide
  · decide
  · rfl
  · decide

/-! ## The code map -/

theorem leafCodes_leaf (d : Symbol) (f : Int) {l r : HuffmanNode} (code : CString)
    (h : (l.isNull && r.isNull) = true) :
    leafCodes (HuffmanNode.node d f l r) code = [(d, code)] := by
  simp [leafCodes, h]

theorem leafCodes_inner (d : Symbol) (f : Int) {l r : HuffmanNode} (code : CString)
    (h : (l.isNull && r.isNull) = false) :
    leafCodes (HuffmanNode.node d f l r) code =
      leafCodes l (code ++ ['0']) ++ leafCodes r (code ++ ['1']) := by
  simp [leafCodes, h]

theorem assignAll_append {V : Type} (m : UnorderedMap V) (l1 l2 : List (Symbol × V)) :
    assignAll m (l1 ++ l2) = assignAll (assignAll m l1) l2 := by
  simp [assignAll, List.foldl_append]

theorem generateHuffmanCodes_eq (t : HuffmanNode) :
    ∀ (code : CString) (m : UnorderedMap CString),
      generateHuffmanCodes t code m = assignAll m (leafCodes t code) := by
  induction t with
  | null => intro code m; rfl
  | node d f l r ihl ihr =>
    intro code m
    cases h : (l.isNull && r.isNull) with
    | true =>
      have hl : l = HuffmanNode.null := by
        simp only [Bool.and_eq_true] at h
        exact (HuffmanNode.isNull_iff l).1 h.1
      have hr : r = HuffmanNode.null := by
        simp only [Bool.and_eq_true] at h
        exact (HuffmanNode.isNull_iff r).1 h.2
      subst hl; subst hr
      simp [generateHuffmanCodes, leafCodes, HuffmanNode.isNull, assignAll]
    | false =>
      rw [leafCodes_inner d f code h, assignAll_append, ← ihl, ← ihr]
      simp [generateHuffmanCodes, h]

theorem assignAll_some {V : Type} (l : List (Symbol × V)) :
    ∀ (m : UnorderedMap V) (k : Symbol) (v : V), assignAll m l k = some v →
      (k, v) ∈ l ∨ m k = some v := by
  induction l with
  | nil => intro m k v h; exact Or.inr h
  | cons p l ih =>
    intro m k v h
    rcases ih (Function.update m p.1 (some p.2)) k v h with h1 | h1
    · exact Or.inl (List.mem_cons_of_mem _ h1)
    · by_cases e : k = p.1
      · subst e
        simp only [Function.update_same, Option.some.injEq] at h1
        subst h1
        exact Or.inl (List.mem_cons_self _ _)
      · rw [Function.update_noteq e] at h1
        exact Or.inr h1

theorem leafCodes_extend (t : HuffmanNode) :
    ∀ (code : CString) (p : Symbol × CString), p ∈ leafCodes t code → code <+: p.2 := by
  induction t with
  | null => intro code p hp; simp [leafCodes] at hp
  | node d f l r ihl ihr =>
    intro code p hp
    cases h : (l.isNull && r.isNull) with
    | true =>
      rw [leafCodes_leaf d f code h, List.mem_singleton] at hp
      subst hp
      exact List.prefix_refl _
    | false =>
      rw [leafCodes_inner d f code h, List.mem_append] at hp
      rcases hp with hp | hp
      · exact (List.prefix_append _ _).trans (ihl _ p hp)
      · exact (List.prefix_append _ _).trans (ihr _ p hp)

theorem unrelated_of_branch {code c1 c2 : CString} (h1 : code ++ ['0'] <+: c1)
    (h2 : code ++ ['1'] <+: c2) : Unrelated c1 c2 := by
  have key : ∀ c : CString, code ++ ['0'] <+: c → code ++ ['1'] <+: c → False := by
    intro c ha hb
    have := List.prefix_of_prefix_length_le ha hb (by simp)
    have e := this.eq_of_length (by simp)
    simp at e
  exact ⟨fun h => key c2 (h1.trans h) h2, fun h => key c1 h1 (h2.trans h)⟩

theorem leafCodes_pairwise (t : HuffmanNode) :
    ∀ code : CString, (leafCodes t code).Pairwise (fun p q => Unrelated p.2 q.2) := by
  induction t with
  | null => intro code; simp [leafCodes]
  | node d f l r ihl ihr =>
    intro code
    cases h : (l.isNull && r.isNull) with
    | true => simp [leafCodes_leaf d f code h]
    | false =>
      rw [leafCodes_inner d f code h, List.pairwise_append]
      exact ⟨ihl _, ihr _, fun p hp q hq =>
        unrelated_of_branch (leafCodes_extend l _ p hp) (leafCodes_extend r _ q hq)⟩

/-- The code map written by `generateHuffmanCodes` on any tree is free of
initial segments: the strings stored for two different keys are unrelated. -/
theorem generateHuffmanCodes_unrelated (t : HuffmanNode) (a b : Symbol) (ca cb : CString)
    (hab : a ≠ b)
    (ha : generateHuffmanCodes t [] (UnorderedMap.empty CString) a = some ca)
    (hb : generateHuffmanCodes t [] (UnorderedMap.empty CString) b = some cb) :
    Unrelated ca cb := by
  rw [generateHuffmanCodes_eq] at ha hb
  have ha1 : (a, ca) ∈ leafCodes t [] := by
    rcases assignAll_some _ _ _ _ ha with h | h
    · exact h
    · simp [UnorderedMap.empty] at h
  have hb1 : (b, cb) ∈ leafCodes t [] := by
    rcases assignAll_some _ _ _ _ hb with h | h
    · exact h
    · simp [UnorderedMap.empty] at h
  have hsym : Symmetric (fun p q : Symbol × CString => Unrelated p.2 q.2) :=
    fun p q h => ⟨h.2, h.1⟩
  exact (leafCodes_pairwise t []).forall hsym ha1 hb1 (by
    intro e
    exact hab (congrArg Prod.fst e))

theorem countFrequencies_apply : ∀ (input : List Symbol) (m : UnorderedMap Int) (k : Symbol),
    countFrequencies input m k =
      if k ∈ input then some (wrapInt ((m k).getD 0 + input.count k)) else m k
  | [], m, k => by simp [countFrequencies]
  | ch :: rest, m, k => by
    rw [countFrequencies, countFrequencies_apply rest]
    by_cases e : k = ch
    · subst e
      by_cases hr : k ∈ rest
      · simp only [hr, if_true, Function.update_same, Option.getD_some, List.mem_cons, true_or,
          List.count_cons_self, Nat.cast_add, Nat.cast_one, wrapInt_wrapInt_add]
        congr 2
        ring
      · simp [hr, List.count_eq_zero_of_not_mem hr]
    · have e1 : ¬ ch = k := fun h => e h.symm
      by_cases hr : k ∈ rest
      · simp [hr, e, Function.update_noteq e, List.count_cons, e1]
      · simp [hr, e, Function.update_noteq e]

/-- The frequency map of a non-empty input has an entry. -/
theorem entries_ne_nil (M : MapOrder) (input : List Symbol) (hne : input ≠ []) :
    M.entries (countFrequencies input (UnorderedMap.empty Int)) ≠ [] := by
  obtain ⟨ch, rest, rfl⟩ := List.exists_cons_of_ne_nil hne
  intro h
  have hm : (ch, wrapInt (0 + ((ch :: rest).count ch : Nat))) ∈
      M.entries (countFrequencies (ch :: rest) (UnorderedMap.empty Int)) := by
    rw [M.mem_entries, countFrequencies_apply]
    simp [UnorderedMap.empty]
  rw [h] at hm
  exact List.not_mem_nil _ hm

/-! ## Encoding and bit packing -/

theorem packLoop_eq (encodedBits : CString) : ∀ (k i : Nat) (output : List Nat),
    i + k = encodedBits.length →
    packLoop encodedBits.length i (encodedBits.drop i) (bitsAfter encodedBits i) output =
      output ++ ((List.range' i k).filter (emits encodedBits.length)).map
        (fun j => to_ulong (bitsAfter encodedBits (j + 1))) := by
  intro k
  induction k with
  | zero =>
    intro i output h
    have : encodedBits.drop i = [] := List.drop_eq_nil_of_le (by omega)
    simp [this, packLoop]
  | succ k ih =>
    intro i output h
    have hi : i < encodedBits.length := by omega
    rw [List.drop_eq_getElem_cons hi, packLoop]
    have hb : Function.update (bitsAfter encodedBits i) (7 - i % 8) (encodedBits[i] == '1') =
        bitsAfter encodedBits (i + 1) := by
      simp [bitsAfter, List.getD_eq_getElem?_getD, List.getElem?_eq_getElem hi]
    simp only [hb]
    rw [ih (i + 1) _ (by omega), List.range'_succ, List.filter_cons]
    by_cases e : emits encodedBits.length i = true
    · have e1 : ((i + 1) % 8 == 0 || i == encodedBits.length - 1) = true := e
      simp [e, e1]
    · have e1 : ¬ ((i + 1) % 8 == 0 || i == encodedBits.length - 1) = true := e
      simp only [e, e1, if_false]
      simp

theorem packBits_eq (encodedBits : CString) :
    packBits encodedBits =
      ((List.range encodedBits.length).filter (emits encodedBits.length)).map
        (fun j => to_ulong (bitsAfter encodedBits (j + 1))) := by
  have := packLoop_eq encodedBits encodedBits.length 0 [] (by simp)
  simpa [packBits, bitsAfter, List.range_eq_range'] using this

theorem filter_range_mod (m : Nat) :
    (List.range m).filter (fun j => (j + 1) % 8 == 0) = (List.range (m / 8)).map (fun q => 8 * q + 7) := by
  induction m with
  | zero => simp
  | succ m ih =>
    rw [List.range_succ, List.filter_append, ih]
    by_cases h : (m + 1) % 8 = 0
    · have e : (m + 1) / 8 = m / 8 + 1 := by omega
      have e2 : 8 * (m / 8) + 7 = m := by omega
      rw [e, List.range_succ, List.map_append]
      simp [h, e2]
    · have e : (m + 1) / 8 = m / 8 := by omega
      rw [e]
      simp [h]

/-- The indices at which the packing loop writes a byte. -/
theorem filter_emits (n : Nat) :
    (List.range (n + 1)).filter (emits (n + 1)) =
      (List.range (n / 8)).map (fun q => 8 * q + 7) ++ [n] := by
  rw [List.range_succ, List.filter_append, ← filter_range_mod]
  congr 1
  · apply List.filter_congr
    intro j hj
    have : j < n := List.mem_range.1 hj
    have hne : ¬ j = n := by omega
    simp [emits, hne]
  · simp [emits]

theorem packBits_length (encodedBits : CString) :
    (packBits encodedBits).length = (encodedBits.length + 7) / 8 := by
  rw [packBits_eq]
  cases h : encodedBits.length with
  | zero => simp
  | succ n =>
    rw [List.length_map, filter_emits]
    simp
    omega

theorem subscript_fst (m : UnorderedMap CString) (ch : Symbol) :
    (subscript m ch).1 = (m ch).getD [] := by
  unfold subscript
  cases h : m ch <;> simp

theorem subscript_snd_getD (m : UnorderedMap CString) (ch k : Symbol) :
    ((subscript m ch).2 k).getD [] = (m k).getD [] := by
  unfold subscript
  cases h : m ch with
  | some c => simp
  | none =>
    by_cases e : k = ch
    · subst e; simp [h]
    · simp [Function.update_noteq e]

theorem concatCodes_congr {m1 m2 : UnorderedMap CString}
    (h : ∀ k, (m1 k).getD [] = (m2 k).getD []) :
    ∀ input : List Symbol, concatCodes m1 input = concatCodes m2 input
  | [] => rfl
  | ch :: rest => by simp [concatCodes, h ch, concatCodes_congr h rest]

/-- The string built by the encoding loop. -/
theorem encodeInput_fst : ∀ (input : List Symbol) (acc : CString) (m : UnorderedMap CString),
    (encodeInput input acc m).1 = acc ++ concatCodes m input
  | [], acc, m => by simp [encodeInput, concatCodes]
  | ch :: rest, acc, m => by
    rw [encodeInput, encodeInput_fst rest, subscript_fst, concatCodes,
      concatCodes_congr (subscript_snd_getD m ch) rest, List.append_assoc]

theorem concatCodes_length (m : UnorderedMap CString) : ∀ input : List Symbol,
    (concatCodes m input).length = (input.map (fun ch => ((m ch).getD []).length)).sum
  | [] => rfl
  | ch :: rest => by simp [concatCodes, concatCodes_length m rest]

theorem leafCodes_keys (t : HuffmanNode) :
    ∀ code : CString, (leafCodes t code).map Prod.fst = t.leaves.map Prod.fst := by
  induction t with
  | null => intro code; rfl
  | node d f l r ihl ihr =>
    intro code
    cases h : (l.isNull && r.isNull) with
    | true => simp [leafCodes_leaf d f code h, HuffmanNode.leaves, h]
    | false => simp [leafCodes_inner d f code h, HuffmanNode.leaves, h, ihl, ihr]

theorem assignAll_of_not_mem {V : Type} (l : List (Symbol × V)) :
    ∀ (m : UnorderedMap V) (k : Symbol), k ∉ l.map Prod.fst → assignAll m l k = m k := by
  induction l with
  | nil => intro m k _; rfl
  | cons p l ih =>
    intro m k hk
    simp only [List.map_cons, List.mem_cons, not_or] at hk
    show assignAll (Function.update m p.1 (some p.2)) l k = m k
    rw [ih _ k hk.2, Function.update_noteq hk.1]

theorem assignAll_of_mem {V : Type} (l : List (Symbol × V)) :
    ∀ (m : UnorderedMap V) (k : Symbol), k ∈ l.map Prod.fst → ∃ v, assignAll m l k = some v := by
  induction l with
  | nil => intro m k hk; simp at hk
  | cons p l ih =>
    intro m k hk
    by_cases h : k ∈ l.map Prod.fst
    · exact ih _ k h
    · have e : k = p.1 := by
        simp only [List.map_cons, List.mem_cons] at hk
        rcases hk with hk | hk
        · exact hk
        · exact absurd hk h
      refine ⟨p.2, ?_⟩
      show assignAll (Function.update m p.1 (some p.2)) l k = some p.2
      rw [assignAll_of_not_mem l _ k h, e, Function.update_same]

/-- Every key on a leaf of the tree gets a codeword. -/
theorem generateHuffmanCodes_of_leaf (t : HuffmanNode) (k : Symbol)
    (hk : k ∈ t.leaves.map Prod.fst) (m : UnorderedMap CString) :
    ∃ code, generateHuffmanCodes t [] m k = some code := by
  rw [generateHuffmanCodes_eq]
  exact assignAll_of_mem _ m k (by rw [leafCodes_keys]; exact hk)

/-- Every byte of the input is a key of the enumerated frequency map. -/
theorem mem_entries_of_mem (M : MapOrder) (input : List Symbol) (ch : Symbol) (h : ch ∈ input) :
    (ch, wrapInt (input.count ch)) ∈
      M.entries (countFrequencies input (UnorderedMap.empty Int)) := by
  rw [M.mem_entries, countFrequencies_apply]
  simp [UnorderedMap.empty, h]

/-- The pipeline of `compressFile` on a non-empty input: the tree exists, its
leaves are the entries of the frequency map, every input byte has a
codeword, and the output is the packed concatenation of the codewords. -/
theorem compressFile_eq (Q : PriorityQueue) (M : MapOrder) (input : List Symbol)
    (hne : input ≠ []) :
    ∃ root, buildHuffmanTree Q (M.entries (countFrequencies input (UnorderedMap.empty Int)))
        = Except.ok root ∧
      root.isNull = false ∧
      ((root.leaves : List (Symbol × Int)) : Multiset (Symbol × Int)) =
        M.entries (countFrequencies input (UnorderedMap.empty Int)) ∧
      (∀ ch ∈ input, ∃ code,
        generateHuffmanCodes root [] (UnorderedMap.empty CString) ch = some code) ∧
      compressFile Q M input = Except.ok (packBits
        (concatCodes (generateHuffmanCodes root [] (UnorderedMap.empty CString)) input)) := by
  obtain ⟨root, hroot, hc, _, hl⟩ := buildHuffmanTree_leaves Q _ (entries_ne_nil M input hne)
  refine ⟨root, hroot, hc, hl, fun ch hch => ?_, ?_⟩
  · apply generateHuffmanCodes_of_leaf
    have h1 : (ch, wrapInt (input.count ch)) ∈ ((root.leaves : List (Symbol × Int)) :
        Multiset (Symbol × Int)) := by
      rw [hl]
      exact mem_entries_of_mem M input ch hch
    exact List.mem_map.2 ⟨_, Multiset.mem_coe.1 h1, rfl⟩
  · simp [compressFile, hroot, encodeInput_fst]

/-- C2: for every non-empty input, with every priority queue and every
iteration order of the frequency map, `buildHuffmanTree` returns a tree and
the code map that `generateHuffmanCodes` derives from it with the empty
string has a codeword for every input byte and is free of initial segments:
for two different symbols in the map neither codeword is an initial segment
of the other. -/
theorem huffmanCodes_prefix_free (Q : PriorityQueue) (M : MapOrder) (input : List Symbol)
    (hne : input ≠ []) :
    ∃ root, buildHuffmanTree Q (M.entries (countFrequencies input (UnorderedMap.empty Int)))
        = Except.ok root ∧
      (∀ ch ∈ input, ∃ code,
        generateHuffmanCodes root [] (UnorderedMap.empty CString) ch = some code) ∧
      ∀ (a b : Symbol) (ca cb : CString), a ≠ b →
        generateHuffmanCodes root [] (UnorderedMap.empty CString) a = some ca →
        generateHuffmanCodes root [] (UnorderedMap.empty CString) b = some cb →
        ¬ ca <+: cb ∧ ¬ cb <+: ca := by
  obtain ⟨root, hroot, _, _, hall, _⟩ := compressFile_eq Q M input hne
  exact ⟨root, hroot, hall, fun a b ca cb hab ha hb =>
    generateHuffmanCodes_unrelated root a b ca cb hab ha hb⟩

/-- Witness of C2 on the input "aaab". -/
theorem huffmanCodes_prefix_free_witness :
    ([97, 97, 97, 98] : List Symbol) ≠ [] ∧
    ∃ root, buildHuffmanTree firstMinQueue
        (ascendingOrder.entries (countFrequencies [97, 97, 97, 98] (UnorderedMap.empty Int)))
        = Except.ok root ∧
      (∀ ch ∈ ([97, 97, 97, 98] : List Symbol), ∃ code,
        generateHuffmanCodes root [] (UnorderedMap.empty CString) ch = some code) ∧
      ∀ (a b : Symbol) (ca cb : CString), a ≠ b →
        generateHuffmanCodes root [] (UnorderedMap.empty CString) a = some ca →
        generateHuffmanCodes root [] (UnorderedMap.empty CString) b = some cb →
        ¬ ca <+: cb ∧ ¬ cb <+: ca :=
  ⟨by simp, huffmanCodes_prefix_free firstMinQueue ascendingOrder [97, 97, 97, 98] (by simp)⟩

/-- C3: for every non-empty input, with every priority queue and iteration
order, `compressFile` returns; the encoded bit string has as many characters
as the codewords of the input bytes have together (every input byte has a
codeword), and the packing loop writes ceil(bits / 8) bytes. -/
theorem compressFile_bit_and_byte_count (Q : PriorityQueue) (M : MapOrder)
    (input : List Symbol) (hne : input ≠ []) :
    ∃ root output,
      buildHuffmanTree Q (M.entries (countFrequencies input (UnorderedMap.empty Int)))
        = Except.ok root ∧
      compressFile Q M input = Except.ok output ∧
      (∀ ch ∈ input, ∃ code,
        generateHuffmanCodes root [] (UnorderedMap.empty CString) ch = some code) ∧
      (encodeInput input [] (generateHuffmanCodes root [] (UnorderedMap.empty CString))).1.length
        = (input.map (fun ch =>
            ((generateHuffmanCodes root [] (UnorderedMap.empty CString) ch).getD []).length)).sum ∧
      output = packBits
        (encodeInput input [] (generateHuffmanCodes root [] (UnorderedMap.empty CString))).1 ∧
      output.length =
        ((encodeInput input []
          (generateHuffmanCodes root [] (UnorderedMap.empty CString))).1.length + 7) / 8 := by
  obtain ⟨root, hroot, _, _, hcodes, hout⟩ := compressFile_eq Q M input hne
  refine ⟨root, _, hroot, hout, hcodes, ?_, ?_, ?_⟩
  · rw [encodeInput_fst, List.nil_append, concatCodes_length]
  · rw [encodeInput_fst, List.nil_append]
  · rw [packBits_length, encodeInput_fst, List.nil_append]

/-- Witness of C3 on the input "aaab". -/
theorem compressFile_bit_and_byte_count_witness :
    ([97, 97, 97, 98] : List Symbol) ≠ [] ∧
    ∃ root output,
      buildHuffmanTree firstMinQueue
        (ascendingOrder.entries (countFrequencies [97, 97, 97, 98] (UnorderedMap.empty Int)))
        = Except.ok root ∧
      compressFile firstMinQueue ascendingOrder [97, 97, 97, 98] = Except.ok output ∧
      (∀ ch ∈ ([97, 97, 97, 98] : List Symbol), ∃ code,
        generateHuffmanCodes root [] (UnorderedMap.empty CString) ch = some code) ∧
      (encodeInput [97, 97, 97, 98] []
          (generateHuffmanCodes root [] (UnorderedMap.empty CString))).1.length
        = (([97, 97, 97, 98] : List Symbol).map (fun ch =>
            ((generateHuffmanCodes root [] (UnorderedMap.empty CString) ch).getD []).length)).sum ∧
      output = packBits
        (encodeInput [97, 97, 97, 98] []
          (generateHuffmanCodes root [] (UnorderedMap.empty CString))).1 ∧
      output.length =
        ((encodeInput [97, 97, 97, 98] []
          (generateHuffmanCodes root [] (UnorderedMap.empty CString))).1.length + 7) / 8 :=
  ⟨by simp, compressFile_bit_and_byte_count firstMinQueue ascendingOrder [97, 97, 97, 98]
    (by simp)⟩

theorem to_ulong_testBit_aux :
    ∀ b0 b1 b2 b3 b4 b5 b6 b7 : Bool,
      ∀ p : Fin 8,
      Nat.testBit ((if b0 then 1 else 0) + ((if b1 then 2 else 0) + ((if b2 then 4 else 0) +
        ((if b3 then 8 else 0) + ((if b4 then 16 else 0) + ((if b5 then 32 else 0) +
        ((if b6 then 64 else 0) + ((if b7 then 128 else 0) + 0)))))))) p.val =
        [b0, b1, b2, b3, b4, b5, b6, b7].getD p.val false := by
  decide

theorem to_ulong_testBit (bits : Bitset8) (p : Nat) (hp : p < 8) :
    (to_ulong bits).testBit p = bits p := by
  have h := to_ulong_testBit_aux (bits 0) (bits 1) (bits 2) (bits 3) (bits 4) (bits 5) (bits 6)
    (bits 7) ⟨p, hp⟩
  have e : to_ulong bits = (if bits 0 then 1 else 0) + ((if bits 1 then 2 else 0) +
      ((if bits 2 then 4 else 0) +
        ((if bits 3 then 8 else 0) + ((if bits 4 then 16 else 0) + ((if bits 5 then 32 else 0) +
        ((if bits 6 then 64 else 0) + ((if bits 7 then 128 else 0) + 0))))))) := by
    simp [to_ulong, List.range, List.range.loop]
  rw [e, h]
  simp only
  interval_cases p <;> rfl

theorem to_ulong_lt (bits : Bitset8) : to_ulong bits < 256 := by
  simp only [to_ulong, List.range, List.range.loop, List.map, List.sum_cons, List.sum_nil]
  repeat' split
  all_goals omega

/-- A position written within the last eight steps holds the bit written
there. -/
theorem bitsAfter_recent (encodedBits : CString) : ∀ (n m : Nat), m < n → n ≤ m + 8 →
    bitsAfter encodedBits n (7 - m % 8) = (encodedBits.getD m '0' == '1') := by
  intro n
  induction n with
  | zero => intro m h; omega
  | succ n ih =>
    intro m h1 h2
    by_cases e : m = n
    · subst e
      simp [bitsAfter]
    · have hne : 7 - m % 8 ≠ 7 - n % 8 := by omega
      rw [bitsAfter, Function.update_noteq hne]
      exact ih m (by omega) (by omega)

/-- The byte written for a complete group of eight characters. -/
theorem packBits_getElem_full (encodedBits : CString) (j : Nat)
    (hj : 8 * j + 7 < encodedBits.length) :
    (packBits encodedBits)[j]? = some (to_ulong (bitsAfter encodedBits (8 * j + 8))) := by
  rw [packBits_eq]
  obtain ⟨n, hn⟩ : ∃ n, encodedBits.length = n + 1 := ⟨encodedBits.length - 1, by omega⟩
  rw [hn, filter_emits, List.map_append, List.map_map]
  by_cases h : j < n / 8
  · rw [List.getElem?_append_left (by simpa using h)]
    simp [List.getElem?_map, List.getElem?_range h]
  · have e : j = n / 8 := by omega
    have e2 : n = 8 * j + 7 := by omega
    rw [List.getElem?_append_right (by simp; omega)]
    have e3 : n + 1 = 8 * j + 8 := by omega
    simp [← e, e3]

/-- C5: the packing loop is MSB-first on every complete group of eight
characters: byte `j` of the output exists, and for `i` from 0 to 7 its bit
`7 - i` is set exactly if character `8 * j + i` of the encoded string is
the character 1. -/
theorem packBits_msb_first (encodedBits : CString) (j i : Nat) (hi : i < 8)
    (hj : 8 * j + 7 < encodedBits.length) :
    ∃ byte c, (packBits encodedBits)[j]? = some byte ∧ encodedBits[8 * j + i]? = some c ∧
      byte < 256 ∧ byte.testBit (7 - i) = (c == '1') := by
  have hlt : 8 * j + i < encodedBits.length := by omega
  refine ⟨_, encodedBits[8 * j + i], packBits_getElem_full encodedBits j hj,
    List.getElem?_eq_getElem hlt, to_ulong_lt _, ?_⟩
  rw [to_ulong_testBit _ _ (by omega)]
  have := bitsAfter_recent encodedBits (8 * j + 8) (8 * j + i) (by omega) (by omega)
  have e : (8 * j + i) % 8 = i := by omega
  rw [e] at this
  rw [this, List.getD_eq_getElem?_getD, List.getElem?_eq_getElem hlt]
  rfl

/-- Witness of C5: the first byte packed from the ten characters 1110000011. -/
theorem packBits_msb_first_witness :
    (0 < 8 ∧ 8 * 0 + 7 < (['1', '1', '1', '0', '0', '0', '0', '0', '1', '1'] : CString).length) ∧
    ∃ byte c, (packBits ['1', '1', '1', '0', '0', '0', '0', '0', '1', '1'])[0]? = some byte ∧
      (['1', '1', '1', '0', '0', '0', '0', '0', '1', '1'] : CString)[8 * 0 + 0]? = some c ∧
      byte < 256 ∧ byte.testBit (7 - 0) = (c == '1') :=
  ⟨by decide, packBits_msb_first _ 0 0 (by decide) (by decide)⟩

/-! ## Small inputs, iteration order and missing codewords -/

/-- The enumerated frequency map, up to order, is any duplicate-free list
with the same entries. -/
theorem entries_coe (M : MapOrder) (m : UnorderedMap Int) (l : List (Symbol × Int))
    (hl : l.Nodup) (h : ∀ k v, (k, v) ∈ l ↔ m k = some v) :
    ((M.entries m : List (Symbol × Int)) : Multiset (Symbol × Int)) = l := by
  apply Multiset.coe_eq_coe.2
  apply (List.perm_ext_iff_of_nodup (List.Nodup.of_map _ (M.nodup_keys m)) hl).2
  rintro ⟨k, v⟩
  rw [M.mem_entries, h]

/-- The frequency map of an input over exactly two byte values. -/
theorem entries_two (M : MapOrder) (input : List Symbol) (a b : Symbol) (hab : a ≠ b)
    (hin : ∀ k, k ∈ input ↔ k = a ∨ k = b) :
    ((M.entries (countFrequencies input (UnorderedMap.empty Int)) : List (Symbol × Int)) :
      Multiset (Symbol × Int)) =
      [(a, wrapInt (input.count a)), (b, wrapInt (input.count b))] := by
  apply entries_coe
  · simp [hab]
  · intro k v
    rw [countFrequencies_apply]
    simp only [hin, UnorderedMap.empty, Option.getD_none, zero_add, List.mem_cons,
      Prod.mk.injEq, List.mem_singleton, List.not_mem_nil, or_false]
    constructor
    · rintro (⟨rfl, h⟩ | ⟨rfl, h⟩) <;> simp [h]
    · intro h
      split at h
      · rename_i hk
        simp only [Option.some.injEq] at h
        rcases hk with rfl | rfl
        · exact Or.inl ⟨rfl, h.symm⟩
        · exact Or.inr ⟨rfl, h.symm⟩
      · simp at h

theorem seedNodes_coe (freqMap : List (Symbol × Int)) :
    seedNodes freqMap =
      (freqMap : Multiset (Symbol × Int)).map (fun p => HuffmanNode.mk p.1 p.2) := rfl

/-- With two entries of different counts the tree is fixed: the rarer
symbol is popped first and becomes the left child. -/
theorem buildHuffmanTree_two (Q : PriorityQueue) (freqMap : List (Symbol × Int))
    (a b : Symbol) (fa fb : Int)
    (h : (freqMap : Multiset (Symbol × Int)) = [(a, fa), (b, fb)]) (hlt : fb < fa) :
    buildHuffmanTree Q freqMap =
      Except.ok (combine (HuffmanNode.mk b fb) (HuffmanNode.mk a fa)) := by
  have hne : freqMap ≠ [] := by
    rintro rfl
    have := congrArg Multiset.card h
    simp at this
  have hseed : seedNodes freqMap = HuffmanNode.mk a fa ::ₘ {HuffmanNode.mk b fb} := by
    rw [seedNodes_coe, h]
    rfl
  obtain ⟨root, hroot, hinv⟩ := buildHuffmanTree_rule Q
    (fun s => s = HuffmanNode.mk a fa ::ₘ {HuffmanNode.mk b fb} ∨
      s = {combine (HuffmanNode.mk b fb) (HuffmanNode.mk a fa)})
    (by
      intro s l r hs hl hr hlmin _
      rcases hs with rfl | rfl
      · have hlb : l = HuffmanNode.mk b fb := by
          rcases Multiset.mem_cons.1 hl with e | e
          · have := hlmin (HuffmanNode.mk b fb) (by simp)
            rw [e] at this
            simp only [HuffmanNode.mk, HuffmanNode.frequency] at this
            omega
          · exact Multiset.mem_singleton.1 e
        subst hlb
        have hne2 : HuffmanNode.mk a fa ≠ HuffmanNode.mk b fb := by
          intro e
          simp only [HuffmanNode.mk, HuffmanNode.node.injEq] at e
          omega
        have he : (HuffmanNode.mk a fa ::ₘ {HuffmanNode.mk b fb}).erase (HuffmanNode.mk b fb)
            = {HuffmanNode.mk a fa} := by
          rw [Multiset.erase_cons_tail _ hne2]
          simp
        rw [he] at hr ⊢
        have hra : r = HuffmanNode.mk a fa := Multiset.mem_singleton.1 hr
        subst hra
        right
        simp
      · have hlb : l = combine (HuffmanNode.mk b fb) (HuffmanNode.mk a fa) :=
          Multiset.mem_singleton.1 hl
        subst hlb
        simp at hr)
    freqMap hne (Or.inl hseed)
  rcases hinv with e | e
  · have := congrArg Multiset.card e
    simp at this
  · rw [hroot, Multiset.singleton_inj.1 e]

/-- With a single entry the tree is that leaf. -/
theorem buildHuffmanTree_one (Q : PriorityQueue) (a : Symbol) (fa : Int) :
    buildHuffmanTree Q [(a, fa)] = Except.ok (HuffmanNode.mk a fa) := by
  obtain ⟨root, hroot, hinv⟩ := buildHuffmanTree_rule Q
    (fun s => s = {HuffmanNode.mk a fa})
    (by
      intro s l r hs hl hr _ _
      subst hs
      have hlb : l = HuffmanNode.mk a fa := Multiset.mem_singleton.1 hl
      subst hlb
      simp at hr)
    [(a, fa)] (by simp) rfl
  rw [hroot, Multiset.singleton_inj.1 hinv]

section

set_option maxRecDepth 100000

/-- C6 (as the code behaves): with every priority queue and iteration order,
compressing the four bytes "aaab" writes exactly one byte, and that byte is
0xE0: the rarer `b` is popped first, becomes the left child and gets the
codeword 0, `a` gets 1, so the bits are 1110, padded with four zeros. -/
theorem compressFile_aaab (Q : PriorityQueue) (M : MapOrder) :
    compressFile Q M [97, 97, 97, 98] = Except.ok [0xE0] := by
  have he := entries_two M [97, 97, 97, 98] 97 98 (by decide) (by intro k; simp)
  have hb := buildHuffmanTree_two Q _ 97 98 3 1 he (by decide)
  simp only [compressFile, hb]
  rfl

/-- C6, counterexample: the byte written for "aaab" is not 0x10. -/
theorem compressFile_aaab_ne_0x10 :
    compressFile firstMinQueue ascendingOrder [97, 97, 97, 98] ≠ Except.ok [0x10] := by
  have h : compressFile firstMinQueue ascendingOrder [97, 97, 97, 98] = Except.ok [0xE0] := by
    rfl
  rw [h]
  simp

/-- C4, failing input: for the nine bytes "aaaaabbbb" the encoded string is
111110000; the second and last byte written is 0x78 and not 0x00, because
`bits` still holds the low seven bits of the first byte 0xF8. -/
theorem compressFile_stale_padding (Q : PriorityQueue) (M : MapOrder) :
    packBits ['1', '1', '1', '1', '1', '0', '0', '0', '0'] = [0xF8, 0x78] ∧
      compressFile Q M [97, 97, 97, 97, 97, 98, 98, 98, 98] = Except.ok [0xF8, 0x78] ∧
      Nat.testBit 0x78 6 = true := by
  have he := entries_two M [97, 97, 97, 97, 97, 98, 98, 98, 98] 97 98 (by decide)
    (by intro k; simp)
  have hb := buildHuffmanTree_two Q _ 97 98 5 4 he (by decide)
  refine ⟨by rfl, ?_, by decide⟩
  simp only [compressFile, hb]
  rfl

/-- C7, failing inputs: for an input of `N + 1` copies of one byte the tree
is a single leaf, the codeword of the byte is the empty string, and no byte
at all is written, whatever `N` is. -/
theorem compressFile_single_symbol (Q : PriorityQueue) (M : MapOrder) (ch : Symbol) (N : Nat) :
    ∃ root, buildHuffmanTree Q
        (M.entries (countFrequencies (List.replicate (N + 1) ch) (UnorderedMap.empty Int)))
        = Except.ok root ∧
      generateHuffmanCodes root [] (UnorderedMap.empty CString) ch = some [] ∧
      compressFile Q M (List.replicate (N + 1) ch) = Except.ok [] := by
  have he : M.entries (countFrequencies (List.replicate (N + 1) ch) (UnorderedMap.empty Int))
      = [(ch, wrapInt ((N + 1 : Nat) : Int))] := by
    have := entries_coe M (countFrequencies (List.replicate (N + 1) ch) (UnorderedMap.empty Int))
      [(ch, wrapInt ((N + 1 : Nat) : Int))] (by simp) (by
        intro k v
        rw [countFrequencies_apply]
        by_cases e : k = ch
        · subst e
          simp [UnorderedMap.empty, eq_comm]
        · simp [UnorderedMap.empty, e, List.mem_replicate])
    exact List.perm_singleton.1 (Multiset.coe_eq_coe.1 this)
  have hb := buildHuffmanTree_one Q ch (wrapInt ((N + 1 : Nat) : Int))
  have hcode : generateHuffmanCodes (HuffmanNode.mk ch (wrapInt ((N + 1 : Nat) : Int))) []
      (UnorderedMap.empty CString) ch = some [] := by
    simp [generateHuffmanCodes, HuffmanNode.mk, HuffmanNode.isNull]
  refine ⟨_, he ▸ hb, hcode, ?_⟩
  have hcc : ∀ n : Nat, concatCodes
      (generateHuffmanCodes (HuffmanNode.mk ch (wrapInt ((N + 1 : Nat) : Int))) []
        (UnorderedMap.empty CString))
      (List.replicate n ch) = [] := by
    intro n
    induction n with
    | zero => rfl
    | succ n ih => rw [List.replicate_succ, concatCodes, hcode, ih]; rfl
  simp only [compressFile, he, hb, encodeInput_fst, List.nil_append, hcc]
  rfl

end

theorem leaves_leaf (d : Symbol) (f : Int) {l r : HuffmanNode}
    (h : (l.isNull && r.isNull) = true) : (HuffmanNode.node d f l r).leaves = [(d, f)] := by
  simp [HuffmanNode.leaves, h]

theorem leaves_inner (d : Symbol) (f : Int) {l r : HuffmanNode}
    (h : (l.isNull && r.isNull) = false) :
    (HuffmanNode.node d f l r).leaves = l.leaves ++ r.leaves := by
  simp [HuffmanNode.leaves, h]

/-- With distinct symbols on the leaves, the weighted path length of a tree
is the sum over its leaves of codeword length times frequency. -/
theorem sum_code_lengths (t : HuffmanNode) :
    ∀ (code : CString) (m : UnorderedMap CString), (t.leaves.map Prod.fst).Nodup →
      (t.leaves.map (fun p =>
        (((generateHuffmanCodes t code m p.1).getD []).length : Int) * p.2)).sum =
        t.weightedPathLengthAt code.length := by
  induction t with
  | null => intro code m _; rfl
  | node d f l r ihl ihr =>
    intro code m hnd
    cases h : (l.isNull && r.isNull) with
    | true =>
      have hl : l = HuffmanNode.null := by
        simp only [Bool.and_eq_true] at h
        exact (HuffmanNode.isNull_iff l).1 h.1
      have hr : r = HuffmanNode.null := by
        simp only [Bool.and_eq_true] at h
        exact (HuffmanNode.isNull_iff r).1 h.2
      subst hl; subst hr
      simp [HuffmanNode.leaves, HuffmanNode.isNull, generateHuffmanCodes,
        HuffmanNode.weightedPathLengthAt]
    | false =>
      rw [leaves_inner d f h] at hnd ⊢
      rw [List.map_append, List.nodup_append] at hnd
      obtain ⟨hndl, hndr, hdisj⟩ := hnd
      have hgen : generateHuffmanCodes (HuffmanNode.node d f l r) code m =
          generateHuffmanCodes r (code ++ ['1']) (generateHuffmanCodes l (code ++ ['0']) m) := by
        simp [generateHuffmanCodes, h]
      have hleft : ∀ p ∈ l.leaves,
          generateHuffmanCodes (HuffmanNode.node d f l r) code m p.1 =
            generateHuffmanCodes l (code ++ ['0']) m p.1 := by
        intro p hp
        rw [hgen, generateHuffmanCodes_eq r]
        apply assignAll_of_not_mem
        rw [leafCodes_keys]
        exact fun hr => hdisj (List.mem_map_of_mem _ hp) hr
      rw [List.map_append, List.sum_append]
      have e1 : (l.leaves.map (fun p =>
          (((generateHuffmanCodes (HuffmanNode.node d f l r) code m p.1).getD []).length : Int)
            * p.2)) =
          (l.leaves.map (fun p =>
            (((generateHuffmanCodes l (code ++ ['0']) m p.1).getD []).length : Int) * p.2)) := by
        apply List.map_congr_left
        intro p hp
        rw [hleft p hp]
      rw [e1, ihl _ m hndl, hgen, ihr _ _ hndr]
      simp [HuffmanNode.weightedPathLengthAt, h]

theorem wrapInt_natCast (n : Nat) (h : n ≤ 2147483647) : wrapInt (n : Int) = n := by
  unfold wrapInt
  omega

/-- The enumerated frequency map of an input, up to order: each byte value
of the input once, with its number of occurrences as an `int`. -/
theorem entries_eq_counts (M : MapOrder) (input : List Symbol) :
    ((M.entries (countFrequencies input (UnorderedMap.empty Int)) : List (Symbol × Int)) :
      Multiset (Symbol × Int)) =
      (input.dedup.map (fun k => (k, wrapInt (input.count k))) : List _) := by
  apply entries_coe
  · exact (List.nodup_dedup input).map (fun a b h => congrArg Prod.fst h)
  · intro k v
    rw [countFrequencies_apply]
    simp only [List.mem_map, List.mem_dedup, Prod.mk.injEq, UnorderedMap.empty,
      Option.getD_none, zero_add]
    constructor
    · rintro ⟨a, ha, rfl, rfl⟩
      simp [ha]
    · intro h
      split at h
      · rename_i hk
        exact ⟨k, hk, rfl, by simpa using h⟩
      · simp at h

/-- When no byte value occurs more than `INT_MAX` times, the enumerated
frequency map holds the numbers of occurrences themselves. -/
theorem entries_eq_counts_of_le (M : MapOrder) (input : List Symbol)
    (hb : ∀ k, input.count k ≤ 2147483647) :
    ((M.entries (countFrequencies input (UnorderedMap.empty Int)) : List (Symbol × Int)) :
      Multiset (Symbol × Int)) =
      (input.dedup.map (fun k => (k, (input.count k : Int))) : List _) := by
  have e : (fun k => (k, wrapInt (input.count k))) =
      fun k : Symbol => (k, (input.count k : Int)) := by
    funext k
    rw [wrapInt_natCast _ (hb k)]
  rw [entries_eq_counts, e]

theorem count_le_of_length_le (input : List Symbol) (h : input.length ≤ 2147483647)
    (k : Symbol) : input.count k ≤ 2147483647 :=
  le_trans (List.count_le_length k input) h

/-- The counts of the enumerated frequency map sum to the input length when
no byte value occurs more than `INT_MAX` times. -/
theorem sum_entries_eq_length (M : MapOrder) (input : List Symbol)
    (hb : ∀ k, input.count k ≤ 2147483647) :
    ((M.entries (countFrequencies input (UnorderedMap.empty Int))).map Prod.snd).sum =
      (input.length : Int) := by
  have h := congrArg (fun s : Multiset (Symbol × Int) => (s.map Prod.snd).sum)
    (entries_eq_counts_of_le M input hb)
  simp only [Multiset.map_coe, Multiset.sum_coe, List.map_map] at h
  rw [h]
  have e : (input.dedup.map (Prod.snd ∘ fun k => (k, (input.count k : Int)))) =
      (input.dedup.map (fun k => input.count k)).map (fun n : Nat => (n : Int)) := by
    rw [List.map_map]
    rfl
  rw [e, ← Nat.cast_list_sum]
  exact congrArg _ (List.sum_map_count_dedup_eq_length input)

/-- The frequency map of an input of at most `INT_MAX` bytes has
non-negative counts whose sum fits into an `int`. -/
theorem fitsInt_entries (M : MapOrder) (input : List Symbol) (h : input.length ≤ 2147483647) :
    FitsInt (M.entries (countFrequencies input (UnorderedMap.empty Int))) := by
  have hb := count_le_of_length_le input h
  refine ⟨fun p hp => ?_, ?_⟩
  · have h1 : p ∈ ((M.entries (countFrequencies input (UnorderedMap.empty Int)) :
        List (Symbol × Int)) : Multiset (Symbol × Int)) := Multiset.mem_coe.2 hp
    rw [entries_eq_counts_of_le M input hb] at h1
    obtain ⟨k, _, rfl⟩ := List.mem_map.1 (Multiset.mem_coe.1 h1)
    exact Int.natCast_nonneg _
  · rw [sum_entries_eq_length M input hb]
    unfold INT_MAX
    omega

/-- The number of encoded bits is the weighted path length of the tree, when
no byte value occurs more than `INT_MAX` times. -/
theorem encoded_length_eq_weightedPathLength (M : MapOrder) (input : List Symbol)
    (root : HuffmanNode)
    (hl : ((root.leaves : List (Symbol × Int)) : Multiset (Symbol × Int)) =
      M.entries (countFrequencies input (UnorderedMap.empty Int)))
    (hb : ∀ k, input.count k ≤ 2147483647) :
    ((concatCodes (generateHuffmanCodes root [] (UnorderedMap.empty CString)) input).length
      : Int) = root.weightedPathLength := by
  have hnd : (root.leaves.map Prod.fst).Nodup := by
    have h1 := congrArg (Multiset.map Prod.fst) hl
    simp only [Multiset.map_coe, Multiset.coe_eq_coe] at h1
    exact h1.nodup_iff.2 (M.nodup_keys _)
  have h2 : _ = HuffmanNode.weightedPathLengthAt 0 root :=
    sum_code_lengths root [] (UnorderedMap.empty CString) hnd
  rw [concatCodes_length, HuffmanNode.weightedPathLength, ← h2]
  rw [Finset.sum_list_map_count]
  have h3 : ((root.leaves : List (Symbol × Int)) : Multiset (Symbol × Int)) =
      (input.dedup.map (fun k => (k, (input.count k : Int))) : List _) :=
    hl.trans (entries_eq_counts_of_le M input hb)
  have h4 := congrArg (fun s : Multiset (Symbol × Int) => (s.map (fun p =>
    (((generateHuffmanCodes root [] (UnorderedMap.empty CString) p.1).getD []).length : Int)
      * p.2)).sum) h3
  simp only [Multiset.map_coe, Multiset.sum_coe, List.map_map] at h4
  rw [h4, Finset.sum_eq_multiset_sum, List.toFinset_val, Multiset.map_coe, Multiset.sum_coe,
    Nat.cast_list_sum, List.map_map]
  congr 1
  apply List.map_congr_left
  intro k _
  simp [mul_comm]

/-- The tree built for an input of at most `INT_MAX` bytes: its leaves are
the entries of the frequency map, its root carries the sum of its leaves,
and no tree over the same weights has a smaller weighted path length. -/
theorem buildHuffmanTree_of_input (Q : PriorityQueue) (M : MapOrder) (input : List Symbol)
    (hne : input ≠ []) (hlen : input.length ≤ 2147483647) :
    ∃ root, buildHuffmanTree Q (M.entries (countFrequencies input (UnorderedMap.empty Int)))
        = Except.ok root ∧ Consistent root ∧
      ((root.leaves : List (Symbol × Int)) : Multiset (Symbol × Int)) =
        M.entries (countFrequencies input (UnorderedMap.empty Int)) ∧
      ∀ t : HuffmanNode,
        t.leafWeights = ((input.dedup.map (fun k => (input.count k : Int)) : List Int) :
          Multiset Int) →
        root.weightedPathLength ≤ t.weightedPathLength := by
  obtain ⟨root, hroot, hc, hl, hopt⟩ := buildHuffmanTree_spec Q _ (entries_ne_nil M input hne)
    (fitsInt_entries M input hlen)
  refine ⟨root, hroot, hc, hl, fun t ht => hopt t ?_⟩
  rw [ht]
  have := congrArg (Multiset.map Prod.snd)
    (entries_eq_counts_of_le M input (count_le_of_length_le input hlen))
  simp only [Multiset.map_coe, List.map_map] at this
  rw [this]
  rfl

theorem leafWeights_of_leaves (M : MapOrder) (input : List Symbol) (root : HuffmanNode)
    (hl : ((root.leaves : List (Symbol × Int)) : Multiset (Symbol × Int)) =
      M.entries (countFrequencies input (UnorderedMap.empty Int)))
    (hb : ∀ k, input.count k ≤ 2147483647) :
    root.leafWeights = ((input.dedup.map (fun k => (input.count k : Int)) : List Int) :
      Multiset Int) := by
  have := congrArg (Multiset.map Prod.snd) (hl.trans (entries_eq_counts_of_le M input hb))
  simp only [Multiset.map_coe, List.map_map] at this
  rw [HuffmanNode.leafWeights, this]
  rfl

/-- The trees built for one input of at most `INT_MAX` bytes with two
priority queues and two iteration orders have the same weighted path
length. -/
theorem weightedPathLength_independent (Q1 Q2 : PriorityQueue) (M1 M2 : MapOrder)
    (input : List Symbol) (hne : input ≠ []) (hlen : input.length ≤ 2147483647) :
    ∃ r1 r2,
      buildHuffmanTree Q1 (M1.entries (countFrequencies input (UnorderedMap.empty Int)))
        = Except.ok r1 ∧
      buildHuffmanTree Q2 (M2.entries (countFrequencies input (UnorderedMap.empty Int)))
        = Except.ok r2 ∧
      ((r1.leaves : List (Symbol × Int)) : Multiset (Symbol × Int)) =
        M1.entries (countFrequencies input (UnorderedMap.empty Int)) ∧
      ((r2.leaves : List (Symbol × Int)) : Multiset (Symbol × Int)) =
        M2.entries (countFrequencies input (UnorderedMap.empty Int)) ∧
      r1.weightedPathLength = r2.weightedPathLength := by
  have hb := count_le_of_length_le input hlen
  obtain ⟨r1, hr1, _, hl1, hopt1⟩ := buildHuffmanTree_of_input Q1 M1 input hne hlen
  obtain ⟨r2, hr2, _, hl2, hopt2⟩ := buildHuffmanTree_of_input Q2 M2 input hne hlen
  refine ⟨r1, r2, hr1, hr2, hl1, hl2, ?_⟩
  have a1 := hopt1 r2 (leafWeights_of_leaves M2 input r2 hl2 hb)
  have a2 := hopt2 r1 (leafWeights_of_leaves M1 input r1 hl1 hb)
  omega

/-- The numbers of encoded bits and of bytes written for an input of at most
`INT_MAX` bytes do not depend on the priority queue or on the iteration
order of the frequency map. -/
theorem compressFile_length_eq (Q1 Q2 : PriorityQueue) (M1 M2 : MapOrder) (input : List Symbol)
    (hne : input ≠ []) (hlen : input.length ≤ 2147483647) :
    ∃ r1 r2,
      buildHuffmanTree Q1 (M1.entries (countFrequencies input (UnorderedMap.empty Int)))
        = Except.ok r1 ∧
      buildHuffmanTree Q2 (M2.entries (countFrequencies input (UnorderedMap.empty Int)))
        = Except.ok r2 ∧
      compressFile Q1 M1 input = Except.ok (packBits (encodeInput input []
        (generateHuffmanCodes r1 [] (UnorderedMap.empty CString))).1) ∧
      compressFile Q2 M2 input = Except.ok (packBits (encodeInput input []
        (generateHuffmanCodes r2 [] (UnorderedMap.empty CString))).1) ∧
      (encodeInput input [] (generateHuffmanCodes r1 [] (UnorderedMap.empty CString))).1.length =
        (encodeInput input [] (generateHuffmanCodes r2 [] (UnorderedMap.empty CString))).1.length
      := by
  have hb := count_le_of_length_le input hlen
  obtain ⟨r1, r2, hr1, hr2, hl1, hl2, hwpl⟩ :=
    weightedPathLength_independent Q1 Q2 M1 M2 input hne hlen
  refine ⟨r1, r2, hr1, hr2, by simp [compressFile, hr1], by simp [compressFile, hr2], ?_⟩
  rw [encodeInput_fst, encodeInput_fst, List.nil_append, List.nil_append]
  have e1 := encoded_length_eq_weightedPathLength M1 input r1 hl1 hb
  have e2 := encoded_length_eq_weightedPathLength M2 input r2 hl2 hb
  omega

section

set_option maxRecDepth 100000

end

/-- C10, counterexample: encoding the byte 0x41 with an empty code map does
not fail; the loop returns the empty bit string and a map that now has the
entry 0x41 with the empty codeword. -/
theorem encodeInput_missing_entry_inserted :
    (UnorderedMap.empty CString) 0x41 = none ∧
      (encodeInput [0x41] [] (UnorderedMap.empty CString)).1 = [] ∧
      (encodeInput [0x41] [] (UnorderedMap.empty CString)).2 0x41 = some [] := by
  refine ⟨rfl, rfl, ?_⟩
  simp [encodeInput, subscript, UnorderedMap.empty]

/-- C10 (as the code behaves): when the encoding loop meets a byte without
an entry in the code map, `huffmanCodes[ch]` adds an entry with the empty
codeword for that byte, nothing is appended to the bit string, and the loop
goes on with the rest of the input; no error is raised. -/
theorem encodeInput_missing_entry (huffmanCodes : UnorderedMap CString) (ch : Symbol)
    (rest : List Symbol) (encodedBits : CString) (h : huffmanCodes ch = none) :
    subscript huffmanCodes ch = ([], Function.update huffmanCodes ch (some [])) ∧
      encodeInput (ch :: rest) encodedBits huffmanCodes =
        encodeInput rest encodedBits (Function.update huffmanCodes ch (some [])) := by
  have hs : subscript huffmanCodes ch = ([], Function.update huffmanCodes ch (some [])) := by
    simp [subscript, h]
  refine ⟨hs, ?_⟩
  rw [encodeInput, hs]
  simp

/-- Witness of C10 on the input "AB" and the empty code map. -/
theorem encodeInput_missing_entry_witness :
    (UnorderedMap.empty CString) 0x41 = none ∧
    (subscript (UnorderedMap.empty CString) 0x41 =
        ([], Function.update (UnorderedMap.empty CString) 0x41 (some [])) ∧
      encodeInput (0x41 :: [0x42]) [] (UnorderedMap.empty CString) =
        encodeInput [0x42] [] (Function.update (UnorderedMap.empty CString) 0x41 (some []))) :=
  ⟨rfl, encodeInput_missing_entry (UnorderedMap.empty CString) 0x41 [0x42] [] rfl⟩

/-! ## Frequency counting -/

theorem count_le_of_mem_le (input : List Symbol)
    (hb : ∀ k ∈ input, input.count k ≤ 2147483647) (k : Symbol) :
    input.count k ≤ 2147483647 := by
  by_cases hk : k ∈ input
  · exact hb k hk
  · rw [List.count_eq_zero_of_not_mem hk]
    omega

/-- The counter of a byte value after a run of that value alone. -/
theorem countFrequencies_replicate (n : Nat) (a : Symbol) (hn : 0 < n) :
    countFrequencies (List.replicate n a) (UnorderedMap.empty Int) a =
      some (wrapInt (n : Int)) := by
  rw [countFrequencies_apply, if_pos (List.mem_replicate.2 ⟨by omega, rfl⟩),
    List.count_replicate_self]
  simp [UnorderedMap.empty]

/-- C11 (as the code behaves): the frequency map built by the counting loop
from the empty map has a key for a byte value exactly if the value occurs in
the input, and the empty input gives the empty map; when no byte value
occurs more than `INT_MAX` = 2147483647 times, the count stored for a key
is the number of its occurrences and the counts of the entries (in any
iteration order) sum to the length of the input. -/
theorem countFrequencies_counts (input : List Symbol) :
    (∀ k : Symbol, (∃ v, countFrequencies input (UnorderedMap.empty Int) k = some v) ↔
      k ∈ input) ∧
    ((∀ k ∈ input, input.count k ≤ 2147483647) →
      (∀ k : Symbol, ∀ v, countFrequencies input (UnorderedMap.empty Int) k = some v →
        v = (input.count k : Int)) ∧
      (∀ k ∈ input,
        countFrequencies input (UnorderedMap.empty Int) k = some (input.count k : Int)) ∧
      (∀ M : MapOrder,
        ((M.entries (countFrequencies input (UnorderedMap.empty Int))).map Prod.snd).sum =
          (input.length : Int))) ∧
    countFrequencies [] (UnorderedMap.empty Int) = UnorderedMap.empty Int := by
  refine ⟨fun k => ?_, fun hb => ⟨fun k v h => ?_, fun k hk => ?_, fun M => ?_⟩, rfl⟩
  · rw [countFrequencies_apply]
    by_cases hk : k ∈ input <;> simp [hk, UnorderedMap.empty]
  · rw [countFrequencies_apply] at h
    by_cases hk : k ∈ input
    · rw [if_pos hk] at h
      simp only [UnorderedMap.empty, Option.getD_none, zero_add, Option.some.injEq] at h
      rw [← h, wrapInt_natCast _ (hb k hk)]
    · simp [hk, UnorderedMap.empty] at h
  · rw [countFrequencies_apply, if_pos hk]
    simp only [UnorderedMap.empty, Option.getD_none, zero_add]
    rw [wrapInt_natCast _ (hb k hk)]
  · exact sum_entries_eq_length M input (count_le_of_mem_le input hb)

/-- Witness of C11 on the input "aaab". -/
theorem countFrequencies_counts_witness :
    (∀ k ∈ ([97, 97, 97, 98] : List Symbol),
      ([97, 97, 97, 98] : List Symbol).count k ≤ 2147483647) ∧
    (∀ k : Symbol, ∀ v,
      countFrequencies [97, 97, 97, 98] (UnorderedMap.empty Int) k = some v →
        v = (([97, 97, 97, 98] : List Symbol).count k : Int)) ∧
    (∀ k ∈ ([97, 97, 97, 98] : List Symbol),
      countFrequencies [97, 97, 97, 98] (UnorderedMap.empty Int) k =
        some (([97, 97, 97, 98] : List Symbol).count k : Int)) ∧
    (∀ M : MapOrder,
      ((M.entries (countFrequencies [97, 97, 97, 98] (UnorderedMap.empty Int))).map
        Prod.snd).sum = (([97, 97, 97, 98] : List Symbol).length : Int)) :=
  ⟨fun k _ => le_trans (List.count_le_length k _) (by decide),
    (countFrequencies_counts [97, 97, 97, 98]).2.1
      (fun k _ => le_trans (List.count_le_length k _) (by decide))⟩

/-- C11, counterexample: after 2147483648 bytes `a` the counter of `a` holds
-2147483648, not the number of occurrences. -/
theorem countFrequencies_wraps :
    countFrequencies (List.replicate 2147483648 97) (UnorderedMap.empty Int) 97 =
        some (-2147483648) ∧
      (List.replicate 2147483648 (97 : Symbol)).count 97 = 2147483648 :=
  ⟨(countFrequencies_replicate 2147483648 97 (by decide)).trans (congrArg some (by decide)),
    List.count_replicate_self _ _⟩

/-! ## Root-to-leaf paths -/

/-- The assignments made by `generateHuffmanCodes` are the root-to-leaf paths
behind the string passed in. -/
theorem leafCodes_eq_rootPaths (t : HuffmanNode) :
    ∀ code : CString, leafCodes t code = t.rootPaths.map (fun p => (p.1, code ++ p.2)) := by
  induction t with
  | null => intro code; rfl
  | node d f l r ihl ihr =>
    intro code
    cases h : (l.isNull && r.isNull) with
    | true => simp [leafCodes_leaf d f code h, HuffmanNode.rootPaths, h]
    | false =>
      rw [leafCodes_inner d f code h, ihl, ihr]
      simp [HuffmanNode.rootPaths, h, Function.comp_def]

theorem rootPaths_keys (t : HuffmanNode) : t.rootPaths.map Prod.fst = t.leaves.map Prod.fst := by
  have h := leafCodes_keys t []
  rw [leafCodes_eq_rootPaths] at h
  simpa [Function.comp_def] using h

/-- With distinct keys a run of assignments stores each assigned pair. -/
theorem assignAll_of_mem_nodup {V : Type} (l : List (Symbol × V)) :
    ∀ (m : UnorderedMap V) (k : Symbol) (v : V), (l.map Prod.fst).Nodup → (k, v) ∈ l →
      assignAll m l k = some v := by
  induction l with
  | nil => intro m k v _ h; simp at h
  | cons p l ih =>
    intro m k v hnd h
    rw [List.map_cons, List.nodup_cons] at hnd
    show assignAll (Function.update m p.1 (some p.2)) l k = some v
    rcases List.mem_cons.1 h with e | e
    · subst e
      rw [assignAll_of_not_mem l _ _ hnd.1]
      simp
    · exact ih _ k v hnd.2 e

/-- The code map of a tree with distinct leaf symbols, entry by entry. -/
theorem generateHuffmanCodes_eq_some_iff (t : HuffmanNode)
    (hnd : (t.leaves.map Prod.fst).Nodup) (s : Symbol) (p : CString) :
    generateHuffmanCodes t [] (UnorderedMap.empty CString) s = some p ↔
      (s, p) ∈ leafCodes t [] := by
  rw [generateHuffmanCodes_eq]
  constructor
  · intro h
    rcases assignAll_some _ _ _ _ h with h1 | h1
    · exact h1
    · simp [UnorderedMap.empty] at h1
  · intro h
    exact assignAll_of_mem_nodup _ _ s p (by rw [leafCodes_keys]; exact hnd) h

/-- C12: for every tree in which each node has no child or two children and
whose leaves carry pairwise distinct symbols, `generateHuffmanCodes` called
on the root with the empty string stores for a symbol exactly its
root-to-leaf path (0 for left, 1 for right); every leaf symbol has a path,
and the map has no keys other than the leaf symbols. -/
theorem generateHuffmanCodes_paths (t : HuffmanNode) (_hfull : t.zeroOrTwoChildren = true)
    (hnd : (t.leaves.map Prod.fst).Nodup) :
    (∀ (s : Symbol) (p : CString),
      generateHuffmanCodes t [] (UnorderedMap.empty CString) s = some p ↔
        (s, p) ∈ t.rootPaths) ∧
    t.rootPaths.map Prod.fst = t.leaves.map Prod.fst ∧
    (∀ s : Symbol, (∃ p, generateHuffmanCodes t [] (UnorderedMap.empty CString) s = some p) ↔
      s ∈ t.leaves.map Prod.fst) := by
  have hiff : ∀ (s : Symbol) (p : CString),
      generateHuffmanCodes t [] (UnorderedMap.empty CString) s = some p ↔
        (s, p) ∈ t.rootPaths := by
    intro s p
    rw [generateHuffmanCodes_eq_some_iff t hnd, leafCodes_eq_rootPaths]
    simp
  refine ⟨hiff, rootPaths_keys t, fun s => ?_⟩
  rw [← rootPaths_keys]
  constructor
  · rintro ⟨p, hp⟩
    exact List.mem_map.2 ⟨(s, p), (hiff s p).1 hp, rfl⟩
  · intro h
    obtain ⟨⟨s1, p⟩, hmem, rfl⟩ := List.mem_map.1 h
    exact ⟨p, (hiff s1 p).2 hmem⟩

/-- Witness of C12 on the tree built for "aaab". -/
theorem generateHuffmanCodes_paths_witness :
    ((combine (HuffmanNode.mk 98 1) (HuffmanNode.mk 97 3)).zeroOrTwoChildren = true ∧
      ((combine (HuffmanNode.mk 98 1) (HuffmanNode.mk 97 3)).leaves.map Prod.fst).Nodup) ∧
    ((∀ (s : Symbol) (p : CString),
      generateHuffmanCodes (combine (HuffmanNode.mk 98 1) (HuffmanNode.mk 97 3)) []
          (UnorderedMap.empty CString) s = some p ↔
        (s, p) ∈ (combine (HuffmanNode.mk 98 1) (HuffmanNode.mk 97 3)).rootPaths) ∧
    (combine (HuffmanNode.mk 98 1) (HuffmanNode.mk 97 3)).rootPaths.map Prod.fst =
      (combine (HuffmanNode.mk 98 1) (HuffmanNode.mk 97 3)).leaves.map Prod.fst ∧
    (∀ s : Symbol,
      (∃ p, generateHuffmanCodes (combine (HuffmanNode.mk 98 1) (HuffmanNode.mk 97 3)) []
          (UnorderedMap.empty CString) s = some p) ↔
      s ∈ (combine (HuffmanNode.mk 98 1) (HuffmanNode.mk 97 3)).leaves.map Prod.fst)) :=
  ⟨⟨by decide, by decide⟩,
    generateHuffmanCodes_paths (combine (HuffmanNode.mk 98 1) (HuffmanNode.mk 97 3))
      (by decide) (by decide)⟩

/-! ## Iterations of the combining loop -/

/-- One iteration of the combining loop on a queue of at least two nodes
reads two tops and leaves a queue with one node less. -/
theorem combine_step (Q : PriorityQueue) (pq : Q.Queue) (h : 1 < Q.size pq) :
    ∃ l r, Q.top pq = some l ∧ Q.top (Q.pop pq) = some r ∧
      Q.size (Q.push (Q.pop (Q.pop pq))
        (HuffmanNode.node 0 (wrapInt (l.frequency + r.frequency)) l r)) + 1 = Q.size pq := by
  have hcard : 1 < Multiset.card (Q.contents pq) := by rw [← Q.size_eq]; exact h
  have hne : Q.contents pq ≠ 0 := by
    intro e; rw [e] at hcard; simp at hcard
  obtain ⟨l, hl⟩ := Q.top_some pq hne
  have hlmem := Q.top_mem pq l hl
  have hpop := Q.contents_pop pq l hl
  have hcard1 : Multiset.card (Q.contents (Q.pop pq)) + 1 = Multiset.card (Q.contents pq) := by
    rw [hpop, Multiset.card_erase_of_mem hlmem]
    exact Nat.succ_pred_eq_of_pos (by omega)
  have hne1 : Q.contents (Q.pop pq) ≠ 0 := by
    intro e; rw [e] at hcard1; simp at hcard1; omega
  obtain ⟨r, hr⟩ := Q.top_some (Q.pop pq) hne1
  have hrmem := Q.top_mem _ r hr
  have hpop1 := Q.contents_pop _ r hr
  refine ⟨l, r, hl, hr, ?_⟩
  rw [Q.size_eq, Q.size_eq, Q.contents_push, Multiset.card_cons, hpop1,
    Multiset.card_erase_of_mem hrmem]
  have : 0 < Multiset.card (Q.contents (Q.pop pq)) := by omega
  rw [Nat.pred_eq_sub_one]
  omega

/-- On a queue of `n + 1` nodes the combining loop makes exactly `n`
iterations: with a budget of at least `n` it ends, always in the same state
with one node, and with a smaller budget it does not end. -/
theorem combineLoop_exact (Q : PriorityQueue) : ∀ (n : Nat) (pq : Q.Queue), Q.size pq = n + 1 →
    ∃ pq1, Q.size pq1 = 1 ∧
      (∀ fuel, n ≤ fuel → combineLoop Q fuel pq = Except.ok pq1) ∧
      (∀ fuel, fuel < n → combineLoop Q fuel pq = Except.error Fault.outOfFuel) := by
  intro n
  induction n with
  | zero =>
    intro pq hsz
    refine ⟨pq, hsz, fun fuel _ => ?_, fun fuel h => by omega⟩
    cases fuel <;> simp [combineLoop, hsz]
  | succ n ih =>
    intro pq hsz
    obtain ⟨l, r, hl, hr, hsize⟩ := combine_step Q pq (by omega)
    obtain ⟨pq1, h1, hok, herr⟩ := ih (Q.push (Q.pop (Q.pop pq))
      (HuffmanNode.node 0 (wrapInt (l.frequency + r.frequency)) l r)) (by omega)
    have hgt : Q.size pq > 1 := by omega
    refine ⟨pq1, h1, fun fuel hf => ?_, fun fuel hf => ?_⟩
    · obtain ⟨k, rfl⟩ : ∃ k, fuel = k + 1 := ⟨fuel - 1, by omega⟩
      simp only [combineLoop, hgt, if_true, hl, hr]
      exact hok k (by omega)
    · cases fuel with
      | zero => simp [combineLoop, hgt]
      | succ k =>
        simp only [combineLoop, hgt, if_true, hl, hr]
        exact herr k (by omega)

/-- C13: for every non-empty frequency map with `k` entries and every
priority queue, the queue is seeded with `k` nodes, each iteration of the
combining loop on a queue of more than one node lowers the size by one, the
loop ends after exactly `k - 1` iterations (any budget of at least `k - 1`
iterations gives the same final queue, any smaller budget runs out) with
exactly one node in the queue, and the final `pq.top()` yields that node. -/
theorem combineLoop_iterations (Q : PriorityQueue) (freqMap : List (Symbol × Int))
    (hne : freqMap ≠ []) :
    Q.size (seedQueue Q freqMap Q.empty) = freqMap.length ∧
    (∀ pq : Q.Queue, 1 < Q.size pq →
      ∃ l r, Q.top pq = some l ∧ Q.top (Q.pop pq) = some r ∧
        Q.size (Q.push (Q.pop (Q.pop pq))
          (HuffmanNode.node 0 (wrapInt (l.frequency + r.frequency)) l r)) + 1 = Q.size pq) ∧
    ∃ pq1 root,
      (∀ fuel, freqMap.length - 1 ≤ fuel →
        combineLoop Q fuel (seedQueue Q freqMap Q.empty) = Except.ok pq1) ∧
      (∀ fuel, fuel < freqMap.length - 1 →
        combineLoop Q fuel (seedQueue Q freqMap Q.empty) = Except.error Fault.outOfFuel) ∧
      Q.size pq1 = 1 ∧ Q.top pq1 = some root ∧
      buildHuffmanTree Q freqMap = Except.ok root := by
  have hsz : Q.size (seedQueue Q freqMap Q.empty) = freqMap.length := by
    rw [Q.size_eq, contents_seedQueue, Q.contents_empty, add_zero, seedNodes,
      Multiset.coe_card, List.length_map]
  have hpos : 0 < freqMap.length := List.length_pos.2 hne
  obtain ⟨pq1, h1, hok, herr⟩ := combineLoop_exact Q (freqMap.length - 1)
    (seedQueue Q freqMap Q.empty) (by omega)
  have hne1 : Q.contents pq1 ≠ 0 := by
    intro e
    have := Q.size_eq pq1
    rw [e, h1] at this
    simp at this
  obtain ⟨root, hroot⟩ := Q.top_some pq1 hne1
  refine ⟨hsz, combine_step Q, pq1, root, hok, herr, h1, hroot, ?_⟩
  simp [buildHuffmanTree, hok (Q.size (seedQueue Q freqMap Q.empty)) (by omega), hroot]

/-- Witness of C13 on the map of "aaab". -/
theorem combineLoop_iterations_witness :
    ([((97 : Symbol), 3), ((98 : Symbol), 1)] : List (Symbol × Int)) ≠ [] ∧
    (firstMinQueue.size (seedQueue firstMinQueue [((97 : Symbol), 3), ((98 : Symbol), 1)]
        firstMinQueue.empty) = [((97 : Symbol), 3), ((98 : Symbol), 1)].length ∧
    (∀ pq : firstMinQueue.Queue, 1 < firstMinQueue.size pq →
      ∃ l r, firstMinQueue.top pq = some l ∧ firstMinQueue.top (firstMinQueue.pop pq) = some r ∧
        firstMinQueue.size (firstMinQueue.push (firstMinQueue.pop (firstMinQueue.pop pq))
          (HuffmanNode.node 0 (wrapInt (l.frequency + r.frequency)) l r)) + 1 = firstMinQueue.size pq) ∧
    ∃ pq1 root,
      (∀ fuel, [((97 : Symbol), 3), ((98 : Symbol), 1)].length - 1 ≤ fuel →
        combineLoop firstMinQueue fuel
          (seedQueue firstMinQueue [((97 : Symbol), 3), ((98 : Symbol), 1)] firstMinQueue.empty)
          = Except.ok pq1) ∧
      (∀ fuel, fuel < [((97 : Symbol), 3), ((98 : Symbol), 1)].length - 1 →
        combineLoop firstMinQueue fuel
          (seedQueue firstMinQueue [((97 : Symbol), 3), ((98 : Symbol), 1)] firstMinQueue.empty)
          = Except.error Fault.outOfFuel) ∧
      firstMinQueue.size pq1 = 1 ∧ firstMinQueue.top pq1 = some root ∧
      buildHuffmanTree firstMinQueue [((97 : Symbol), 3), ((98 : Symbol), 1)] = Except.ok root) :=
  ⟨by simp, combineLoop_iterations firstMinQueue [((97 : Symbol), 3), ((98 : Symbol), 1)]
    (by simp)⟩

/-! ## Shape and frequencies of the tree -/

theorem sums_mk (d : Symbol) (f : Int) :
    ∀ n ∈ (HuffmanNode.mk d f).nodes, n.frequency = n.leafSum := by
  intro n hn
  simp only [HuffmanNode.mk, HuffmanNode.nodes, List.append_nil, List.mem_singleton] at hn
  subst hn
  simp [HuffmanNode.frequency, HuffmanNode.leafSum, HuffmanNode.leaves, HuffmanNode.isNull]

/-- On a map with non-negative counts whose sum fits into an `int`, every
node of the returned tree carries the sum of the leaves below it. -/
theorem buildHuffmanTree_sums (Q : PriorityQueue) (freqMap : List (Symbol × Int))
    (hne : freqMap ≠ []) (hfit : FitsInt freqMap) :
    ∃ root, buildHuffmanTree Q freqMap = Except.ok root ∧
      (∀ n ∈ root.nodes, n.frequency = n.leafSum) ∧
      ((root.leaves : List (Symbol × Int)) : Multiset (Symbol × Int)) = freqMap := by
  obtain ⟨root, hroot, hinv, hl⟩ := buildHuffmanTree_rule Q
    (fun s => (∀ t ∈ s, Consistent t ∧ ∀ n ∈ t.nodes, n.frequency = n.leafSum) ∧
      forestLeaves s = (freqMap : Multiset (Symbol × Int)))
    (by
      intro s l r h hl hr _ _
      have hc : ∀ t ∈ s, Consistent t := fun t ht => (h.1 t ht).1
      have hnull : ∀ t ∈ s, t.isNull = false := fun t ht => (hc t ht).1
      have hr1 := Multiset.mem_of_mem_erase hr
      obtain ⟨hnn, hle⟩ := sum_fits freqMap hfit s h.2 l r hl hr
      obtain ⟨hcc, _⟩ := consistent_combine (hc l hl) (hc r hr1)
        (add_nonneg (hnn l hl) (hnn r hr1)) hle
      refine ⟨fun t ht => ?_, (forestLeaves_step s l r hnull hl hr).trans h.2⟩
      rcases Multiset.mem_cons.1 ht with rfl | ht
      · refine ⟨hcc, fun n hn => ?_⟩
        rw [nodes_combine, List.mem_cons, List.mem_append] at hn
        rcases hn with rfl | hn | hn
        · exact hcc.2
        · exact (h.1 l hl).2 n hn
        · exact (h.1 r hr1).2 n hn
      · exact h.1 t (Multiset.mem_of_mem_erase (Multiset.mem_of_mem_erase ht)))
    freqMap hne
    ⟨by
      intro t ht
      simp only [seedNodes, Multiset.mem_coe, List.mem_map] at ht
      obtain ⟨p, _, rfl⟩ := ht
      exact ⟨consistent_mk _ _, sums_mk _ _⟩, forestLeaves_seed freqMap⟩
  have h1 := hinv root (Multiset.mem_singleton_self _)
  exact ⟨root, hroot, h1.2, by simpa [forestLeaves] using hl⟩

/-- C14 (as the code behaves): in the tree returned by `buildHuffmanTree` for
a non-empty frequency map (with every priority queue) every node is a leaf
or has exactly two children; when the counts of the map are non-negative
and sum to at most `INT_MAX`, the `frequency` of every node is the sum of
the frequencies of the leaves below it and the `frequency` of the root is
the sum of all counts of the map, which is the input length for the map of
an input in which no byte value occurs more than `INT_MAX` times. -/
theorem buildHuffmanTree_node_frequencies (Q : PriorityQueue) (freqMap : List (Symbol × Int))
    (hne : freqMap ≠ []) :
    ∃ root, buildHuffmanTree Q freqMap = Except.ok root ∧ root.isNull = false ∧
      (∀ n ∈ root.nodes,
        (n.left.isNull = true ∧ n.right.isNull = true) ∨
          (n.left.isNull = false ∧ n.right.isNull = false)) ∧
      ((∀ p ∈ freqMap, 0 ≤ p.2) → (freqMap.map Prod.snd).sum ≤ INT_MAX →
        (∀ n ∈ root.nodes, n.frequency = n.leafSum) ∧
        root.frequency = (freqMap.map Prod.snd).sum ∧
        ∀ (M : MapOrder) (input : List Symbol),
          freqMap = M.entries (countFrequencies input (UnorderedMap.empty Int)) →
          (∀ k ∈ input, input.count k ≤ 2147483647) →
          root.frequency = (input.length : Int)) := by
  obtain ⟨root, hroot, hnull, hn, _⟩ := buildHuffmanTree_leaves Q freqMap hne
  refine ⟨root, hroot, hnull, hn, fun hcounts hsum => ?_⟩
  obtain ⟨root1, hroot1, hsums, hl⟩ := buildHuffmanTree_sums Q freqMap hne ⟨hcounts, hsum⟩
  have e : root1 = root := by
    rw [hroot] at hroot1
    injection hroot1 with h
    exact h.symm
  subst e
  have hmem : root1 ∈ root1.nodes := by
    cases root1 with
    | null => simp [HuffmanNode.isNull] at hnull
    | node d f l r => simp [HuffmanNode.nodes]
  have hfreq : root1.frequency = (freqMap.map Prod.snd).sum := by
    rw [hsums root1 hmem, HuffmanNode.leafSum]
    have := congrArg (fun s : Multiset (Symbol × Int) => (s.map Prod.snd).sum) hl
    simpa using this
  refine ⟨hsums, hfreq, fun M input h hb => ?_⟩
  rw [hfreq, h, sum_entries_eq_length M input (count_le_of_mem_le input hb)]

/-- Witness of C14 on the map of "aaab". -/
theorem buildHuffmanTree_node_frequencies_witness :
    ([((97 : Symbol), 3), ((98 : Symbol), 1)] : List (Symbol × Int)) ≠ [] ∧
    (∀ p ∈ ([((97 : Symbol), 3), ((98 : Symbol), 1)] : List (Symbol × Int)), 0 ≤ p.2) ∧
    (([((97 : Symbol), 3), ((98 : Symbol), 1)] : List (Symbol × Int)).map Prod.snd).sum
      ≤ INT_MAX ∧
    ∃ root, buildHuffmanTree firstMinQueue [((97 : Symbol), 3), ((98 : Symbol), 1)]
        = Except.ok root ∧ root.isNull = false ∧
      (∀ n ∈ root.nodes,
        (n.left.isNull = true ∧ n.right.isNull = true) ∨
          (n.left.isNull = false ∧ n.right.isNull = false)) ∧
      (∀ n ∈ root.nodes, n.frequency = n.leafSum) ∧
      root.frequency = (([((97 : Symbol), 3), ((98 : Symbol), 1)] :
        List (Symbol × Int)).map Prod.snd).sum ∧
      ∀ (M : MapOrder) (input : List Symbol),
        [((97 : Symbol), 3), ((98 : Symbol), 1)] =
          M.entries (countFrequencies input (UnorderedMap.empty Int)) →
        (∀ k ∈ input, input.count k ≤ 2147483647) →
        root.frequency = (input.length : Int) := by
  obtain ⟨root, h1, h2, h3, h4⟩ :=
    buildHuffmanTree_node_frequencies firstMinQueue [((97 : Symbol), 3), ((98 : Symbol), 1)]
      (by simp)
  exact ⟨by simp, by decide, by decide, root, h1, h2, h3, h4 (by decide) (by decide)⟩

/-- C14, counterexample: on the map with the counts 2147483647 and 1 every
priority queue makes `buildHuffmanTree` return a root of frequency
-2147483648, while the leaves below it sum to 2147483648. -/
theorem buildHuffmanTree_root_frequency_wraps :
    (∀ Q : PriorityQueue,
      buildHuffmanTree Q [(97, 2147483647), (98, 1)] =
        Except.ok (HuffmanNode.node 0 (-2147483648) (HuffmanNode.mk 98 1)
          (HuffmanNode.mk 97 2147483647))) ∧
    (HuffmanNode.node 0 (-2147483648) (HuffmanNode.mk 98 1)
      (HuffmanNode.mk 97 2147483647)).frequency = -2147483648 ∧
    (HuffmanNode.node 0 (-2147483648) (HuffmanNode.mk 98 1)
      (HuffmanNode.mk 97 2147483647)).leafSum = 2147483648 ∧
    (([((97 : Symbol), (2147483647 : Int)), (98, 1)] : List (Symbol × Int)).map Prod.snd).sum
      = 2147483648 := by
  refine ⟨fun Q => buildHuffmanTree_of_strictRun Q _ _ 1 _ rfl (by simp) ?_, rfl, ?_, ?_⟩
  · decide
  · decide
  · decide

/-! ## Leaves and keys of the code map -/

theorem subscript_of_some {m : UnorderedMap CString} {ch : Symbol} {code : CString}
    (h : m ch = some code) : subscript m ch = (code, m) := by
  simp [subscript, h]

/-- With a codeword for every input byte the encoding loop leaves the code
map as it was. -/
theorem encodeInput_of_complete : ∀ (input : List Symbol) (acc : CString)
    (m : UnorderedMap CString), (∀ ch ∈ input, ∃ code, m ch = some code) →
    encodeInput input acc m = (acc ++ concatCodes m input, m)
  | [], acc, m, _ => by simp [encodeInput, concatCodes]
  | ch :: rest, acc, m, h => by
    obtain ⟨code, hc⟩ := h ch (List.mem_cons_self _ _)
    rw [encodeInput, subscript_of_some hc,
      encodeInput_of_complete rest _ m (fun x hx => h x (List.mem_cons_of_mem _ hx))]
    simp [concatCodes, hc]

/-- The leaves of the tree built for an input, and the keys of its code map. -/
theorem leaves_of_input (Q : PriorityQueue) (M : MapOrder) (input : List Symbol)
    (hne : input ≠ []) :
    ∃ root, buildHuffmanTree Q (M.entries (countFrequencies input (UnorderedMap.empty Int)))
        = Except.ok root ∧
      root.isNull = false ∧ (∀ n ∈ root.nodes, ChildrenOk n) ∧
      root.leaves.Perm (input.dedup.map (fun k => (k, wrapInt (input.count k)))) ∧
      (root.leaves.map Prod.fst).Nodup ∧
      (∀ k : Symbol, k ∈ root.leaves.map Prod.fst ↔ k ∈ input) := by
  obtain ⟨root, hroot, hc, hn, hl⟩ := buildHuffmanTree_leaves Q _ (entries_ne_nil M input hne)
  have hperm : root.leaves.Perm (input.dedup.map (fun k => (k, wrapInt (input.count k)))) :=
    Multiset.coe_eq_coe.1 (hl.trans (entries_eq_counts M input))
  have hkeys : (root.leaves.map Prod.fst).Perm input.dedup := by
    have := hperm.map Prod.fst
    simpa [Function.comp_def] using this
  refine ⟨root, hroot, hc, hn, hperm, hkeys.nodup_iff.2 (List.nodup_dedup input), fun k => ?_⟩
  rw [hkeys.mem_iff, List.mem_dedup]

/-- The frequency map of a run of one byte value has one entry. -/
theorem entries_replicate (M : MapOrder) (ch : Symbol) (n : Nat) (hn : 0 < n) :
    M.entries (countFrequencies (List.replicate n ch) (UnorderedMap.empty Int)) =
      [(ch, wrapInt (n : Int))] := by
  have := entries_coe M (countFrequencies (List.replicate n ch) (UnorderedMap.empty Int))
    [(ch, wrapInt (n : Int))] (by simp) (by
      intro k v
      rw [countFrequencies_apply]
      by_cases e : k = ch
      · subst e
        have hmem : k ∈ List.replicate n k := List.mem_replicate.2 ⟨by omega, rfl⟩
        simp [UnorderedMap.empty, eq_comm, hmem]
      · simp [UnorderedMap.empty, e, List.mem_replicate])
  exact List.perm_singleton.1 (Multiset.coe_eq_coe.1 this)

/-- C15 (as the code behaves): for every non-empty input, with every
priority queue and iteration order, the leaves of the tree returned by
`buildHuffmanTree` correspond one to one to the distinct byte values of the
input, each value on exactly one leaf; the leaf carries the number of
occurrences of its value when no byte value occurs more than `INT_MAX` =
2147483647 times; the keys of the generated code map are exactly the byte
values of the input, so every lookup of the encoding loop finds an entry
and the loop leaves the map unchanged. -/
theorem leaves_and_code_keys (Q : PriorityQueue) (M : MapOrder) (input : List Symbol)
    (hne : input ≠ []) :
    ∃ root, buildHuffmanTree Q (M.entries (countFrequencies input (UnorderedMap.empty Int)))
        = Except.ok root ∧
      (root.leaves.map Prod.fst).Nodup ∧
      (∀ k : Symbol, k ∈ root.leaves.map Prod.fst ↔ k ∈ input) ∧
      ((∀ k ∈ input, input.count k ≤ 2147483647) →
        ∀ (k : Symbol) (v : Int),
          (k, v) ∈ root.leaves ↔ k ∈ input ∧ v = (input.count k : Int)) ∧
      (∀ k : Symbol,
        (∃ code, generateHuffmanCodes root [] (UnorderedMap.empty CString) k = some code) ↔
          k ∈ input) ∧
      (∀ ch ∈ input, ∃ code,
        generateHuffmanCodes root [] (UnorderedMap.empty CString) ch = some code ∧
        subscript (generateHuffmanCodes root [] (UnorderedMap.empty CString)) ch =
          (code, generateHuffmanCodes root [] (UnorderedMap.empty CString))) ∧
      (encodeInput input [] (generateHuffmanCodes root [] (UnorderedMap.empty CString))).2 =
        generateHuffmanCodes root [] (UnorderedMap.empty CString) := by
  obtain ⟨root, hroot, _, _, hperm, hnd, hkeys⟩ := leaves_of_input Q M input hne
  have hcodes : ∀ k : Symbol,
      (∃ code, generateHuffmanCodes root [] (UnorderedMap.empty CString) k = some code) ↔
        k ∈ input := by
    intro k
    rw [← hkeys k]
    constructor
    · rintro ⟨code, h⟩
      have := (generateHuffmanCodes_eq_some_iff root hnd k code).1 h
      rw [← leafCodes_keys root []]
      exact List.mem_map.2 ⟨_, this, rfl⟩
    · intro h
      exact generateHuffmanCodes_of_leaf root k h _
  refine ⟨root, hroot, hnd, hkeys, fun hb k v => ?_, hcodes, fun ch hch => ?_, ?_⟩
  · rw [hperm.mem_iff]
    simp only [List.mem_map, List.mem_dedup, Prod.mk.injEq]
    constructor
    · rintro ⟨a, ha, rfl, h⟩
      rw [wrapInt_natCast _ (hb a ha)] at h
      exact ⟨ha, h.symm⟩
    · rintro ⟨hk, h⟩
      exact ⟨k, hk, rfl, by rw [wrapInt_natCast _ (hb k hk), h]⟩
  · obtain ⟨code, hc⟩ := (hcodes ch).2 hch
    exact ⟨code, hc, subscript_of_some hc⟩
  · rw [encodeInput_of_complete input [] _ (fun ch hch => (hcodes ch).2 hch)]

/-- Witness of C15 on the input "aaab". -/
theorem leaves_and_code_keys_witness :
    ([97, 97, 97, 98] : List Symbol) ≠ [] ∧
    (∀ k ∈ ([97, 97, 97, 98] : List Symbol),
      ([97, 97, 97, 98] : List Symbol).count k ≤ 2147483647) ∧
    ∃ root, buildHuffmanTree firstMinQueue
        (ascendingOrder.entries (countFrequencies [97, 97, 97, 98] (UnorderedMap.empty Int)))
        = Except.ok root ∧
      (root.leaves.map Prod.fst).Nodup ∧
      (∀ k : Symbol, k ∈ root.leaves.map Prod.fst ↔ k ∈ ([97, 97, 97, 98] : List Symbol)) ∧
      (∀ (k : Symbol) (v : Int), (k, v) ∈ root.leaves ↔
        k ∈ ([97, 97, 97, 98] : List Symbol) ∧
          v = (([97, 97, 97, 98] : List Symbol).count k : Int)) ∧
      (∀ k : Symbol,
        (∃ code, generateHuffmanCodes root [] (UnorderedMap.empty CString) k = some code) ↔
          k ∈ ([97, 97, 97, 98] : List Symbol)) ∧
      (∀ ch ∈ ([97, 97, 97, 98] : List Symbol), ∃ code,
        generateHuffmanCodes root [] (UnorderedMap.empty CString) ch = some code ∧
        subscript (generateHuffmanCodes root [] (UnorderedMap.empty CString)) ch =
          (code, generateHuffmanCodes root [] (UnorderedMap.empty CString))) ∧
      (encodeInput [97, 97, 97, 98] []
          (generateHuffmanCodes root [] (UnorderedMap.empty CString))).2 =
        generateHuffmanCodes root [] (UnorderedMap.empty CString) := by
  obtain ⟨root, h1, h2, h3, h4, h5⟩ :=
    leaves_and_code_keys firstMinQueue ascendingOrder [97, 97, 97, 98] (by simp)
  exact ⟨by simp, fun k _ => le_trans (List.count_le_length k _) (by decide), root, h1, h2, h3,
    h4 (fun k _ => le_trans (List.count_le_length k _) (by decide)), h5⟩

/-- C15, counterexample: for the input of 2147483648 bytes `a` the tree is,
with every priority queue and iteration order, the single leaf `a`, and it
carries -2147483648, not the 2147483648 occurrences of `a`. -/
theorem leaf_count_wraps :
    (∀ (Q : PriorityQueue) (M : MapOrder),
      buildHuffmanTree Q
          (M.entries (countFrequencies (List.replicate 2147483648 97) (UnorderedMap.empty Int)))
        = Except.ok (HuffmanNode.mk 97 (-2147483648))) ∧
    (HuffmanNode.mk 97 (-2147483648)).leaves = [(97, -2147483648)] ∧
    (List.replicate 2147483648 (97 : Symbol)).count 97 = 2147483648 := by
  refine ⟨fun Q M => ?_, rfl, List.count_replicate_self _ _⟩
  have e : wrapInt ((2147483648 : Nat) : Int) = -2147483648 := by decide
  rw [entries_replicate M 97 2147483648 (by decide), e]
  exact buildHuffmanTree_one Q 97 (-2147483648)

/-! ## Unique decodability -/

/-- Concatenation of codewords is injective for a code map whose codewords
(on the symbols considered) are non-empty and pairwise unrelated. -/
theorem concatCodes_injective (m : UnorderedMap CString) (S : Symbol → Prop)
    (hsome : ∀ k, S k → ∃ c, m k = some c ∧ c ≠ [])
    (hfree : ∀ (a b : Symbol) (ca cb : CString), a ≠ b → m a = some ca → m b = some cb →
      Unrelated ca cb) :
    ∀ s1 s2 : List Symbol, (∀ x ∈ s1, S x) → (∀ x ∈ s2, S x) →
      concatCodes m s1 = concatCodes m s2 → s1 = s2 := by
  intro s1
  induction s1 with
  | nil =>
    intro s2 _ h2 h
    cases s2 with
    | nil => rfl
    | cons b s2 =>
      obtain ⟨cb, hb, hbne⟩ := hsome b (h2 b (List.mem_cons_self _ _))
      simp only [concatCodes, hb, Option.getD_some] at h
      have := (List.append_eq_nil.1 h.symm).1
      exact absurd this hbne
  | cons a s1 ih =>
    intro s2 h1 h2 h
    obtain ⟨ca, ha, hane⟩ := hsome a (h1 a (List.mem_cons_self _ _))
    cases s2 with
    | nil =>
      simp only [concatCodes, ha, Option.getD_some] at h
      exact absurd (List.append_eq_nil.1 h).1 hane
    | cons b s2 =>
      obtain ⟨cb, hb, _⟩ := hsome b (h2 b (List.mem_cons_self _ _))
      simp only [concatCodes, ha, hb, Option.getD_some] at h
      have hab : a = b := by
        by_contra hne
        have hu := hfree a b ca cb hne ha hb
        rcases List.append_eq_append_iff.1 h with ⟨a', h3, _⟩ | ⟨c', h3, _⟩
        · exact hu.1 ⟨a', h3.symm⟩
        · exact hu.2 ⟨c', h3.symm⟩
      subst hab
      have hcc : ca = cb := by rw [ha] at hb; injection hb
      subst hcc
      have := ih s2 (fun x hx => h1 x (List.mem_cons_of_mem _ hx))
        (fun x hx => h2 x (List.mem_cons_of_mem _ hx)) (List.append_cancel_left h)
      rw [this]

/-- In a tree with at least two leaves no codeword is empty. -/
theorem leafCodes_ne_nil (t : HuffmanNode) (h2 : 2 ≤ t.leaves.length) (p : Symbol × CString)
    (hp : p ∈ leafCodes t []) : p.2 ≠ [] := by
  cases t with
  | null => simp [leafCodes] at hp
  | node d f l r =>
    cases h : (l.isNull && r.isNull) with
    | true =>
      rw [leaves_leaf d f h] at h2
      simp at h2
    | false =>
      rw [leafCodes_inner d f [] h, List.mem_append] at hp
      intro e
      rcases hp with hp | hp
      · have := leafCodes_extend l _ p hp
        rw [e] at this
        simp at this
      · have := leafCodes_extend r _ p hp
        rw [e] at this
        simp at this

/-- The code map of an input with at least two distinct byte values: every
input byte has a non-empty codeword. -/
theorem codes_of_input (Q : PriorityQueue) (M : MapOrder) (input : List Symbol)
    (h2 : 2 ≤ input.dedup.length) :
    ∃ root, buildHuffmanTree Q (M.entries (countFrequencies input (UnorderedMap.empty Int)))
        = Except.ok root ∧
      root.isNull = false ∧ (∀ n ∈ root.nodes, ChildrenOk n) ∧
      root.leaves.Perm (input.dedup.map (fun k => (k, wrapInt (input.count k)))) ∧
      (root.leaves.map Prod.fst).Nodup ∧
      ∀ k ∈ input, ∃ c, generateHuffmanCodes root [] (UnorderedMap.empty CString) k = some c ∧
        c ≠ [] := by
  have hne : input ≠ [] := by
    rintro rfl
    simp at h2
  obtain ⟨root, hroot, hc, hn, hperm, hnd, hkeys⟩ := leaves_of_input Q M input hne
  refine ⟨root, hroot, hc, hn, hperm, hnd, fun k hk => ?_⟩
  obtain ⟨c, hcode⟩ := generateHuffmanCodes_of_leaf root k ((hkeys k).2 hk)
    (UnorderedMap.empty CString)
  refine ⟨c, hcode, ?_⟩
  have hlen : 2 ≤ root.leaves.length := by
    rw [hperm.length_eq, List.length_map]
    exact h2
  exact leafCodes_ne_nil root hlen (k, c) ((generateHuffmanCodes_eq_some_iff root hnd k c).1 hcode)

/-- C16: for every input with at least two distinct byte values, with every
priority queue and iteration order, the encoding loop run with the generated
code map is injective on sequences of bytes of the input: two such
sequences with the same encoded bit string are equal. -/
theorem encodeInput_injective (Q : PriorityQueue) (M : MapOrder) (input : List Symbol)
    (h2 : 2 ≤ input.dedup.length) :
    ∃ root, buildHuffmanTree Q (M.entries (countFrequencies input (UnorderedMap.empty Int)))
        = Except.ok root ∧
      ∀ s1 s2 : List Symbol, (∀ x ∈ s1, x ∈ input) → (∀ x ∈ s2, x ∈ input) →
        (encodeInput s1 [] (generateHuffmanCodes root [] (UnorderedMap.empty CString))).1 =
          (encodeInput s2 [] (generateHuffmanCodes root [] (UnorderedMap.empty CString))).1 →
        s1 = s2 := by
  obtain ⟨root, hroot, _, _, _, _, hcodes⟩ := codes_of_input Q M input h2
  refine ⟨root, hroot, fun s1 s2 h1 h2 h => ?_⟩
  rw [encodeInput_fst, encodeInput_fst, List.nil_append, List.nil_append] at h
  exact concatCodes_injective _ (fun k => k ∈ input) hcodes
    (fun a b ca cb hab ha hb => generateHuffmanCodes_unrelated root a b ca cb hab ha hb)
    s1 s2 h1 h2 h

/-- Witness of C16 on the input "aaab". -/
theorem encodeInput_injective_witness :
    2 ≤ ([97, 97, 97, 98] : List Symbol).dedup.length ∧
    ∃ root, buildHuffmanTree firstMinQueue
        (ascendingOrder.entries (countFrequencies [97, 97, 97, 98] (UnorderedMap.empty Int)))
        = Except.ok root ∧
      ∀ s1 s2 : List Symbol, (∀ x ∈ s1, x ∈ ([97, 97, 97, 98] : List Symbol)) →
        (∀ x ∈ s2, x ∈ ([97, 97, 97, 98] : List Symbol)) →
        (encodeInput s1 [] (generateHuffmanCodes root [] (UnorderedMap.empty CString))).1 =
          (encodeInput s2 [] (generateHuffmanCodes root [] (UnorderedMap.empty CString))).1 →
        s1 = s2 :=
  ⟨by decide, encodeInput_injective firstMinQueue ascendingOrder [97, 97, 97, 98] (by decide)⟩

/-! ## Kraft equality -/

theorem zeroOrTwoChildren_of_nodes (t : HuffmanNode) :
    (∀ n ∈ t.nodes, ChildrenOk n) → t.zeroOrTwoChildren = true := by
  induction t with
  | null => intro _; rfl
  | node d f l r ihl ihr =>
    intro h
    have h0 := h _ (List.mem_cons_self _ _)
    have hl := ihl (fun n hn => h n (List.mem_cons_of_mem _ (List.mem_append_left _ hn)))
    have hr := ihr (fun n hn => h n (List.mem_cons_of_mem _ (List.mem_append_right _ hn)))
    simp only [ChildrenOk, HuffmanNode.left, HuffmanNode.right] at h0
    rcases h0 with ⟨a, b⟩ | ⟨a, b⟩ <;> simp [HuffmanNode.zeroOrTwoChildren, a, b, hl, hr]

/-- A tree with a root has a leaf. -/
theorem leaves_length_pos (t : HuffmanNode) : t.isNull = false → 0 < t.leaves.length := by
  induction t with
  | null => intro h; simp [HuffmanNode.isNull] at h
  | node d f l r ihl ihr =>
    intro _
    cases h : (l.isNull && r.isNull) with
    | true => simp [leaves_leaf d f h]
    | false =>
      rw [leaves_inner d f h, List.length_append]
      cases hl : l.isNull with
      | false => have := ihl hl; omega
      | true =>
        have hr : r.isNull = false := by simpa [hl] using h
        have := ihr hr
        omega

/-- Kraft equality below a node: in a tree whose nodes have no child or two
children, the codewords written below the string `code` have weights
`2 ^ (-length)` that sum to the weight of `code`. -/
theorem kraft_sum (t : HuffmanNode) : ∀ code : CString, t.isNull = false →
    t.zeroOrTwoChildren = true →
    ((leafCodes t code).map (fun p => ((1 : ℚ) / 2) ^ p.2.length)).sum =
      ((1 : ℚ) / 2) ^ code.length := by
  induction t with
  | null => intro code h; simp [HuffmanNode.isNull] at h
  | node d f l r ihl ihr =>
    intro code _ hfull
    simp only [HuffmanNode.zeroOrTwoChildren, Bool.and_eq_true, beq_iff_eq] at hfull
    obtain ⟨⟨hlr, hfl⟩, hfr⟩ := hfull
    cases hl : l.isNull with
    | true =>
      have h : (l.isNull && r.isNull) = true := by rw [← hlr, hl]; rfl
      simp [leafCodes_leaf d f code h]
    | false =>
      have hr : r.isNull = false := by rw [← hlr, hl]
      have h : (l.isNull && r.isNull) = false := by rw [hl]; rfl
      rw [leafCodes_inner d f code h, List.map_append, List.sum_append, ihl _ hl hfl,
        ihr _ hr hfr]
      simp only [List.length_append, List.length_singleton, pow_succ]
      ring

/-- In a tree whose nodes have no child or two children, a codeword written
below `code` is longer than `code` by less than the number of leaves. -/
theorem leafCodes_length_lt (t : HuffmanNode) : ∀ code : CString, t.isNull = false →
    t.zeroOrTwoChildren = true → ∀ p ∈ leafCodes t code,
      p.2.length + 1 ≤ code.length + t.leaves.length := by
  induction t with
  | null => intro code h; simp [HuffmanNode.isNull] at h
  | node d f l r ihl ihr =>
    intro code _ hfull p hp
    simp only [HuffmanNode.zeroOrTwoChildren, Bool.and_eq_true, beq_iff_eq] at hfull
    obtain ⟨⟨hlr, hfl⟩, hfr⟩ := hfull
    cases hl : l.isNull with
    | true =>
      have h : (l.isNull && r.isNull) = true := by rw [← hlr, hl]; rfl
      rw [leafCodes_leaf d f code h, List.mem_singleton] at hp
      subst hp
      simp [leaves_leaf d f h]
    | false =>
      have hr : r.isNull = false := by rw [← hlr, hl]
      have h : (l.isNull && r.isNull) = false := by rw [hl]; rfl
      rw [leafCodes_inner d f code h, List.mem_append] at hp
      rw [leaves_inner d f h, List.length_append]
      have pl := leaves_length_pos l hl
      have pr := leaves_length_pos r hr
      rcases hp with hp | hp
      · have := ihl _ hl hfl p hp
        simp only [List.length_append, List.length_singleton] at this
        omega
      · have := ihr _ hr hfr p hp
        simp only [List.length_append, List.length_singleton] at this
        omega

/-- C20: for every input with at least two distinct byte values, with every
priority queue and iteration order, the generated code is complete: the
sum over the distinct bytes of the input (the symbols of the code map) of
`2 ^ (-length of the codeword)` is exactly 1, and every codeword has a
length between 1 and `k - 1`, where `k` is the number of distinct bytes. -/
theorem kraft_equality (Q : PriorityQueue) (M : MapOrder) (input : List Symbol)
    (h2 : 2 ≤ input.dedup.length) :
    ∃ root, buildHuffmanTree Q (M.entries (countFrequencies input (UnorderedMap.empty Int)))
        = Except.ok root ∧
      (input.dedup.map (fun k => ((1 : ℚ) / 2) ^
        ((generateHuffmanCodes root [] (UnorderedMap.empty CString) k).getD []).length)).sum = 1 ∧
      ∀ ch ∈ input, ∃ code,
        generateHuffmanCodes root [] (UnorderedMap.empty CString) ch = some code ∧
        1 ≤ code.length ∧ code.length ≤ input.dedup.length - 1 := by
  obtain ⟨root, hroot, hc, hn, hperm, hnd, hcodes⟩ := codes_of_input Q M input h2
  have hfull := zeroOrTwoChildren_of_nodes root hn
  have hlen : root.leaves.length = input.dedup.length := by
    rw [hperm.length_eq, List.length_map]
  refine ⟨root, hroot, ?_, fun ch hch => ?_⟩
  · have hk := kraft_sum root [] hc hfull
    simp only [List.length_nil, pow_zero] at hk
    have hkeys : (root.leaves.map Prod.fst).Perm input.dedup := by
      have := hperm.map Prod.fst
      simpa [Function.comp_def] using this
    rw [← (hkeys.map _).sum_eq, ← leafCodes_keys root [], List.map_map]
    refine Eq.trans ?_ hk
    congr 1
    apply List.map_congr_left
    intro p hp
    have := (generateHuffmanCodes_eq_some_iff root hnd p.1 p.2).2 hp
    simp [this]
  · obtain ⟨code, hcode, hne⟩ := hcodes ch hch
    refine ⟨code, hcode, ?_, ?_⟩
    · cases code with
      | nil => exact absurd rfl hne
      | cons _ _ => simp
    · have hmem := (generateHuffmanCodes_eq_some_iff root hnd ch code).1 hcode
      have := leafCodes_length_lt root [] hc hfull (ch, code) hmem
      simp only [List.length_nil, Nat.zero_add] at this
      omega

/-- Witness of C20 on the input "aaab". -/
theorem kraft_equality_witness :
    2 ≤ ([97, 97, 97, 98] : List Symbol).dedup.length ∧
    ∃ root, buildHuffmanTree firstMinQueue
        (ascendingOrder.entries (countFrequencies [97, 97, 97, 98] (UnorderedMap.empty Int)))
        = Except.ok root ∧
      (([97, 97, 97, 98] : List Symbol).dedup.map (fun k => ((1 : ℚ) / 2) ^
        ((generateHuffmanCodes root [] (UnorderedMap.empty CString) k).getD []).length)).sum = 1 ∧
      ∀ ch ∈ ([97, 97, 97, 98] : List Symbol), ∃ code,
        generateHuffmanCodes root [] (UnorderedMap.empty CString) ch = some code ∧
        1 ≤ code.length ∧ code.length ≤ ([97, 97, 97, 98] : List Symbol).dedup.length - 1 :=
  ⟨by decide, kraft_equality firstMinQueue ascendingOrder [97, 97, 97, 98] (by decide)⟩

/-! ## Inputs with a long run of one byte value -/

theorem dedup_replicate_append (n : Nat) (a : Symbol) (rest : List Symbol) (hn : 0 < n)
    (ha : a ∉ rest) : (List.replicate n a ++ rest).dedup = a :: rest.dedup := by
  obtain ⟨m, rfl⟩ : ∃ m, n = m + 1 := ⟨n - 1, by omega⟩
  induction m with
  | zero =>
    show (a :: rest).dedup = a :: rest.dedup
    exact List.dedup_cons_of_not_mem ha
  | succ m ih =>
    have e : List.replicate (m + 1 + 1) a ++ rest = a :: (List.replicate (m + 1) a ++ rest) := rfl
    rw [e, List.dedup_cons_of_mem, ih (by omega)]
    exact List.mem_append_left _ (List.mem_replicate.2 ⟨by omega, rfl⟩)

theorem count_replicate_append_self (n : Nat) (a : Symbol) (rest : List Symbol)
    (ha : a ∉ rest) : (List.replicate n a ++ rest).count a = n := by
  rw [List.count_append, List.count_replicate_self, List.count_eq_zero_of_not_mem ha,
    Nat.add_zero]

theorem count_replicate_append_of_ne (n : Nat) (a : Symbol) (rest : List Symbol) (k : Symbol)
    (hk : k ≠ a) : (List.replicate n a ++ rest).count k = rest.count k := by
  rw [List.count_append, List.count_eq_zero_of_not_mem, Nat.zero_add]
  intro h
  exact hk (List.eq_of_mem_replicate h)

/-- The frequency map of a run of `n` bytes `a` followed by bytes other than
`a`, up to order. -/
theorem entries_replicate_append (M : MapOrder) (n : Nat) (a : Symbol) (rest : List Symbol)
    (hn : 0 < n) (ha : a ∉ rest) :
    ((M.entries (countFrequencies (List.replicate n a ++ rest) (UnorderedMap.empty Int)) :
      List (Symbol × Int)) : Multiset (Symbol × Int)) =
      (((a, wrapInt (n : Int)) :: rest.dedup.map (fun k => (k, wrapInt (rest.count k))) :
        List (Symbol × Int)) : Multiset (Symbol × Int)) := by
  rw [entries_eq_counts, dedup_replicate_append n a rest hn ha, List.map_cons,
    count_replicate_append_self n a rest ha]
  have e : rest.dedup.map (fun k => (k, wrapInt ((List.replicate n a ++ rest).count k))) =
      rest.dedup.map (fun k => (k, wrapInt (rest.count k))) := by
    apply List.map_congr_left
    intro k hk
    have hne : k ≠ a := by
      rintro rfl
      exact ha (List.mem_dedup.1 hk)
    rw [count_replicate_append_of_ne n a rest k hne]
  rw [e]

theorem concatCodes_append (m : UnorderedMap CString) : ∀ xs ys : List Symbol,
    concatCodes m (xs ++ ys) = concatCodes m xs ++ concatCodes m ys
  | [], ys => rfl
  | x :: xs, ys => by
    rw [List.cons_append, concatCodes, concatCodes, concatCodes_append m xs ys, List.append_assoc]

theorem concatCodes_replicate_length (m : UnorderedMap CString) (a : Symbol) : ∀ n : Nat,
    (concatCodes m (List.replicate n a)).length = n * ((m a).getD []).length
  | 0 => by simp [concatCodes]
  | n + 1 => by
    rw [List.replicate_succ, concatCodes, List.length_append, concatCodes_replicate_length m a n]
    ring

/-- The run of `compressFile` on a run of `n` bytes `a` followed by bytes
other than `a`, when the combining loop meets no tie: the tree is the one of
the run without ties, with every priority queue and iteration order. -/
theorem compressFile_of_strictRun (Q : PriorityQueue) (M : MapOrder) (n : Nat) (a : Symbol)
    (rest : List Symbol) (hn : 0 < n) (ha : a ∉ rest) (E1 : List (Symbol × Int)) (fuel : Nat)
    (root : HuffmanNode)
    (hE : (a, wrapInt (n : Int)) :: rest.dedup.map (fun k => (k, wrapInt (rest.count k))) = E1)
    (hrun : strictRun fuel (E1.map (fun p => HuffmanNode.mk p.1 p.2)) = some [root]) :
    buildHuffmanTree Q
        (M.entries (countFrequencies (List.replicate n a ++ rest) (UnorderedMap.empty Int)))
      = Except.ok root ∧
    compressFile Q M (List.replicate n a ++ rest) = Except.ok (packBits
      (encodeInput (List.replicate n a ++ rest) []
        (generateHuffmanCodes root [] (UnorderedMap.empty CString))).1) ∧
    (encodeInput (List.replicate n a ++ rest) []
        (generateHuffmanCodes root [] (UnorderedMap.empty CString))).1.length =
      n * ((generateHuffmanCodes root [] (UnorderedMap.empty CString) a).getD []).length +
        (concatCodes (generateHuffmanCodes root [] (UnorderedMap.empty CString)) rest).length := by
  have hne : List.replicate n a ++ rest ≠ [] := by
    intro h
    have := congrArg List.length h
    simp at this
    omega
  have hroot := buildHuffmanTree_of_strictRun Q _ E1 fuel root
    ((entries_replicate_append M n a rest hn ha).trans (by rw [hE]))
    (entries_ne_nil M _ hne) hrun
  refine ⟨hroot, by simp only [compressFile, hroot], ?_⟩
  rw [encodeInput_fst, List.nil_append, concatCodes_append, List.length_append,
    concatCodes_replicate_length]

/-! ## No expansion -/

/-- Any `2 ^ d` weights or fewer fit on the leaves of a tree of depth at most
`d`. -/
theorem exists_shallow : ∀ (d : Nat) (l : List Nat), l ≠ [] → l.length ≤ 2 ^ d →
    ∃ t : WTree, t.weights = (l : Multiset Nat) ∧ ∀ e, t.costAt e ≤ (e + d) * l.sum := by
  intro d
  induction d with
  | zero =>
    intro l hne hlen
    obtain ⟨w, rfl⟩ : ∃ w, l = [w] := by
      cases l with
      | nil => exact absurd rfl hne
      | cons w l =>
        cases l with
        | nil => exact ⟨w, rfl⟩
        | cons _ _ => simp at hlen
    exact ⟨WTree.leaf w, rfl, fun e => by simp [WTree.costAt]⟩
  | succ d ih =>
    intro l hne hlen
    by_cases hsmall : l.length ≤ 2 ^ d
    · obtain ⟨t, htw, htc⟩ := ih l hne hsmall
      exact ⟨t, htw, fun e => le_trans (htc e) (Nat.mul_le_mul_right _ (by omega))⟩
    · have hlt : 2 ^ d < l.length := by omega
      have h1 : l.take (2 ^ d) ≠ [] := by
        intro e
        have := congrArg List.length e
        rw [List.length_take, List.length_nil] at this
        have hp : 0 < 2 ^ d := Nat.two_pow_pos d
        omega
      have h2 : l.drop (2 ^ d) ≠ [] := by
        intro e
        have := congrArg List.length e
        rw [List.length_drop, List.length_nil] at this
        omega
      obtain ⟨t1, ht1w, ht1c⟩ := ih (l.take (2 ^ d)) h1 (by rw [List.length_take]; omega)
      obtain ⟨t2, ht2w, ht2c⟩ := ih (l.drop (2 ^ d)) h2 (by
        rw [List.length_drop, Nat.pow_succ] at *
        omega)
      refine ⟨WTree.node t1 t2, ?_, fun e => ?_⟩
      · rw [WTree.weights, ht1w, ht2w, Multiset.coe_add, List.take_append_drop]
      · have hs : l.sum = (l.take (2 ^ d)).sum + (l.drop (2 ^ d)).sum := by
          rw [← List.sum_append, List.take_append_drop]
        have a1 := ht1c (e + 1)
        have a2 := ht2c (e + 1)
        simp only [WTree.costAt]
        rw [hs, Nat.mul_add]
        have e1 : e + 1 + d = e + (d + 1) := by omega
        rw [e1] at a1 a2
        omega

/-- An input has at most 256 distinct byte values. -/
theorem dedup_length_le (input : List Symbol) : input.dedup.length ≤ 2 ^ 8 := by
  have h := (List.nodup_dedup input).length_le_card
  rw [Fintype.card_fin] at h
  exact le_trans h (by norm_num)

/-- The encoded bit string of an input of `N` bytes, `N` at most `INT_MAX`,
has at most `8 * N` characters. -/
theorem encoded_length_le (Q : PriorityQueue) (M : MapOrder) (input : List Symbol)
    (hne : input ≠ []) (hlen : input.length ≤ 2147483647) :
    ∃ root, buildHuffmanTree Q (M.entries (countFrequencies input (UnorderedMap.empty Int)))
        = Except.ok root ∧
      compressFile Q M input = Except.ok (packBits
        (concatCodes (generateHuffmanCodes root [] (UnorderedMap.empty CString)) input)) ∧
      (concatCodes (generateHuffmanCodes root [] (UnorderedMap.empty CString)) input).length ≤
        8 * input.length := by
  obtain ⟨root, hroot, _, hl, hopt⟩ := buildHuffmanTree_of_input Q M input hne hlen
  refine ⟨root, hroot, by simp [compressFile, hroot, encodeInput_fst], ?_⟩
  have hlenI := encoded_length_eq_weightedPathLength M input root hl
    (count_le_of_length_le input hlen)
  have hdne : input.dedup.map (fun k => input.count k) ≠ [] := by
    intro h
    have h1 := congrArg List.length h
    rw [List.length_map, List.length_nil, List.length_eq_zero, List.dedup_eq_nil] at h1
    exact hne h1
  obtain ⟨t, htw, htc⟩ := exists_shallow 8 (input.dedup.map (fun k => input.count k)) hdne
    (by rw [List.length_map]; exact dedup_length_le input)
  have h1 := hopt t.toNode (by
    rw [WTree.weights_toNode, htw, Multiset.map_coe, List.map_map]
    rfl)
  have h2 := htc 0
  rw [List.sum_map_count_dedup_eq_length, Nat.zero_add] at h2
  have h3 : t.toNode.weightedPathLength = ((t.costAt 0 : Nat) : Int) := WTree.cost_toNode t 0
  omega

/-- C17 (as the code behaves): compression of at most `INT_MAX` = 2147483647
bytes never expands: for every non-empty input of `N` bytes with `N` at most
`INT_MAX`, with every priority queue and iteration order, `compressFile`
returns at most `N` bytes, the encoded bit string having at most `8 * N`
characters. -/
theorem compressFile_length_le (Q : PriorityQueue) (M : MapOrder) (input : List Symbol)
    (hne : input ≠ []) (hlen : input.length ≤ 2147483647) :
    ∃ root output,
      buildHuffmanTree Q (M.entries (countFrequencies input (UnorderedMap.empty Int)))
        = Except.ok root ∧
      compressFile Q M input = Except.ok output ∧
      (encodeInput input [] (generateHuffmanCodes root [] (UnorderedMap.empty CString))).1.length
        ≤ 8 * input.length ∧
      output.length ≤ input.length := by
  obtain ⟨root, hroot, hout, hle⟩ := encoded_length_le Q M input hne hlen
  refine ⟨root, _, hroot, hout, ?_, ?_⟩
  · rw [encodeInput_fst, List.nil_append]
    exact hle
  · rw [packBits_length]
    omega

/-- Witness of C17 on the input "aaab". -/
theorem compressFile_length_le_witness :
    ([97, 97, 97, 98] : List Symbol) ≠ [] ∧
    ([97, 97, 97, 98] : List Symbol).length ≤ 2147483647 ∧
    ∃ root output,
      buildHuffmanTree firstMinQueue
        (ascendingOrder.entries (countFrequencies [97, 97, 97, 98] (UnorderedMap.empty Int)))
        = Except.ok root ∧
      compressFile firstMinQueue ascendingOrder [97, 97, 97, 98] = Except.ok output ∧
      (encodeInput [97, 97, 97, 98] []
          (generateHuffmanCodes root [] (UnorderedMap.empty CString))).1.length
        ≤ 8 * ([97, 97, 97, 98] : List Symbol).length ∧
      output.length ≤ ([97, 97, 97, 98] : List Symbol).length :=
  ⟨by simp, by decide,
    compressFile_length_le firstMinQueue ascendingOrder [97, 97, 97, 98] (by simp) (by decide)⟩

section

set_option maxRecDepth 100000

/-- C17, counterexample: an input of 2147483648 bytes `a` followed by 45
bytes (the byte value `k` exactly `k` times, for `k` from 1 to 9) has
2147483693 bytes; the counter of `a` wraps around to -2147483648, so `a` is
combined first and gets a codeword of nine characters; with every priority
queue and iteration order the encoded bit string has 19327352997
characters and `compressFile` writes 2415919125 bytes, more than the input
has. -/
theorem compressFile_expands :
    (∀ (Q : PriorityQueue) (M : MapOrder), ∃ root output,
      buildHuffmanTree Q (M.entries (countFrequencies
          (List.replicate 2147483648 97 ++
            [1, 2, 2, 3, 3, 3, 4, 4, 4, 4, 5, 5, 5, 5, 5, 6, 6, 6, 6, 6, 6, 7, 7, 7, 7, 7, 7, 7,
            8, 8, 8, 8, 8, 8, 8, 8, 9, 9, 9, 9, 9, 9, 9, 9, 9])
          (UnorderedMap.empty Int))) = Except.ok root ∧
      compressFile Q M (List.replicate 2147483648 97 ++
          [1, 2, 2, 3, 3, 3, 4, 4, 4, 4, 5, 5, 5, 5, 5, 6, 6, 6, 6, 6, 6, 7, 7, 7, 7, 7, 7, 7,
            8, 8, 8, 8, 8, 8, 8, 8, 9, 9, 9, 9, 9, 9, 9, 9, 9]) = Except.ok output ∧
      generateHuffmanCodes root [] (UnorderedMap.empty CString) 97 =
        some ['0', '0', '0', '0', '0', '0', '0', '0', '0'] ∧
      (encodeInput (List.replicate 2147483648 97 ++
          [1, 2, 2, 3, 3, 3, 4, 4, 4, 4, 5, 5, 5, 5, 5, 6, 6, 6, 6, 6, 6, 7, 7, 7, 7, 7, 7, 7,
            8, 8, 8, 8, 8, 8, 8, 8, 9, 9, 9, 9, 9, 9, 9, 9, 9]) []
        (generateHuffmanCodes root [] (UnorderedMap.empty CString))).1.length = 19327352997 ∧
      output.length = 2415919125) ∧
    (List.replicate 2147483648 (97 : Symbol) ++
      [1, 2, 2, 3, 3, 3, 4, 4, 4, 4, 5, 5, 5, 5, 5, 6, 6, 6, 6, 6, 6, 7, 7, 7, 7, 7, 7, 7,
            8, 8, 8, 8, 8, 8, 8, 8, 9, 9, 9, 9, 9, 9, 9, 9, 9]).length = 2147483693 ∧
    (2147483693 : Nat) < 2415919125 := by
  refine ⟨fun Q M => ?_, ?_, by decide⟩
  · obtain ⟨h1, h2, h3⟩ := compressFile_of_strictRun Q M 2147483648 97
      [1, 2, 2, 3, 3, 3, 4, 4, 4, 4, 5, 5, 5, 5, 5, 6, 6, 6, 6, 6, 6, 7, 7, 7, 7, 7, 7, 7,
            8, 8, 8, 8, 8, 8, 8, 8, 9, 9, 9, 9, 9, 9, 9, 9, 9]
      (by decide) (by decide)
      [(97, -2147483648), (1, 1), (2, 2), (3, 3), (4, 4), (5, 5), (6, 6), (7, 7), (8, 8), (9,
      9)]
      9
      (List.foldl combine (HuffmanNode.mk 97 (-2147483648))
        [HuffmanNode.mk 1 1, HuffmanNode.mk 2 2, HuffmanNode.mk 3 3, HuffmanNode.mk 4 4,
        HuffmanNode.mk 5 5, HuffmanNode.mk 6 6, HuffmanNode.mk 7 7, HuffmanNode.mk 8 8,
        HuffmanNode.mk 9 9])
      (by decide) (by decide)
    refine ⟨_, _, h1, h2, by decide, ?_, ?_⟩
    · rw [h3]
      decide
    · rw [packBits_length, h3]
      decide
  · rw [List.length_append, List.length_replicate]
    rfl

end

/-! ## Codeword length and frequency -/

theorem isNull_relabel (g : Symbol → Int) (t : HuffmanNode) :
    (t.relabel g).isNull = t.isNull := by
  cases t <;> rfl

theorem leaves_relabel (g : Symbol → Int) (t : HuffmanNode) :
    (t.relabel g).leaves = t.leaves.map (fun p => (p.1, g p.1)) := by
  induction t with
  | null => rfl
  | node d f l r ihl ihr =>
    cases h : (l.isNull && r.isNull) with
    | true =>
      rw [leaves_leaf d f h, HuffmanNode.relabel,
        leaves_leaf d (g d) (by rw [isNull_relabel, isNull_relabel]; exact h)]
      rfl
    | false =>
      rw [leaves_inner d f h, HuffmanNode.relabel,
        leaves_inner d (g d) (by rw [isNull_relabel, isNull_relabel]; exact h), ihl, ihr,
        List.map_append]

theorem generateHuffmanCodes_relabel (g : Symbol → Int) (t : HuffmanNode) :
    ∀ (code : CString) (m : UnorderedMap CString),
      generateHuffmanCodes (t.relabel g) code m = generateHuffmanCodes t code m := by
  induction t with
  | null => intro code m; rfl
  | node d f l r ihl ihr =>
    intro code m
    simp only [HuffmanNode.relabel, generateHuffmanCodes, isNull_relabel, ihl, ihr]

/-- The weighted path length of a relabelled tree with distinct symbols, in
terms of the codeword lengths of the tree. -/
theorem weightedPathLength_relabel (g : Symbol → Int) (t : HuffmanNode)
    (hnd : (t.leaves.map Prod.fst).Nodup) :
    (t.relabel g).weightedPathLength =
      ((t.leaves.map Prod.fst).map (fun k =>
        (((generateHuffmanCodes t [] (UnorderedMap.empty CString) k).getD []).length : Int)
          * g k)).sum := by
  have hnd1 : ((t.relabel g).leaves.map Prod.fst).Nodup := by
    rw [leaves_relabel, List.map_map]
    exact hnd
  have h := sum_code_lengths (t.relabel g) [] (UnorderedMap.empty CString) hnd1
  rw [HuffmanNode.weightedPathLength]
  rw [show HuffmanNode.weightedPathLengthAt 0 (t.relabel g) =
    HuffmanNode.weightedPathLengthAt ([] : CString).length (t.relabel g) from rfl, ← h,
    leaves_relabel, List.map_map, List.map_map]
  congr 1
  apply List.map_congr_left
  intro p _
  simp [generateHuffmanCodes_relabel]

/-- Exchanging the values of a function at two members of a duplicate-free
list does not change the multiset of its values on the list. -/
theorem map_swap_coe (K : List Symbol) (hnd : K.Nodup) (a b : Symbol) (ha : a ∈ K) (hb : b ∈ K)
    (w : Symbol → Int) :
    ((K.map (fun k => w (Equiv.swap a b k)) : List Int) : Multiset Int) = (K.map w : List Int) := by
  have hperm : (K.map (Equiv.swap a b)).Perm K := by
    apply (List.perm_ext_iff_of_nodup (hnd.map (Equiv.swap a b).injective) hnd).2
    intro x
    rw [List.mem_map]
    constructor
    · rintro ⟨y, hy, rfl⟩
      by_cases e1 : y = a
      · subst e1; simpa using hb
      · by_cases e2 : y = b
        · subst e2; simpa using ha
        · rw [Equiv.swap_apply_of_ne_of_ne e1 e2]; exact hy
    · intro hx
      refine ⟨Equiv.swap a b x, ?_, by simp⟩
      by_cases e1 : x = a
      · subst e1; simpa using hb
      · by_cases e2 : x = b
        · subst e2; simpa using ha
        · rw [Equiv.swap_apply_of_ne_of_ne e1 e2]; exact hx
  have := (hperm.map w)
  rw [List.map_map] at this
  exact Multiset.coe_eq_coe.2 this

/-- Exchanging two weights against the order of the lengths lowers the
weighted sum. -/
theorem sum_swap_lt (K : List Symbol) (hnd : K.Nodup) (a b : Symbol) (ha : a ∈ K) (hb : b ∈ K)
    (L w : Symbol → Int) (hw : w b < w a) (hL : L b < L a) :
    (K.map (fun k => L k * w (Equiv.swap a b k))).sum < (K.map (fun k => L k * w k)).sum := by
  have hab : a ≠ b := by
    rintro rfl
    exact (lt_irrefl _ hw)
  rw [← List.sum_toFinset _ hnd, ← List.sum_toFinset _ hnd]
  have ha' : a ∈ K.toFinset := List.mem_toFinset.2 ha
  have hb' : b ∈ K.toFinset.erase a := Finset.mem_erase.2 ⟨hab.symm, List.mem_toFinset.2 hb⟩
  rw [← Finset.add_sum_erase _ _ ha', ← Finset.add_sum_erase _ _ hb',
    ← Finset.add_sum_erase _ (fun k => L k * w k) ha',
    ← Finset.add_sum_erase _ (fun k => L k * w k) hb']
  have hrest : ∑ x ∈ (K.toFinset.erase a).erase b, L x * w (Equiv.swap a b x) =
      ∑ x ∈ (K.toFinset.erase a).erase b, L x * w x := by
    apply Finset.sum_congr rfl
    intro x hx
    have h1 : x ≠ b := (Finset.mem_erase.1 hx).1
    have h2 : x ≠ a := (Finset.mem_erase.1 (Finset.mem_erase.1 hx).2).1
    rw [Equiv.swap_apply_of_ne_of_ne h2 h1]
  rw [hrest]
  simp only [Equiv.swap_apply_left, Equiv.swap_apply_right]
  have key : L a * w b + L b * w a < L a * w a + L b * w b := by
    nlinarith [mul_pos (sub_pos.2 hL) (sub_pos.2 hw)]
  linarith

/-- C18 (as the code behaves): codeword length is antitone in frequency for
inputs of at most `INT_MAX` = 2147483647 bytes: for every such input, with
every priority queue and iteration order, if the byte `a` occurs strictly
more often than the byte `b`, both have codewords and the codeword of `a`
is no longer than the codeword of `b`. -/
theorem codeword_length_antitone (Q : PriorityQueue) (M : MapOrder) (input : List Symbol)
    (a b : Symbol) (ha : a ∈ input) (hb : b ∈ input) (hlt : input.count b < input.count a)
    (hlen : input.length ≤ 2147483647) :
    ∃ root ca cb,
      buildHuffmanTree Q (M.entries (countFrequencies input (UnorderedMap.empty Int)))
        = Except.ok root ∧
      generateHuffmanCodes root [] (UnorderedMap.empty CString) a = some ca ∧
      generateHuffmanCodes root [] (UnorderedMap.empty CString) b = some cb ∧
      ca.length ≤ cb.length := by
  have hne : input ≠ [] := List.ne_nil_of_mem ha
  have hbd := count_le_of_length_le input hlen
  obtain ⟨root, hroot, _, _, hperm, hnd, hkeys⟩ := leaves_of_input Q M input hne
  obtain ⟨ca, hca⟩ := generateHuffmanCodes_of_leaf root a ((hkeys a).2 ha)
    (UnorderedMap.empty CString)
  obtain ⟨cb, hcb⟩ := generateHuffmanCodes_of_leaf root b ((hkeys b).2 hb)
    (UnorderedMap.empty CString)
  refine ⟨root, ca, cb, hroot, hca, hcb, ?_⟩
  by_contra hcon
  have hL : cb.length < ca.length := by omega
  -- the tree is optimal among the trees with its leaf weights
  obtain ⟨r1, hr1, _, _, hopt⟩ := buildHuffmanTree_of_input Q M input hne hlen
  have e1 : r1 = root := by rw [hroot] at hr1; injection hr1 with h; exact h.symm
  subst e1
  have hw1 : ∀ p ∈ r1.leaves, p.2 = (input.count p.1 : Int) := by
    intro p hp
    have := hperm.mem_iff.1 hp
    simp only [List.mem_map, List.mem_dedup] at this
    obtain ⟨k, _, rfl⟩ := this
    exact wrapInt_natCast _ (hbd k)
  have hkperm : (r1.leaves.map Prod.fst).Perm input.dedup := by
    have := hperm.map Prod.fst
    simpa [Function.comp_def] using this
  -- the tree with the frequencies of `a` and `b` exchanged
  have hcand := hopt (r1.relabel (fun k => (input.count (Equiv.swap a b k) : Int))) (by
    rw [HuffmanNode.leafWeights, leaves_relabel, List.map_map]
    have h1 := map_swap_coe (r1.leaves.map Prod.fst) hnd a b ((hkeys a).2 ha) ((hkeys b).2 hb)
      (fun k => (input.count k : Int))
    have h2 : (((r1.leaves.map Prod.fst).map (fun k => (input.count k : Int)) : List Int) :
        Multiset Int) = ((input.dedup.map (fun k => (input.count k : Int)) : List Int) :
          Multiset Int) := Multiset.coe_eq_coe.2 (hkperm.map _)
    rw [← h2, ← h1, List.map_map]
    rfl)
  have hroot_cost : r1.weightedPathLength =
      ((r1.leaves.map Prod.fst).map (fun k =>
        (((generateHuffmanCodes r1 [] (UnorderedMap.empty CString) k).getD []).length : Int) *
          (input.count k : Int))).sum := by
    have h := sum_code_lengths r1 [] (UnorderedMap.empty CString) hnd
    rw [HuffmanNode.weightedPathLength,
      show HuffmanNode.weightedPathLengthAt 0 r1 =
        HuffmanNode.weightedPathLengthAt ([] : CString).length r1 from rfl, ← h, List.map_map]
    apply congrArg
    apply List.map_congr_left
    intro p hp
    simp [hw1 p hp]
  rw [weightedPathLength_relabel _ r1 hnd] at hcand
  have hlt2 := sum_swap_lt (r1.leaves.map Prod.fst) hnd a b ((hkeys a).2 ha) ((hkeys b).2 hb)
    (fun k => (((generateHuffmanCodes r1 [] (UnorderedMap.empty CString) k).getD []).length
      : Int))
    (fun k => (input.count k : Int)) (by beta_reduce; exact_mod_cast hlt) (by
      simp only [hca, hcb, Option.getD_some]
      exact_mod_cast hL)
  beta_reduce at hlt2
  omega

/-- Witness of C18 on the input "aaab". -/
theorem codeword_length_antitone_witness :
    ((97 : Symbol) ∈ ([97, 97, 97, 98] : List Symbol) ∧
      (98 : Symbol) ∈ ([97, 97, 97, 98] : List Symbol) ∧
      ([97, 97, 97, 98] : List Symbol).count 98 < ([97, 97, 97, 98] : List Symbol).count 97 ∧
      ([97, 97, 97, 98] : List Symbol).length ≤ 2147483647) ∧
    ∃ root ca cb,
      buildHuffmanTree firstMinQueue
        (ascendingOrder.entries (countFrequencies [97, 97, 97, 98] (UnorderedMap.empty Int)))
        = Except.ok root ∧
      generateHuffmanCodes root [] (UnorderedMap.empty CString) 97 = some ca ∧
      generateHuffmanCodes root [] (UnorderedMap.empty CString) 98 = some cb ∧
      ca.length ≤ cb.length :=
  ⟨⟨by decide, by decide, by decide, by decide⟩,
    codeword_length_antitone firstMinQueue ascendingOrder [97, 97, 97, 98] 97 98
      (by decide) (by decide) (by decide) (by decide)⟩

section

set_option maxRecDepth 100000

/-- C18, counterexample: in the input of 2147483648 bytes `a` followed by
"bbccc" the byte `a` occurs more often than `c`, but its counter wraps around
to -2147483648, it is combined first, and with every priority queue and
iteration order it gets the codeword 00 of two characters while `c` gets
the codeword 1 of one character. -/
theorem codeword_longer_for_frequent_byte :
    (∀ (Q : PriorityQueue) (M : MapOrder), ∃ root,
      buildHuffmanTree Q (M.entries (countFrequencies
          (List.replicate 2147483648 97 ++ [98, 98, 99, 99, 99])
          (UnorderedMap.empty Int))) = Except.ok root ∧
      generateHuffmanCodes root [] (UnorderedMap.empty CString) 97 = some ['0', '0'] ∧
      generateHuffmanCodes root [] (UnorderedMap.empty CString) 99 = some ['1']) ∧
    (List.replicate 2147483648 (97 : Symbol) ++ [98, 98, 99, 99, 99]).count 99 = 3 ∧
    (List.replicate 2147483648 (97 : Symbol) ++ [98, 98, 99, 99, 99]).count 97 = 2147483648 := by
  refine ⟨fun Q M => ?_, ?_, ?_⟩
  · obtain ⟨h1, _, _⟩ := compressFile_of_strictRun Q M 2147483648 97 [98, 98, 99, 99, 99]
      (by decide) (by decide) [(97, -2147483648), (98, 2), (99, 3)] 2
      (combine (combine (HuffmanNode.mk 97 (-2147483648)) (HuffmanNode.mk 98 2))
        (HuffmanNode.mk 99 3))
      (by decide) (by decide)
    exact ⟨_, h1, by decide, by decide⟩
  · rw [count_replicate_append_of_ne _ _ _ _ (by decide)]
    decide
  · exact count_replicate_append_self _ _ _ (by decide)

end

/-! ## Independence of tie-breaking -/

/-- C19 (as the code behaves): for inputs of at most `INT_MAX` = 2147483647
bytes the size of the output does not depend on tie-breaking: for every
such non-empty input, any two priority queues and any two orders in which
the entries of the frequency map are seeded, both runs return, the two
encoded bit strings have the same number of characters and the same number
of bytes is written. -/
theorem output_size_independent (Q1 Q2 : PriorityQueue) (M1 M2 : MapOrder)
    (input : List Symbol) (hne : input ≠ []) (hlen : input.length ≤ 2147483647) :
    ∃ r1 r2 out1 out2,
      buildHuffmanTree Q1 (M1.entries (countFrequencies input (UnorderedMap.empty Int)))
        = Except.ok r1 ∧
      buildHuffmanTree Q2 (M2.entries (countFrequencies input (UnorderedMap.empty Int)))
        = Except.ok r2 ∧
      compressFile Q1 M1 input = Except.ok out1 ∧
      compressFile Q2 M2 input = Except.ok out2 ∧
      (encodeInput input [] (generateHuffmanCodes r1 [] (UnorderedMap.empty CString))).1.length =
        (encodeInput input [] (generateHuffmanCodes r2 [] (UnorderedMap.empty CString))).1.length ∧
      out1.length = out2.length := by
  obtain ⟨r1, r2, hr1, hr2, ho1, ho2, hbits⟩ :=
    compressFile_length_eq Q1 Q2 M1 M2 input hne hlen
  exact ⟨r1, r2, _, _, hr1, hr2, ho1, ho2, hbits, by rw [packBits_length, packBits_length, hbits]⟩

/-- Witness of C19 on the input "ab", whose two iteration orders give
different bytes. -/
theorem output_size_independent_witness :
    ([97, 98] : List Symbol) ≠ [] ∧ ([97, 98] : List Symbol).length ≤ 2147483647 ∧
    ∃ r1 r2 out1 out2,
      buildHuffmanTree firstMinQueue
        (ascendingOrder.entries (countFrequencies [97, 98] (UnorderedMap.empty Int)))
        = Except.ok r1 ∧
      buildHuffmanTree firstMinQueue
        (descendingOrder.entries (countFrequencies [97, 98] (UnorderedMap.empty Int)))
        = Except.ok r2 ∧
      compressFile firstMinQueue ascendingOrder [97, 98] = Except.ok out1 ∧
      compressFile firstMinQueue descendingOrder [97, 98] = Except.ok out2 ∧
      (encodeInput [97, 98] []
          (generateHuffmanCodes r1 [] (UnorderedMap.empty CString))).1.length =
        (encodeInput [97, 98] []
          (generateHuffmanCodes r2 [] (UnorderedMap.empty CString))).1.length ∧
      out1.length = out2.length :=
  ⟨by simp, by decide,
    output_size_independent firstMinQueue firstMinQueue ascendingOrder descendingOrder
      [97, 98] (by simp) (by decide)⟩

/-- The frequency map after a run of `n` bytes `a` and further bytes depends
on `n` only through its value as an `int`. -/
theorem countFrequencies_replicate_congr (n1 n2 : Nat) (a : Symbol) (rest : List Symbol)
    (h1 : 0 < n1) (h2 : 0 < n2) (h : wrapInt (n1 : Int) = wrapInt (n2 : Int)) :
    countFrequencies (List.replicate n1 a ++ rest) (UnorderedMap.empty Int) =
      countFrequencies (List.replicate n2 a ++ rest) (UnorderedMap.empty Int) := by
  funext k
  rw [countFrequencies_apply, countFrequencies_apply]
  have hmem : ∀ n : Nat, 0 < n → (k ∈ List.replicate n a ++ rest ↔ k = a ∨ k ∈ rest) := by
    intro n hn
    rw [List.mem_append, List.mem_replicate]
    constructor
    · rintro (⟨_, h⟩ | h)
      · exact Or.inl h
      · exact Or.inr h
    · rintro (h | h)
      · exact Or.inl ⟨by omega, h⟩
      · exact Or.inr h
  by_cases hk : k = a ∨ k ∈ rest
  · rw [if_pos ((hmem n1 h1).2 hk), if_pos ((hmem n2 h2).2 hk)]
    simp only [UnorderedMap.empty, Option.getD_none, zero_add]
    apply congrArg some
    by_cases e : k = a
    · subst e
      rw [List.count_append, List.count_append, List.count_replicate_self,
        List.count_replicate_self, Nat.cast_add, Nat.cast_add,
        ← wrapInt_wrapInt_add (n1 : Int), ← wrapInt_wrapInt_add (n2 : Int), h]
    · rw [count_replicate_append_of_ne n1 a rest k e, count_replicate_append_of_ne n2 a rest k e]
  · rw [if_neg (fun h => hk ((hmem n1 h1).1 h)), if_neg (fun h => hk ((hmem n2 h2).1 h))]

theorem compressFile_of_tree (Q : PriorityQueue) (M : MapOrder) (input : List Symbol)
    (root : HuffmanNode)
    (h : buildHuffmanTree Q (M.entries (countFrequencies input (UnorderedMap.empty Int)))
      = Except.ok root) :
    compressFile Q M input = Except.ok (packBits
      (encodeInput input [] (generateHuffmanCodes root [] (UnorderedMap.empty CString))).1) := by
  simp only [compressFile, h]

theorem encodeInput_replicate_append_length (m : UnorderedMap CString) (n : Nat) (a : Symbol)
    (rest : List Symbol) :
    (encodeInput (List.replicate n a ++ rest) [] m).1.length =
      n * ((m a).getD []).length + (concatCodes m rest).length := by
  rw [encodeInput_fst, List.nil_append, concatCodes_append, List.length_append,
    concatCodes_replicate_length]

section

set_option maxRecDepth 100000

/-- C19, counterexample: for the input of 4294967297 bytes `a` followed by
"bc" the three counters hold 1, 1 and 1 (the counter of `a` has wrapped
around), so the three leaves tie; with the priority queue that has the
earliest inserted node of least frequency on top, seeding in ascending
order gives `a` a codeword of two characters, 8589934597 encoded
characters and 1073741825 bytes, seeding in descending order gives `a` a
codeword of one character, 4294967301 encoded characters and 536870913
bytes. -/
theorem output_size_depends_on_order :
    ∃ r1 r2 out1 out2,
      buildHuffmanTree firstMinQueue (ascendingOrder.entries (countFrequencies
          (List.replicate 4294967297 97 ++ [98, 99]) (UnorderedMap.empty Int))) = Except.ok r1 ∧
      buildHuffmanTree firstMinQueue (descendingOrder.entries (countFrequencies
          (List.replicate 4294967297 97 ++ [98, 99]) (UnorderedMap.empty Int))) = Except.ok r2 ∧
      compressFile firstMinQueue ascendingOrder (List.replicate 4294967297 97 ++ [98, 99])
        = Except.ok out1 ∧
      compressFile firstMinQueue descendingOrder (List.replicate 4294967297 97 ++ [98, 99])
        = Except.ok out2 ∧
      (encodeInput (List.replicate 4294967297 97 ++ [98, 99]) []
        (generateHuffmanCodes r1 [] (UnorderedMap.empty CString))).1.length = 8589934597 ∧
      (encodeInput (List.replicate 4294967297 97 ++ [98, 99]) []
        (generateHuffmanCodes r2 [] (UnorderedMap.empty CString))).1.length = 4294967301 ∧
      out1.length = 1073741825 ∧ out2.length = 536870913 := by
  have hm : countFrequencies (List.replicate 4294967297 97 ++ [98, 99])
      (UnorderedMap.empty Int) = countFrequencies [97, 98, 99] (UnorderedMap.empty Int) :=
    countFrequencies_replicate_congr 4294967297 1 97 [98, 99] (by decide) (by decide)
      (by decide)
  have ht1 : buildHuffmanTree firstMinQueue (ascendingOrder.entries
      (countFrequencies [97, 98, 99] (UnorderedMap.empty Int))) =
      Except.ok (combine (HuffmanNode.mk 99 1)
        (combine (HuffmanNode.mk 97 1) (HuffmanNode.mk 98 1))) := by rfl
  have ht2 : buildHuffmanTree firstMinQueue (descendingOrder.entries
      (countFrequencies [97, 98, 99] (UnorderedMap.empty Int))) =
      Except.ok (combine (HuffmanNode.mk 97 1)
        (combine (HuffmanNode.mk 99 1) (HuffmanNode.mk 98 1))) := by rfl
  rw [← hm] at ht1 ht2
  have hb1 := encodeInput_replicate_append_length
    (generateHuffmanCodes (combine (HuffmanNode.mk 99 1)
      (combine (HuffmanNode.mk 97 1) (HuffmanNode.mk 98 1))) [] (UnorderedMap.empty CString))
    4294967297 97 [98, 99]
  have hb2 := encodeInput_replicate_append_length
    (generateHuffmanCodes (combine (HuffmanNode.mk 97 1)
      (combine (HuffmanNode.mk 99 1) (HuffmanNode.mk 98 1))) [] (UnorderedMap.empty CString))
    4294967297 97 [98, 99]
  have hv1 : (encodeInput (List.replicate 4294967297 97 ++ [98, 99]) []
      (generateHuffmanCodes (combine (HuffmanNode.mk 99 1)
        (combine (HuffmanNode.mk 97 1) (HuffmanNode.mk 98 1))) []
        (UnorderedMap.empty CString))).1.length = 8589934597 := by
    rw [hb1]
    decide
  have hv2 : (encodeInput (List.replicate 4294967297 97 ++ [98, 99]) []
      (generateHuffmanCodes (combine (HuffmanNode.mk 97 1)
        (combine (HuffmanNode.mk 99 1) (HuffmanNode.mk 98 1))) []
        (UnorderedMap.empty CString))).1.length = 4294967301 := by
    rw [hb2]
    decide
  refine ⟨_, _, _, _, ht1, ht2, compressFile_of_tree _ _ _ _ ht1,
    compressFile_of_tree _ _ _ _ ht2, hv1, hv2, ?_, ?_⟩
  · rw [packBits_length, hv1]
  · rw [packBits_length, hv2]

end

end Huffman
